import Mathlib

/-! # Verification of the lab0 MapReduce engine (`src/lab0/mapreduce.go`)

A shallow embedding of the single-process MapReduce engine: the partitioner
(`ihash`), the file naming functions (`reduceName`, `mergeName`), the two branches
of `MRCluster.worker` (map task, reduce task) and the coordinator `MRCluster.run`,
both as a function (each phase in index order) and as a transition system in which
the coordinator and the workers interleave; and of the first round of the URL
count job of `src/lab0/urltop10.go` (`URLCountMap`, `URLCountReduce`) with the
reader of its output (`FormatData`).

Conventions of the embedding.
* A Go `string` is a Lean `String` (text that is valid UTF-8); `[]byte(s)` is its
  UTF-8 encoding.  A Go `int` is a Lean `Int` (the engine's indices and counts stay
  far below 2^63; the places where a machine width matters are the 32-bit hash,
  which is reduced modulo 2^32 explicitly, and the arithmetic of `urltop10.go` on
  numbers read from the input, which is reduced to 64 bits explicitly by `wrap64`).
* The file system is a finite map from path strings to file contents.  Opening a
  path that is absent is the fatal "cannot open".  Writing (`atomic.WriteFile`)
  replaces the content at a path when it succeeds.  The functions `doMap`,
  `doReduce`, `worker` and `run` describe a task or a job all of whose writes
  succeed; `workerWith` and the transition system add the write that fails (the
  fatal `log.Fatalf(err.Error())`) and the limit on the size of a slice.
* `log.Fatalf` and run-time panics end the process: a task is a function into
  `Except Abort`.
* The standard library (`hash/fnv`, `strconv.Itoa`, `path.Join`, `encoding/json`) is
  not part of the repository.  `fnv`, `Itoa` and `path.Join`/`path.Clean` are
  transcribed from the Go standard library, as are `strconv.Atoi`,
  `strings.TrimSpace` and `strings.Split` (for separators of one character); the
  JSON encoder/decoder is a parameter (`JSONCodec`).
* Go leaves the iteration order of a `map` unspecified; the order a reduce task
  visits its groups in is a parameter (`MapIter`), constrained to visit every entry
  exactly once, and so is the order `URLCountMap` visits its counts in (`IntIter`).
-/

namespace MapReduce

/-! ## Data model -/

/-- The pair passed to the map and reduce functions (`type KeyValue struct`). -/
structure KeyValue where
  Key : String
  Value : String
deriving DecidableEq, Repr

/-- The type `type ReduceF func(key string, values []string) string`. -/
abbrev ReduceF := String → List String → String

/-- The type `type MapF func(filename string, contents string) []KeyValue`. -/
abbrev MapF := String → String → List KeyValue

/-- The type `type jobPhase uint8` with its two constants. -/
inductive jobPhase where
  | mapPhase
  | reducePhase
deriving DecidableEq, Repr

/-- The descriptor `type task struct` (without its wait group, which is the
completion signal of the coordinator).  A function field that the coordinator leaves
unset is Go's `nil`, here `none`. -/
structure task where
  dataDir : String
  jobName : String
  mapFile : String := ""
  phase : jobPhase
  taskNumber : Int
  nMap : Int := 0
  nReduce : Int := 0
  mapF : Option MapF := none
  reduceF : Option ReduceF := none

/-- The ways a task can end the process. -/
inductive Abort where
  | cannotOpen (path : String)
  | divideByZero
  | makeslice
  | indexOutOfRange
  | nilFunc
  | cannotWrite (path : String)
deriving DecidableEq, Repr

deriving instance DecidableEq for Except

/-- The file system: the content stored at each path, if any. -/
abbrev FS := String → Option String

/-- The effect of an `atomic.WriteFile(path, content)` that succeeds.  One that fails
ends the process (`log.Fatalf`, lines 122-124 and 158-160): see `workerWith`. -/
def FS.write (fs : FS) (path content : String) : FS :=
  fun p => if p = path then some content else fs p

/-! ## Standard library: `hash/fnv` -/

/-- The UTF-8 encoding of one code point. -/
def utf8Bytes (c : Char) : List Nat :=
  let v := c.toNat
  if v < 0x80 then [v]
  else if v < 0x800 then [0xC0 + v / 64, 0x80 + v % 64]
  else if v < 0x10000 then [0xE0 + v / 4096, 0x80 + v / 64 % 64, 0x80 + v % 64]
  else [0xF0 + v / 262144, 0x80 + v / 4096 % 64, 0x80 + v / 64 % 64, 0x80 + v % 64]

/-- The conversion `[]byte(s)`. -/
def bytesOf (s : String) : List Nat := s.data.flatMap utf8Bytes

/-- The hash `fnv.New32a()` followed by `Write(bytes)` and `Sum32()`: starting from
the offset basis, for each byte xor it in and multiply by the FNV prime modulo
2^32. -/
def fnv32a (bytes : List Nat) : Nat :=
  bytes.foldl (fun h b => ((h ^^^ b) * 16777619) % 2 ^ 32) 2166136261

/-- The function `func ihash(s string) int` (lines 231-235). -/
def ihash (s : String) : Int := Int.ofNat (fnv32a (bytesOf s) &&& 0x7fffffff)

/-! ## Standard library: `strconv.Itoa` -/

/-- The ASCII digit of `d < 10`. -/
def digitChar (d : Nat) : Char := Char.ofNat (48 + d)

/-- Decimal digits of `u`, most significant first (`fuel` bounds the number of
digits). -/
def formatBits : Nat → Nat → List Char
  | 0, _ => []
  | fuel + 1, u =>
    if u < 10 then [digitChar u] else formatBits fuel (u / 10) ++ [digitChar (u % 10)]

/-- Decimal rendering of a natural number. -/
def formatNat (u : Nat) : List Char := formatBits (u + 1) u

/-- The function `strconv.Itoa`: decimal rendering, with a leading `-` for a negative
number. -/
def Itoa (i : Int) : String :=
  if i < 0 then ⟨'-' :: formatNat i.natAbs⟩ else ⟨formatNat i.natAbs⟩

/-! ## Standard library: `path.Clean` and `path.Join` -/

/-- The inner loop of the `..` case of `path.Clean`: `rev` is the written prefix
`buf[:w]` reversed and `atW` the byte at index `w`; the loop steps back while
`w > dotdot` and `buf[w] != '/'`. -/
def backtrackLoop (dotdot : Nat) : List Char → Char → List Char
  | [], _ => []
  | c :: rev, atW =>
    if (c :: rev).length > dotdot ∧ atW ≠ '/' then backtrackLoop dotdot rev c else c :: rev

/-- The `..` case of `path.Clean` when it can backtrack: `out.w--` and then the loop
above.  `out` is the written prefix of the buffer. -/
def backtrack (out : List Char) (dotdot : Nat) : List Char :=
  match out.reverse with
  | [] => []
  | c :: rev => (backtrackLoop dotdot rev c).reverse

/-- The test `c != '/'`. -/
def notSlash (c : Char) : Bool := c != '/'

/-- One iteration of the loop `for r < n` of `path.Clean`, at a position where the
unread part `path[r:]` is `c :: tl`.  The state is the written part of the output
buffer and the index `dotdot`; the result is the unread part and the state after
the iteration.  The four cases are those of the `switch`: an empty element, a `.`
element, a `..` element, a real element. -/
def cleanStep (rooted : Bool) (c : Char) (tl : List Char) (st : List Char × Nat) :
    List Char × (List Char × Nat) :=
  if c = '/' then
    (tl, st)
  else if c = '.' ∧ (tl = [] ∨ tl.head? = some '/') then
    (tl, st)
  else if c = '.' ∧ tl.head? = some '.' ∧ (tl.tail = [] ∨ tl.tail.head? = some '/') then
    if st.1.length > st.2 then
      (tl.tail, (backtrack st.1 st.2, st.2))
    else if !rooted then
      let out2 := (if st.1.length > 0 then st.1 ++ ['/'] else st.1) ++ ['.', '.']
      (tl.tail, (out2, out2.length))
    else
      (tl.tail, st)
  else
    let out2 := if (rooted && st.1.length != 1) || (!rooted && st.1.length != 0)
      then st.1 ++ ['/'] else st.1
    ((c :: tl).dropWhile notSlash, (out2 ++ (c :: tl).takeWhile notSlash, st.2))

/-- The loop `for r < n` of `path.Clean` on the unread part of the path.  Every
iteration consumes at least one byte, so `fuel = len(path)` is enough. -/
def cleanLoop (rooted : Bool) : Nat → List Char → List Char × Nat → List Char × Nat
  | 0, _, st => st
  | _ + 1, [], st => st
  | fuel + 1, c :: tl, st =>
    cleanLoop rooted fuel (cleanStep rooted c tl st).1 (cleanStep rooted c tl st).2

/-- The function `path.Clean` on the characters of the path. -/
def cleanList (path : List Char) : List Char :=
  if path = [] then ['.'] else
    let rooted : Bool := path.head? = some '/'
    let st := if rooted then cleanLoop rooted path.length path.tail (['/'], 1)
      else cleanLoop rooted path.length path ([], 0)
    if st.1.length = 0 then ['.'] else st.1

/-- The function `path.Clean`. -/
def Clean (path : String) : String := ⟨cleanList path.data⟩

/-- The function `path.Join`: the elements from the first non-empty one on, separated
by slashes, cleaned; the empty string when every element is empty. -/
def Join (elem : List String) : String :=
  match elem.dropWhile (fun e => e = "") with
  | [] => ""
  | es => Clean ("/".intercalate es)

/-! ## File names -/

/-- The function `func reduceName(dataDir, jobName string, mapTask int, reduceTask int)
string` (lines 237-239). -/
def reduceName (dataDir jobName : String) (mapTask reduceTask : Int) : String :=
  Join [dataDir, "mrtmp." ++ jobName ++ "-" ++ Itoa mapTask ++ "-" ++ Itoa reduceTask]

/-- The function `func mergeName(dataDir, jobName string, reduceTask int) string` (lines
241-243). -/
def mergeName (dataDir jobName : String) (reduceTask : Int) : String :=
  Join [dataDir, "mrtmp." ++ jobName ++ "-res-" ++ Itoa reduceTask]

/-! ## Standard library: `encoding/json` (a parameter) -/

/-- The error a `Decode` call ends a stream with: `io.EOF` at the clean end of the
input, anything else for a malformed or truncated record. -/
inductive DecodeError where
  | EOF
  | Malformed
deriving DecidableEq, Repr

/-- What a `json.Decoder` over a finite file does when `Decode` is called again and
again: it yields finitely many records (`pending`) and then the error `err`. -/
structure Decoder where
  pending : List KeyValue
  err : DecodeError
deriving DecidableEq, Repr

/-- The JSON layer: `Encode` is the text `enc.Encode(&kv)` appends to the buffer,
`NewDecoder` the decoder `json.NewDecoder` builds over a file content. -/
structure JSONCodec where
  Encode : KeyValue → String
  NewDecoder : String → Decoder

/-- The buffer after `enc.Encode(&kv)` for each record of a bucket in turn. -/
def JSONCodec.encodeAll (c : JSONCodec) (kvs : List KeyValue) : String :=
  kvs.foldl (fun buf kv => buf ++ c.Encode kv) ""

/-- The codec round-trips: decoding what was encoded yields the same records and
then the clean end of input. -/
def JSONCodec.Faithful (c : JSONCodec) : Prop :=
  ∀ kvs : List KeyValue, c.NewDecoder (c.encodeAll kvs) = ⟨kvs, DecodeError.EOF⟩

/-! ## Go maps -/

/-- The `map[string][]string` of a reduce task: its entries, keys pairwise
distinct, in order of first insertion. -/
abbrev GoMap := List (String × List String)

/-- The read `results[key]`: the zero value (nil slice) for an absent key. -/
def GoMap.get (m : GoMap) (key : String) : List String := (m.lookup key).getD []

/-- The assignment `results[key] = values`. -/
def GoMap.set : GoMap → String → List String → GoMap
  | [], key, values => [(key, values)]
  | (k, v) :: rest, key, values =>
    if k = key then (k, values) :: rest else (k, v) :: GoMap.set rest key values

/-- The order in which `for key, values := range results` visits the entries of a
map: unspecified by Go, but each entry is visited exactly once. -/
structure MapIter where
  order : GoMap → GoMap
  perm : ∀ m : GoMap, (order m).Perm m

/-- The iteration that visits the entries in order of first insertion. -/
def MapIter.insertion : MapIter := ⟨fun m => m, fun m => List.Perm.refl m⟩

/-! ## The worker: map task -/

/-- Go's `a % b` on `int`: truncated remainder, a run-time panic for `b = 0`. -/
def goMod (a b : Int) : Except Abort Int :=
  if b = 0 then .error Abort.divideByZero else .ok (a.tmod b)

/-- The partition index of a key: the value of `ihash(kv.Key) % t.nReduce` (line
105) for a divisor that is not zero. -/
def partition (key : String) (nReduce : Int) : Int := (ihash key).tmod nReduce

/-- The records of `kvs` routed to partition `p`: those whose key has partition
index `p`, in the order of `kvs`. -/
def routed (kvs : List KeyValue) (nReduce : Int) (p : Nat) : List KeyValue :=
  kvs.filter fun kv => decide (partition kv.Key nReduce = Int.ofNat p)

/-- The loop `for _, kv := range kvs` of the map task (lines 104-107): the index is
`ihash(kv.Key) % t.nReduce`, and the record is appended to the bucket at that
index; an index outside the slice is a run-time panic. -/
def partitionLoop (nReduce : Int) :
    List KeyValue → List (List KeyValue) → Except Abort (List (List KeyValue))
  | [], intermediates => .ok intermediates
  | kv :: rest, intermediates =>
    match goMod (ihash kv.Key) nReduce with
    | .error e => .error e
    | .ok index =>
      if 0 ≤ index ∧ index < intermediates.length then
        partitionLoop nReduce rest
          (intermediates.set index.toNat (intermediates.getD index.toNat [] ++ [kv]))
      else .error Abort.indexOutOfRange

/-- The buckets of a map task (lines 103-107): `make([][]KeyValue, t.nReduce)`, a
panic for a negative length, and then the loop above. -/
def partitionKVs (kvs : List KeyValue) (nReduce : Int) :
    Except Abort (List (List KeyValue)) :=
  if nReduce < 0 then .error Abort.makeslice
  else partitionLoop nReduce kvs (List.replicate nReduce.toNat [])

/-- The loop `for index, intermediate := range intermediates` (lines 109-126):
bucket `index` is encoded and written to `reduceName(dataDir, jobName, taskNumber,
index)`.  The writes run concurrently in the source and are joined by a wait group;
here they happen in index order. -/
def writeBuckets (c : JSONCodec) (t : task) : List (List KeyValue) → Int → FS → FS
  | [], _, fs => fs
  | intermediate :: rest, index, fs =>
    writeBuckets c t rest (index + 1)
      (fs.write (reduceName t.dataDir t.jobName t.taskNumber index) (c.encodeAll intermediate))

/-- What a task did, for the statements below: the records the map function
returned (map task) or the `(key, values)` arguments the reduce function was called
with, in call order, together with the paths opened for reading (reduce task). -/
structure TaskLog where
  emitted : List KeyValue := []
  opened : List String := []
  calls : GoMap := []

/-- The map branch of `worker` (lines 90-127). -/
def doMap (c : JSONCodec) (fs : FS) (t : task) : Except Abort (FS × TaskLog) :=
  match fs t.mapFile with
  | none => .error (Abort.cannotOpen t.mapFile)
  | some content =>
    match t.mapF with
    | none => .error Abort.nilFunc
    | some mapF =>
      let kvs := mapF t.mapFile content
      match partitionKVs kvs t.nReduce with
      | .error e => .error e
      | .ok intermediates =>
        .ok (writeBuckets c t intermediates 0 fs, { emitted := kvs, opened := [t.mapFile] })

/-! ## The worker: reduce task -/

/-- The loop `for { ... dec.Decode(&kv) ... }` (lines 137-143) on a decoder with the
given pending records: every decoded record is appended to `kvs`; the first error
of `Decode`, whichever it is, leaves the loop. -/
def decodeLoop : List KeyValue → List KeyValue → List KeyValue
  | [], kvs => kvs
  | kv :: pending, kvs => decodeLoop pending (kvs ++ [kv])

/-- The loop `for i := 0; i < t.nMap; i++` (lines 130-147) with `n` iterations left
to run, `i` the loop counter, `kvs` the records accumulated and `opened` the paths
opened so far. -/
def readLoop (c : JSONCodec) (fs : FS) (t : task) :
    Nat → Int → List KeyValue → List String → Except Abort (List KeyValue × List String)
  | 0, _, kvs, opened => .ok (kvs, opened)
  | n + 1, i, kvs, opened =>
    let intermediateFilePath := reduceName t.dataDir t.jobName i t.taskNumber
    match fs intermediateFilePath with
    | none => .error (Abort.cannotOpen intermediateFilePath)
    | some content =>
      readLoop c fs t n (i + 1) (decodeLoop (c.NewDecoder content).pending kvs)
        (opened ++ [intermediateFilePath])

/-- The loop `for _, kv := range kvs` that groups the values by key (lines
148-152). -/
def groupLoop : List KeyValue → GoMap → GoMap
  | [], results => results
  | kv :: rest, results =>
    groupLoop rest (results.set kv.Key (results.get kv.Key ++ [kv.Value]))

/-- The loop `for key, values := range results` (lines 153-157) over the entries in
the order they are visited: the output of each call is appended to the buffer.
Calling a nil reduce function is a run-time panic. -/
def reduceLoop (reduceF : Option ReduceF) : GoMap → String → Except Abort String
  | [], buf => .ok buf
  | (key, values) :: rest, buf =>
    match reduceF with
    | none => .error Abort.nilFunc
    | some f => reduceLoop reduceF rest (buf ++ f key values)

/-- The reduce branch of `worker` (lines 128-161). -/
def doReduce (c : JSONCodec) (it : MapIter) (fs : FS) (t : task) :
    Except Abort (FS × TaskLog) :=
  match readLoop c fs t t.nMap.toNat 0 [] [] with
  | .error e => .error e
  | .ok (kvs, opened) =>
    let results := groupLoop kvs []
    let visited := it.order results
    match reduceLoop t.reduceF visited "" with
    | .error e => .error e
    | .ok buf =>
      .ok (fs.write (mergeName t.dataDir t.jobName t.taskNumber) buf,
        { opened := opened, calls := visited })

/-- The paths a task writes: a map task one intermediate file per bucket index
(lines 109-126), a reduce task its output file (line 158). -/
def writePaths (t : task) : List String :=
  if t.phase = jobPhase.mapPhase then
    (List.range t.nReduce.toNat).map fun index =>
      reduceName t.dataDir t.jobName t.taskNumber (Int.ofNat index)
  else [mergeName t.dataDir t.jobName t.taskNumber]

/-- One task executed by `worker` (lines 89-162). -/
def worker (c : JSONCodec) (it : MapIter) (fs : FS) (t : task) : Except Abort (FS × TaskLog) :=
  if t.phase = jobPhase.mapPhase then doMap c fs t else doReduce c it fs t

/-- One task executed by `worker` (lines 89-162) when `atomic.WriteFile` succeeds on
the paths for which `writable` holds and fails on the others.  The writes are the
last thing a task does, so what precedes them is as in `worker`; when a write fails
the task ends the process with `log.Fatalf(err.Error())` (lines 122-124, 158-160).
Of several writes of a map task that fail, the one of the smallest index is
reported. -/
def workerWith (writable : String → Bool) (c : JSONCodec) (it : MapIter) (fs : FS) (t : task) :
    Except Abort (FS × TaskLog) :=
  match worker c it fs t with
  | .error e => .error e
  | .ok r =>
    match (writePaths t).find? (fun path => !writable path) with
    | some path => .error (Abort.cannotWrite path)
    | none => .ok r

/-! ## The coordinator -/

/-- The tasks of one phase run to completion one after the other, in list order. -/
def runTasks (c : JSONCodec) (it : MapIter) : List task → FS → Except Abort (FS × List TaskLog)
  | [], fs => .ok (fs, [])
  | t :: rest, fs =>
    match worker c it fs t with
    | .error e => .error e
    | .ok (fs1, log) =>
      match runTasks c it rest fs1 with
      | .error e => .error e
      | .ok (fs2, logs) => .ok (fs2, log :: logs)

/-- The map task `run` builds for the input file of index `i` (lines 187-195). -/
def mapTask (jobName dataDir : String) (mapF : MapF) (mapFiles : List String) (nReduce : Int)
    (i : Nat) : task :=
  { dataDir := dataDir, jobName := jobName, mapFile := mapFiles.getD i "",
    phase := jobPhase.mapPhase, taskNumber := Int.ofNat i, nReduce := nReduce,
    mapF := some mapF }

/-- The map tasks `run` builds (lines 186-199), one per input file. -/
def mapTasks (jobName dataDir : String) (mapF : MapF) (mapFiles : List String)
    (nReduce : Int) : List task :=
  (List.range mapFiles.length).map (mapTask jobName dataDir mapF mapFiles nReduce)

/-- The reduce task `run` builds for the reduce index `i` (lines 207-214). -/
def reduceTask (jobName dataDir : String) (reduceF : ReduceF) (nMap : Int) (i : Nat) : task :=
  { dataDir := dataDir, jobName := jobName, phase := jobPhase.reducePhase,
    taskNumber := Int.ofNat i, nMap := nMap, reduceF := some reduceF }

/-- The reduce tasks `run` builds (lines 206-218), one per reduce index. -/
def reduceTasks (jobName dataDir : String) (reduceF : ReduceF) (nMap nReduce : Int) :
    List task :=
  (List.range nReduce.toNat).map (reduceTask jobName dataDir reduceF nMap)

/-- The outcome of a job: the file system it leaves, the list sent on `notify`, and
the logs of its map and reduce tasks in index order. -/
structure RunResult where
  fs : FS
  results : List String
  mapLogs : List TaskLog
  reduceLogs : List TaskLog

/-- The function `func (c *MRCluster) run(...)` (lines 182-229).  The tasks of a phase
are handed to the worker pool and run concurrently in the source; here each phase
runs its tasks in index order, and the next phase begins when the previous one is
over (the two `t.wg.Wait()` loops).  A loop `for i := 0; i < n; i++` is the list
`List.range n.toNat` of its counter values.  `make([]*task, 0, nReduce)` and
`make([]string, nReduce)` panic for a negative `nReduce`. -/
def run (c : JSONCodec) (it : MapIter) (fs : FS) (jobName dataDir : String) (mapF : MapF)
    (reduceF : ReduceF) (mapFiles : List String) (nReduce : Int) : Except Abort RunResult :=
  let nMap : Int := Int.ofNat mapFiles.length
  match runTasks c it (mapTasks jobName dataDir mapF mapFiles nReduce) fs with
  | .error e => .error e
  | .ok (fs1, mapLogs) =>
    if nReduce < 0 then .error Abort.makeslice
    else
      match runTasks c it (reduceTasks jobName dataDir reduceF nMap nReduce) fs1 with
      | .error e => .error e
      | .ok (fs2, reduceLogs) =>
        .ok { fs := fs2,
              results := (List.range nReduce.toNat).map fun i =>
                mergeName dataDir jobName (Int.ofNat i),
              mapLogs := mapLogs, reduceLogs := reduceLogs }

/-- The function `func (c *MRCluster) Submit(...)` (lines 176-180): it starts `run` on
a background path and returns the channel `notify`.  The value here is the list
the caller receives from that channel, which `run` sends as its last step; a job
that aborts delivers nothing. -/
def Submit (c : JSONCodec) (it : MapIter) (fs : FS) (jobName dataDir : String) (mapF : MapF)
    (reduceF : ReduceF) (mapFiles : List String) (nReduce : Int) : Except Abort (List String) :=
  match run c it fs jobName dataDir mapF reduceF mapFiles nReduce with
  | .error e => .error e
  | .ok res => .ok res.results

/-! ## Concrete instances used to exercise the model -/

/-- A small concrete codec: every character of the key is written after a `k`,
every character of the value after a `v`, and a record ends with `;` and a line
feed.  The decoder reads two characters at a time. -/
def tagDecode : List Char → List Char → List Char → Decoder
  | [], key, value =>
    ⟨[], if key = [] ∧ value = [] then DecodeError.EOF else DecodeError.Malformed⟩
  | [_], _, _ => ⟨[], DecodeError.Malformed⟩
  | tag :: ch :: rest, key, value =>
    if tag = 'k' then tagDecode rest (key ++ [ch]) value
    else if tag = 'v' then tagDecode rest key (value ++ [ch])
    else if tag = ';' then
      let d := tagDecode rest [] []
      ⟨⟨⟨key⟩, ⟨value⟩⟩ :: d.pending, d.err⟩
    else ⟨[], DecodeError.Malformed⟩

/-- The encoder of the concrete codec. -/
def tagEncode (kv : KeyValue) : String :=
  ⟨kv.Key.data.flatMap (fun ch => ['k', ch]) ++ kv.Value.data.flatMap (fun ch => ['v', ch])
    ++ [';', '\n']⟩

/-- The concrete codec. -/
def tagCodec : JSONCodec := ⟨tagEncode, fun s => tagDecode s.data [] []⟩

/-- The words of a text that are separated by single spaces; `cur` is the word being
read. -/
def splitWords : List Char → List Char → List String
  | [], cur => if cur = [] then [] else [⟨cur⟩]
  | ch :: rest, cur =>
    if ch = ' ' then (if cur = [] then splitWords rest [] else ⟨cur⟩ :: splitWords rest [])
    else splitWords rest (cur ++ [ch])

/-- Word count, map side: one record with value `1` per word. -/
def wordCountMap : MapF := fun _ contents =>
  (splitWords contents.data []).map fun w => ⟨w, "1"⟩

/-- The number a string of decimal digits denotes. -/
def parseNat (s : String) : Nat := s.data.foldl (fun n ch => 10 * n + (ch.toNat - 48)) 0

/-- Word count, reduce side: the key, a colon, the sum of the values and a line
feed. -/
def wordCountReduce : ReduceF := fun key values =>
  key ++ ":" ++ Itoa (Int.ofNat (values.map parseNat).sum) ++ "\n"

/-- A file system holding the two input files of the word count scenario. -/
def wordFS : FS := fun p =>
  if p = "in0" then some "the cat" else if p = "in1" then some "the dog" else none

/-- The map task of index `0` of the word count job with two partitions. -/
def wordMapTask : task :=
  { dataDir := "/tmp", jobName := "wc", mapFile := "in0", phase := jobPhase.mapPhase,
    taskNumber := 0, nReduce := 2, mapF := some wordCountMap }

/-- The reduce task of index `1` of the word count job with two map tasks. -/
def wordReduceTask : task :=
  { dataDir := "/tmp", jobName := "wc", phase := jobPhase.reducePhase, taskNumber := 1,
    nMap := 2, reduceF := some wordCountReduce }

/-- The file system of the word count job with two partitions after its map phase,
under the concrete codec. -/
def wordShuffledFS : FS := fun p =>
  if p = "/tmp/mrtmp.wc-0-0" then some "ktkhkev1;\n"
  else if p = "/tmp/mrtmp.wc-0-1" then some "kckaktv1;\n"
  else if p = "/tmp/mrtmp.wc-1-0" then some "ktkhkev1;\n"
  else if p = "/tmp/mrtmp.wc-1-1" then some "kdkokgv1;\n"
  else wordFS p

/-- The contents of the two files read by the reduce task of index `1`. -/
def wordContents (i : Nat) : String := if i = 0 then "kckaktv1;\n" else "kdkokgv1;\n"

/-- The buckets of index `1` of the two map tasks. -/
def wordBuckets (i : Nat) : List KeyValue := if i = 0 then [⟨"cat", "1"⟩] else [⟨"dog", "1"⟩]

/-! ## Vocabulary of the statements and proofs -/

/-- The ten decimal digit characters. -/
def IsDigit (c : Char) : Prop := ∃ d, d < 10 ∧ c = digitChar d

/-- The loop of `path.Clean` run on the whole unread part. -/
def cleanRun (rooted : Bool) (rest : List Char) (st : List Char × Nat) : List Char × Nat :=
  cleanLoop rooted rest.length rest st

/-- A sufficient condition for `path.Clean` to copy the last element of a path
unchanged: the element is not empty, has no slash and does not end in a dot. -/
def GoodSeg (S : List Char) : Prop :=
  S ≠ [] ∧ (∀ c ∈ S, c ≠ '/') ∧ S.getLast? ≠ some '.'

/-- The suffix `-m-r` of an intermediate file name. -/
def interSuffix (m r : Nat) : List Char := '-' :: (formatNat m ++ '-' :: formatNat r)

/-- The suffix `-res-r` of an output file name. -/
def mergeSuffix (r : Nat) : List Char := '-' :: 'r' :: 'e' :: 's' :: '-' :: formatNat r

/-- The keys of a map, in entry order. -/
def GoMap.keys (m : GoMap) : List String := m.map Prod.fst

/-- The values of the records with the given key, in record order. -/
def valuesOf (key : String) (kvs : List KeyValue) : List String :=
  (kvs.filter fun kv => decide (kv.Key = key)).map KeyValue.Value

/-- The records a reduce task accumulates from files with the given contents: what
the decoder yields for the file of map task `0`, then for that of map task `1`, and
so on. -/
def accumulated (c : JSONCodec) (cont : Nat → String) (nMap : Nat) : List KeyValue :=
  ((List.range nMap).map fun i => (c.NewDecoder (cont i)).pending).flatten

/-- All records emitted by the map tasks of a job, map task `0` first. -/
def RunResult.emitted (r : RunResult) : List KeyValue :=
  (r.mapLogs.map fun log => log.emitted).flatten

/-- All `(key, values)` pairs the reduce function was called with in a job, reduce
task `0` first. -/
def RunResult.calls (r : RunResult) : GoMap :=
  (r.reduceLogs.map fun log => log.calls).flatten

/-! ## The hash, as the specification words it -/

/-- The 32-bit FNV-1a hash in the words of the specification: from the hash so far,
for each byte in turn, xor the byte in and multiply by 16777619 modulo 2^32. -/
def fnv1aSpec : Nat → List Nat → Nat
  | h, [] => h
  | h, b :: bytes => fnv1aSpec (((h ^^^ b) * 16777619) % 2 ^ 32) bytes

/-- The partitioner's hash in the words of the specification: the FNV-1a hash of the
key's bytes from the offset basis 2166136261, with bit 31 cleared, that is reduced
to its low 31 bits. -/
def ihashSpec (key : String) : Int :=
  Int.ofNat (fnv1aSpec 2166136261 (bytesOf key) % 2 ^ 31)

/-! ## The coordinator and the worker pool as a transition system -/

/-- Where a task stands: `queued` once `run` has built it and started the goroutine
that sends it on `taskCh` (lines 196-198, 215-217), `running` once a worker has
received it (line 89), `done` once the worker has called `t.wg.Done()` (line
162). -/
inductive TaskStatus where
  | queued
  | running
  | done
deriving DecidableEq, Repr

/-- The point `run` has reached: the counter of the loop that builds the map tasks
(lines 186-199), the position in the loop that waits for them (lines 200-202), the
same for the reduce tasks (lines 206-218, 219-221), the send on `notify` (line 228),
the end, or the end of the process by a fatal error or panic. -/
inductive CoordPC where
  | mapCreate (i : Nat)
  | mapWait (k : Nat)
  | reduceCreate (i : Nat)
  | reduceWait (k : Nat)
  | notify
  | finished
  | aborted (e : Abort)
deriving DecidableEq, Repr

/-- The arguments of `Submit`, the two parameters of the embedding, the number of
workers of the cluster, and the environment of the process: the paths on which
`atomic.WriteFile` succeeds, and the largest number of bytes a slice can take
(`make` panics beyond the bound `maxAlloc` of the Go runtime, 2^48 on linux/amd64,
and the process ends when the memory is exhausted before that). -/
structure Job where
  c : JSONCodec
  it : MapIter
  jobName : String
  dataDir : String
  mapF : MapF
  reduceF : ReduceF
  mapFiles : List String
  nReduce : Int
  nWorkers : Nat
  writable : String → Bool
  maxAlloc : Nat

/-- The state of one job in flight: the coordinator's position, the status of each
task built so far (map tasks and reduce tasks by index), the file system, and the
list received from `notify`, if any. -/
structure JobState where
  pc : CoordPC
  mapSt : List TaskStatus
  reduceSt : List TaskStatus
  fs : FS
  delivered : Option (List String)

/-- The state when `run` starts. -/
def JobState.init (fs : FS) : JobState :=
  { pc := CoordPC.mapCreate 0, mapSt := [], reduceSt := [], fs := fs, delivered := none }

/-- One step of the system: the coordinator advances, a worker receives a queued
task, or a worker ends the task it runs. -/
inductive Action where
  | coord
  | start (phase : jobPhase) (index : Nat)
  | finish (phase : jobPhase) (index : Nat)
deriving DecidableEq, Repr

/-- The number of tasks that are being run, each by one worker. -/
def JobState.busy (s : JobState) : Nat :=
  s.mapSt.count TaskStatus.running + s.reduceSt.count TaskStatus.running

/-- The status of the task of the given phase and index, if it has been built. -/
def JobState.status (s : JobState) (phase : jobPhase) (index : Nat) : Option TaskStatus :=
  if phase = jobPhase.mapPhase then s.mapSt[index]? else s.reduceSt[index]?

/-- The state with the status of one task replaced. -/
def JobState.setStatus (s : JobState) (phase : jobPhase) (index : Nat) (st : TaskStatus) :
    JobState :=
  if phase = jobPhase.mapPhase then { s with mapSt := s.mapSt.set index st }
  else { s with reduceSt := s.reduceSt.set index st }

/-- The task of the given phase and index, as `run` builds it. -/
def Job.task (j : Job) (phase : jobPhase) (index : Nat) : task :=
  if phase = jobPhase.mapPhase then mapTask j.jobName j.dataDir j.mapF j.mapFiles j.nReduce index
  else reduceTask j.jobName j.dataDir j.reduceF (Int.ofNat j.mapFiles.length) index

/-- The next step of `run` (lines 182-229), `none` when it is blocked in
`t.wg.Wait()` or has ended.  Building a task queues it; `t.wg.Wait()` on a task
returns once that task is done; the send on `notify` delivers the list of output
paths.  Each `make` panics for a negative length and for a slice larger than the
environment allows: `make([]*task, 0, nMap)` and `make([]*task, 0, nReduce)` take 8
bytes per entry, `make([]string, nReduce)` takes 16 (64-bit platform). -/
def coordStep (j : Job) (s : JobState) : Option JobState :=
  match s.pc with
  | CoordPC.mapCreate i =>
    if 8 * j.mapFiles.length > j.maxAlloc then
      some { s with pc := CoordPC.aborted Abort.makeslice }
    else if i < j.mapFiles.length then
      some { s with mapSt := s.mapSt ++ [TaskStatus.queued], pc := CoordPC.mapCreate (i + 1) }
    else some { s with pc := CoordPC.mapWait 0 }
  | CoordPC.mapWait k =>
    if k < s.mapSt.length then
      if s.mapSt[k]? = some TaskStatus.done then some { s with pc := CoordPC.mapWait (k + 1) }
      else none
    else if j.nReduce < 0 ∨ 8 * j.nReduce.toNat > j.maxAlloc then
      some { s with pc := CoordPC.aborted Abort.makeslice }
    else some { s with pc := CoordPC.reduceCreate 0 }
  | CoordPC.reduceCreate i =>
    if Int.ofNat i < j.nReduce then
      some { s with reduceSt := s.reduceSt ++ [TaskStatus.queued],
                    pc := CoordPC.reduceCreate (i + 1) }
    else some { s with pc := CoordPC.reduceWait 0 }
  | CoordPC.reduceWait k =>
    if k < s.reduceSt.length then
      if s.reduceSt[k]? = some TaskStatus.done then
        some { s with pc := CoordPC.reduceWait (k + 1) }
      else none
    else if 16 * j.nReduce.toNat > j.maxAlloc then
      some { s with pc := CoordPC.aborted Abort.makeslice }
    else some { s with pc := CoordPC.notify }
  | CoordPC.notify =>
    some { s with pc := CoordPC.finished,
                  delivered := some ((List.range j.nReduce.toNat).map fun i =>
                    mergeName j.dataDir j.jobName (Int.ofNat i)) }
  | CoordPC.finished => none
  | CoordPC.aborted _ => none

/-- Whether the process has ended by a fatal error or panic. -/
def JobState.isAborted (s : JobState) : Bool :=
  match s.pc with
  | CoordPC.aborted _ => true
  | _ => false

/-- One step of the system, `none` when the action is not enabled.  A worker
receives a queued task when fewer than `nWorkers` tasks are being run (lines 87-89);
a worker that ends a task has applied the task's effect on the file system
(`workerWith`) and called `t.wg.Done()`, unless the task ended the process.  Nothing
happens after the process has ended. -/
def step (j : Job) (s : JobState) : Action → Option JobState
  | Action.coord => coordStep j s
  | Action.start phase index =>
    if s.isAborted = false ∧ s.status phase index = some TaskStatus.queued ∧
        s.busy < j.nWorkers then
      some (s.setStatus phase index TaskStatus.running)
    else none
  | Action.finish phase index =>
    if s.isAborted = false ∧ s.status phase index = some TaskStatus.running then
      match workerWith j.writable j.c j.it s.fs (j.task phase index) with
      | .error e => some { s with pc := CoordPC.aborted e }
      | .ok (fs2, _) => some { (s.setStatus phase index TaskStatus.done) with fs := fs2 }
    else none

/-- The state after a sequence of steps, `none` when one of them is not enabled. -/
def exec (j : Job) : JobState → List Action → Option JobState
  | s, [] => some s
  | s, a :: rest =>
    match step j s a with
    | none => none
    | some s2 => exec j s2 rest

/-- All map tasks of the job have been built and are done. -/
def JobState.AllMapDone (j : Job) (s : JobState) : Prop :=
  s.mapSt.length = j.mapFiles.length ∧ ∀ st ∈ s.mapSt, st = TaskStatus.done

/-- All reduce tasks of the job have been built and are done. -/
def JobState.AllReduceDone (j : Job) (s : JobState) : Prop :=
  s.reduceSt.length = j.nReduce.toNat ∧ ∀ st ∈ s.reduceSt, st = TaskStatus.done

/-- The word count job with two partitions on a cluster of two workers, in a
directory where every write succeeds. -/
def wordJob : Job :=
  { c := tagCodec, it := MapIter.insertion, jobName := "wc", dataDir := "/tmp",
    mapF := wordCountMap, reduceF := wordCountReduce, mapFiles := ["in0", "in1"],
    nReduce := 2, nWorkers := 2, writable := fun _ => true, maxAlloc := 2 ^ 48 }

/-- A schedule of the word count job: both map tasks run at the same time and end
in the order 1, 0; the reduce tasks run one after the other. -/
def wordSchedule : List Action :=
  [Action.coord, Action.coord, Action.coord,
   Action.start jobPhase.mapPhase 0, Action.start jobPhase.mapPhase 1,
   Action.finish jobPhase.mapPhase 1, Action.finish jobPhase.mapPhase 0,
   Action.coord, Action.coord, Action.coord,
   Action.coord, Action.coord, Action.coord,
   Action.start jobPhase.reducePhase 0, Action.finish jobPhase.reducePhase 0,
   Action.start jobPhase.reducePhase 1, Action.finish jobPhase.reducePhase 1,
   Action.coord, Action.coord, Action.coord, Action.coord]

/-- The invariant of the transition system: what the position of the coordinator
says about the tasks built so far, and the barrier itself (last line). -/
def JobState.Inv (j : Job) (s : JobState) : Prop :=
  (∀ i, s.pc = CoordPC.mapCreate i →
    s.mapSt.length = i ∧ i ≤ j.mapFiles.length ∧ s.reduceSt = []) ∧
  (∀ k, s.pc = CoordPC.mapWait k →
    s.mapSt.length = j.mapFiles.length ∧ (∀ x, x < k → s.mapSt[x]? = some TaskStatus.done) ∧
    s.reduceSt = []) ∧
  (∀ i, s.pc = CoordPC.reduceCreate i →
    s.AllMapDone j ∧ 0 ≤ j.nReduce ∧ s.reduceSt.length = i ∧ i ≤ j.nReduce.toNat) ∧
  (∀ k, s.pc = CoordPC.reduceWait k →
    s.AllMapDone j ∧ 0 ≤ j.nReduce ∧ s.reduceSt.length = j.nReduce.toNat ∧
    ∀ x, x < k → s.reduceSt[x]? = some TaskStatus.done) ∧
  (s.pc = CoordPC.notify ∨ s.pc = CoordPC.finished →
    s.AllMapDone j ∧ 0 ≤ j.nReduce ∧ s.AllReduceDone j) ∧
  (s.reduceSt ≠ [] → s.AllMapDone j)

/-- The list `results` that `run` builds and sends on `notify` (lines 223-228). -/
def Job.results (j : Job) : List String :=
  (List.range j.nReduce.toNat).map fun i => mergeName j.dataDir j.jobName (Int.ofNat i)

/-- The number of steps a task still takes: a queued task is received and ended, a
running one is ended. -/
def TaskStatus.weight : TaskStatus → Nat
  | TaskStatus.queued => 2
  | TaskStatus.running => 1
  | TaskStatus.done => 0

/-- A bound on the number of steps the coordinator still takes from the point it has
reached, counting three for a task it has yet to build (the step that builds it and
the two steps of the task). -/
def JobState.coordRemaining (j : Job) (s : JobState) : Nat :=
  let nM := j.mapFiles.length
  let nR := j.nReduce.toNat
  let lm := s.mapSt.length
  let lr := s.reduceSt.length
  match s.pc with
  | CoordPC.mapCreate i => 3 * (nM - i) + 1 + (lm + (nM - i)) + 1 + (4 * nR + lr + 3)
  | CoordPC.mapWait k => (lm - k) + 1 + (4 * nR + lr + 3)
  | CoordPC.reduceCreate i => 3 * (nR - i) + 1 + (lr + (nR - i)) + 2
  | CoordPC.reduceWait k => (lr - k) + 2
  | CoordPC.notify => 1
  | CoordPC.finished => 0
  | CoordPC.aborted _ => 0

/-- A bound on the number of steps the system can still take: none once the process
has ended. -/
def JobState.remaining (j : Job) (s : JobState) : Nat :=
  if s.isAborted = true then 0
  else 1 + s.coordRemaining j + (s.mapSt.map TaskStatus.weight).sum +
    (s.reduceSt.map TaskStatus.weight).sum

/-- The invariant of a job without input files, started on the file system `fs`: no
map task exists, the process has not ended by an error, the list delivered at the end
is the list of output paths, the output file of every reduce task that is done is
empty, and every file that differs from `fs` is such an output file. -/
def JobState.EmptyInv (j : Job) (fs : FS) (s : JobState) : Prop :=
  s.mapSt = [] ∧ s.isAborted = false ∧
  (s.pc = CoordPC.finished → s.delivered = some j.results) ∧
  (∀ p : Nat, s.reduceSt[p]? = some TaskStatus.done →
    s.fs (mergeName j.dataDir j.jobName (Int.ofNat p)) = some "") ∧
  (∀ path, s.fs path ≠ fs path →
    ∃ p : Nat, p < s.reduceSt.length ∧ path = mergeName j.dataDir j.jobName (Int.ofNat p))

/-- The invariant of a job in which the output file of reduce task `p` cannot be
written: that task is never done, the coordinator has not got past waiting for it,
and nothing has been delivered. -/
def JobState.Stuck (p : Nat) (s : JobState) : Prop :=
  s.reduceSt[p]? ≠ some TaskStatus.done ∧ s.delivered = none ∧
  s.pc ≠ CoordPC.notify ∧ s.pc ≠ CoordPC.finished ∧
  ∀ k, s.pc = CoordPC.reduceWait k → k ≤ p

/-- The invariant of a job whose list of results cannot be allocated: the
coordinator has not got to the send on `notify` and nothing has been delivered. -/
def JobState.Unsent (s : JobState) : Prop :=
  s.delivered = none ∧ s.pc ≠ CoordPC.notify ∧ s.pc ≠ CoordPC.finished

/-- The state of the word count job after fourteen steps of its schedule: both map
tasks are done and the first reduce task is being run. -/
def wordMidState : JobState :=
  (exec wordJob (JobState.init wordFS) (wordSchedule.take 14)).getD (JobState.init wordFS)

/-- The word count job without input files. -/
def emptyJob : Job := { wordJob with mapFiles := [] }

/-- A schedule of the job without input files: the two reduce tasks run at the same
time. -/
def emptySchedule : List Action :=
  [Action.coord, Action.coord, Action.coord, Action.coord, Action.coord,
   Action.start jobPhase.reducePhase 0, Action.start jobPhase.reducePhase 1,
   Action.finish jobPhase.reducePhase 0, Action.finish jobPhase.reducePhase 1,
   Action.coord, Action.coord, Action.coord, Action.coord]

/-- The state of the job without input files at the end of its schedule. -/
def emptyFinal : JobState :=
  (exec emptyJob (JobState.init wordFS) emptySchedule).getD (JobState.init wordFS)

/-- A job without input files, with one reduce task, whose data directory does not
exist: no write succeeds. -/
def unwritableJob : Job :=
  { c := tagCodec, it := MapIter.insertion, jobName := "nd", dataDir := "/nonexistent-dir",
    mapF := wordCountMap, reduceF := wordCountReduce, mapFiles := [],
    nReduce := 1, nWorkers := 2, writable := fun _ => false, maxAlloc := 2 ^ 48 }

/-- A schedule of that job: the coordinator builds the reduce task and waits, a
worker receives the task and ends it. -/
def unwritableSchedule : List Action :=
  [Action.coord, Action.coord, Action.coord, Action.coord,
   Action.start jobPhase.reducePhase 0, Action.finish jobPhase.reducePhase 0]

/-! ## Standard library used by `urltop10.go` -/

/-- The function `unicode.IsSpace`: the white space characters of Unicode. -/
def isSpace (c : Char) : Bool :=
  let v := c.toNat
  (9 ≤ v && v ≤ 13) || v = 0x20 || v = 0x85 || v = 0xA0 || v = 0x1680 ||
    (0x2000 ≤ v && v ≤ 0x200A) || v = 0x2028 || v = 0x2029 || v = 0x202F || v = 0x205F ||
    v = 0x3000

/-- The function `strings.TrimSpace` on the characters of a string: the leading white
space is removed, then the trailing white space. -/
def trimChars (l : List Char) : List Char :=
  ((l.dropWhile isSpace).reverse.dropWhile isSpace).reverse

/-- The function `strings.TrimSpace`. -/
def TrimSpace (s : String) : String := ⟨trimChars s.data⟩

/-- The function `strings.Split` for a separator of one character, on the characters
of a string: the pieces between the occurrences of the separator, one more than the
number of occurrences. -/
def splitChars (sep : Char) : List Char → List (List Char)
  | [] => [[]]
  | c :: cs =>
    if c = sep then [] :: splitChars sep cs
    else
      match splitChars sep cs with
      | [] => [[c]]
      | p :: ps => (c :: p) :: ps

/-- The function `strings.Split(s, sep)` for a separator of one character (the source
splits on a line feed and on a space only). -/
def Split (s : String) (sep : Char) : List String :=
  (splitChars sep s.data).map fun p => ⟨p⟩

/-- The two errors of `strconv`: `ErrSyntax` and `ErrRange`. -/
inductive StrconvErr where
  | ErrSyntax
  | ErrRange
deriving DecidableEq, Repr

/-- The type `strconv.NumError`. -/
structure NumError where
  Func : String
  Num : String
  Err : StrconvErr
deriving DecidableEq, Repr

/-- The loop of `strconv.ParseUint` for base 10 and 64 bits, `n` the number read so
far: a character that is not a decimal digit is a syntax error, a number above
2^64 - 1 a range error, whichever the scan meets first. -/
def parseUintLoop : List Char → Nat → Except StrconvErr Nat
  | [], n => .ok n
  | c :: cs, n =>
    if 48 ≤ c.toNat ∧ c.toNat ≤ 57 then
      if n ≥ (2 ^ 64 - 1) / 10 + 1 then .error StrconvErr.ErrRange
      else
        let n1 := n * 10 + (c.toNat - 48)
        if n1 > 2 ^ 64 - 1 then .error StrconvErr.ErrRange
        else parseUintLoop cs n1
    else .error StrconvErr.ErrSyntax

/-- The function `strconv.ParseUint(s, 10, 64)`: the empty string is a syntax error. -/
def ParseUint (s : List Char) : Except StrconvErr Nat :=
  if s = [] then .error StrconvErr.ErrSyntax else parseUintLoop s 0

/-- The function `strconv.Atoi` on a 64-bit platform: an optional sign, then
`ParseUint`; the number must lie between -2^63 and 2^63 - 1.  (The source has a
second path for strings shorter than 19 bytes, with the same results.) -/
def Atoi (s : String) : Except NumError Int :=
  match s.data with
  | [] => .error ⟨"Atoi", s, StrconvErr.ErrSyntax⟩
  | c :: rest =>
    let neg : Bool := c = '-'
    let digits := if c = '+' ∨ c = '-' then rest else c :: rest
    match ParseUint digits with
    | .error StrconvErr.ErrSyntax => .error ⟨"Atoi", s, StrconvErr.ErrSyntax⟩
    | .error StrconvErr.ErrRange => .error ⟨"Atoi", s, StrconvErr.ErrRange⟩
    | .ok un =>
      if neg = false ∧ un ≥ 2 ^ 63 then .error ⟨"Atoi", s, StrconvErr.ErrRange⟩
      else if neg = true ∧ un > 2 ^ 63 then .error ⟨"Atoi", s, StrconvErr.ErrRange⟩
      else .ok (if neg then - Int.ofNat un else Int.ofNat un)

/-- The value of an `int` (64 bits, two's complement) after an operation whose exact
result is `x`. -/
def wrap64 (x : Int) : Int := (x + 2 ^ 63) % 2 ^ 64 - 2 ^ 63

/-! ## The functions of `urltop10.go` -/

/-- A run-time panic of `urltop10.go`: `panic(err)` with the error of
`strconv.Atoi`, or an index out of range. -/
inductive Panic where
  | numError (err : NumError)
  | indexOutOfRange
deriving DecidableEq, Repr

/-- A `map[string]int`: its entries, keys pairwise distinct, in order of first
insertion. -/
abbrev IntMap := List (String × Int)

/-- The read `kvs[key]`: the zero value for an absent key. -/
def IntMap.get (m : IntMap) (key : String) : Int := (m.lookup key).getD 0

/-- The assignment `kvs[key] = n`. -/
def IntMap.set : IntMap → String → Int → IntMap
  | [], key, n => [(key, n)]
  | (k, v) :: rest, key, n =>
    if k = key then (k, n) :: rest else (k, v) :: IntMap.set rest key n

/-- The order in which `for k, v := range kvs` visits the entries of a
`map[string]int`: unspecified by Go, but each entry is visited exactly once. -/
structure IntIter where
  order : IntMap → IntMap
  perm : ∀ m : IntMap, (order m).Perm m

/-- The iteration that visits the entries in order of first insertion. -/
def IntIter.insertion : IntIter := ⟨fun m => m, fun m => List.Perm.refl m⟩

/-- The iteration that visits the entries in reverse order of first insertion. -/
def IntIter.reversed : IntIter := ⟨fun m => m.reverse, fun m => List.reverse_perm m⟩

/-- The loop `for _, l := range lines` of `URLCountMap` (lines 30-36): the line is
trimmed, an empty one is skipped, and `kvs[l]++` adds one to the entry of the line
in 64-bit arithmetic. -/
def countLoop : List String → IntMap → IntMap
  | [], kvs => kvs
  | l :: lines, kvs =>
    let l := TrimSpace l
    if l = "" then countLoop lines kvs
    else countLoop lines (kvs.set l (wrap64 (kvs.get l + 1)))

/-- The function `func URLCountMap(filename string, contents string) []KeyValue`
(lines 27-42). -/
def URLCountMap (it : IntIter) (_filename : String) (contents : String) : List KeyValue :=
  let lines := Split contents '\n'
  let kvs := countLoop lines []
  (it.order kvs).map fun e => ⟨e.1, Itoa e.2⟩

/-- The loop `for _, value := range values` of `URLCountReduce` (lines 46-52):
`panic(err)` on a value that `strconv.Atoi` rejects, `sum += num` in 64-bit
arithmetic otherwise. -/
def sumLoop : List String → Int → Except Panic Int
  | [], sum => .ok sum
  | value :: values, sum =>
    match Atoi value with
    | .error err => .error (Panic.numError err)
    | .ok num => sumLoop values (wrap64 (sum + num))

/-- The function `func URLCountReduce(key string, values []string) string` (lines
44-54); `fmt.Sprintf("%s %s\n", a, b)` is `a`, a space, `b` and a line feed. -/
def URLCountReduce (key : String) (values : List String) : Except Panic String :=
  match sumLoop values 0 with
  | .error e => .error e
  | .ok sum => .ok (key ++ " " ++ Itoa sum ++ "\n")

/-- The loop of `FormatData` (lines 76-87): the value is trimmed, an empty one is
skipped, the value is split on spaces, the second piece is read as a number
(`tmp[1]` panics when there is no second piece, `panic(err)` when `strconv.Atoi`
rejects it), and the first piece is mapped to that number. -/
def formatLoop : List String → IntMap → Except Panic IntMap
  | [], cnts => .ok cnts
  | v :: values, cnts =>
    let v := TrimSpace v
    if v = "" then formatLoop values cnts
    else
      let tmp := Split v ' '
      match tmp[1]? with
      | none => .error Panic.indexOutOfRange
      | some t1 =>
        match Atoi t1 with
        | .error err => .error (Panic.numError err)
        | .ok n => formatLoop values (cnts.set (tmp.headD "") n)

/-- The function `func FormatData(values []string) map[string]int` (lines 74-89). -/
def FormatData (values : List String) : Except Panic IntMap := formatLoop values []

/-! ## Vocabulary of the statements about `urltop10.go` -/

/-- The keys of a `map[string]int`, in entry order. -/
def IntMap.keys (m : IntMap) : List String := m.map Prod.fst

/-- The lines of a text after trimming, without the empty ones. -/
def nonBlankLines (contents : String) : List String :=
  ((Split contents '\n').map TrimSpace).filter fun l => decide (l ≠ "")

/-- The number a list of decimal digits denotes, most significant digit first. -/
def decimalValue (ds : List Char) : Nat :=
  ds.foldl (fun n c => n * 10 + (c.toNat - 48)) 0

/-- The string `v` is a decimal numeral of the integer `n`: one or more of the
digits `0` to `9`, after an optional sign `+` or `-`. -/
def IsDecimal (v : String) (n : Int) : Prop :=
  ∃ ds : List Char, ds ≠ [] ∧ (∀ c ∈ ds, 48 ≤ c.toNat ∧ c.toNat ≤ 57) ∧
    (((v.data = ds ∨ v.data = '+' :: ds) ∧ n = Int.ofNat (decimalValue ds)) ∨
      (v.data = '-' :: ds ∧ n = - Int.ofNat (decimalValue ds)))

/-! ## A reduce task that shows the order of the values -/

/-- A reduce function whose result shows the values in the order they are passed:
the key, an equals sign, the values separated by commas, and a line feed. -/
def listReduce : ReduceF := fun key values => key ++ "=" ++ ",".intercalate values ++ "\n"

/-- The contents of the two intermediate files of reduce index `0` of a job in
which the key `k` has two values in the first file and one in the second, and the
key `j` one value in each, under the concrete codec. -/
def orderContents (i : Nat) : String :=
  if i = 0 then "kkvx;\nkjvu;\nkkvy;\n" else "kjvv;\nkkvz;\n"

/-- A file system holding these two files. -/
def orderFS : FS := fun p =>
  if p = "/tmp/mrtmp.ord-0-0" then some (orderContents 0)
  else if p = "/tmp/mrtmp.ord-1-0" then some (orderContents 1)
  else none

/-- The reduce task of index `0` of that job. -/
def orderReduceTask : task :=
  { dataDir := "/tmp", jobName := "ord", phase := jobPhase.reducePhase, taskNumber := 0,
    nMap := 2, reduceF := some listReduce }

/-! # Theorems -/

/-! ## The partitioner -/

theorem ihash_nonneg (s : String) : 0 ≤ ihash s := by
  unfold ihash
  exact Int.ofNat_nonneg _

theorem ihash_lt (s : String) : ihash s < 2147483648 := by
  unfold ihash
  have h := @Nat.and_le_right (fnv32a (bytesOf s)) 0x7fffffff
  have e : Int.ofNat (fnv32a (bytesOf s) &&& 0x7fffffff)
      = ((fnv32a (bytesOf s) &&& 0x7fffffff : Nat) : Int) := rfl
  rw [e]
  omega

theorem partition_bounds (k : String) (nReduce : Int) (h : 1 ≤ nReduce) :
    goMod (ihash k) nReduce = .ok (partition k nReduce) ∧
    0 ≤ partition k nReduce ∧ partition k nReduce < nReduce := by
  have hne : nReduce ≠ 0 := by omega
  refine ⟨?_, Int.tmod_nonneg _ (ihash_nonneg k), Int.tmod_lt_of_pos _ (by omega)⟩
  unfold goMod partition
  rw [if_neg hne]

/-- C1 (partition range): for a key `k` and `nReduce ≥ 1` the hash is not negative,
the index `ihash(k) % nReduce` is computed without a panic and lies in
`[0, nReduce)`, so it is within the bounds of a bucket slice of length `nReduce`. -/
theorem partition_range (k : String) (nReduce : Int) (h : 1 ≤ nReduce) :
    0 ≤ ihash k ∧
    goMod (ihash k) nReduce = .ok (partition k nReduce) ∧
    0 ≤ partition k nReduce ∧ partition k nReduce < nReduce ∧
    (partition k nReduce).toNat <
      (List.replicate nReduce.toNat ([] : List KeyValue)).length := by
  unfold partition
  have hpos : 0 < nReduce := by omega
  have h0 := ihash_nonneg k
  have h1 : 0 ≤ (ihash k).tmod nReduce := Int.tmod_nonneg _ h0
  have h2 : (ihash k).tmod nReduce < nReduce := Int.tmod_lt_of_pos _ hpos
  refine ⟨h0, ?_, h1, h2, ?_⟩
  · unfold goMod
    have : nReduce ≠ 0 := by omega
    simp [this]
  · simp only [List.length_replicate]
    omega

theorem partition_range_witness :
    (1 : Int) ≤ 4 ∧ (0 ≤ ihash "cat" ∧
    goMod (ihash "cat") 4 = .ok (partition "cat" 4) ∧
    0 ≤ partition "cat" 4 ∧ partition "cat" 4 < 4 ∧
    (partition "cat" 4).toNat <
      (List.replicate (4 : Int).toNat ([] : List KeyValue)).length) :=
  ⟨by decide, partition_range "cat" 4 (by decide)⟩

/-! ## Decimal rendering -/

theorem formatBits_fuel (f1 : Nat) : ∀ (f2 n : Nat), n < f1 → n < f2 →
    formatBits f1 n = formatBits f2 n := by
  induction f1 with
  | zero => intro f2 n h; omega
  | succ f1 ih =>
    intro f2 n h1 h2
    cases f2 with
    | zero => omega
    | succ f2 =>
      unfold formatBits
      by_cases hn : n < 10
      · simp [hn]
      · simp only [hn, if_false]
        rw [ih f2 (n / 10) (by omega) (by omega)]

theorem formatNat_eq (n : Nat) :
    formatNat n = if n < 10 then [digitChar n] else formatNat (n / 10) ++ [digitChar (n % 10)] := by
  unfold formatNat
  conv_lhs => unfold formatBits
  by_cases hn : n < 10
  · simp [hn]
  · simp only [hn, if_false]
    rw [formatBits_fuel n (n / 10 + 1) (n / 10) (by omega) (by omega)]

theorem digitChar_inj : ∀ d, d < 10 → ∀ e, e < 10 → digitChar d = digitChar e → d = e := by
  decide

theorem IsDigit.ne_slash {c : Char} (h : IsDigit c) : c ≠ '/' := by
  obtain ⟨d, hd, rfl⟩ := h
  revert d
  decide

theorem IsDigit.ne_dot {c : Char} (h : IsDigit c) : c ≠ '.' := by
  obtain ⟨d, hd, rfl⟩ := h
  revert d
  decide

theorem IsDigit.ne_dash {c : Char} (h : IsDigit c) : c ≠ '-' := by
  obtain ⟨d, hd, rfl⟩ := h
  revert d
  decide

theorem IsDigit.ne_r {c : Char} (h : IsDigit c) : c ≠ 'r' := by
  obtain ⟨d, hd, rfl⟩ := h
  revert d
  decide

theorem formatNat_digits (n : Nat) : ∀ c ∈ formatNat n, IsDigit c := by
  induction n using Nat.strong_induction_on with
  | _ n ih =>
    rw [formatNat_eq]
    by_cases hn : n < 10
    · simp only [hn, if_true, List.mem_singleton]
      rintro c rfl
      exact ⟨n, hn, rfl⟩
    · simp only [hn, if_false, List.mem_append, List.mem_singleton]
      rintro c (hc | rfl)
      · exact ih (n / 10) (by omega) c hc
      · exact ⟨n % 10, by omega, rfl⟩

theorem formatNat_ne_nil (n : Nat) : formatNat n ≠ [] := by
  rw [formatNat_eq]
  by_cases hn : n < 10 <;> simp [hn]

theorem formatNat_inj : ∀ (n m : Nat), formatNat n = formatNat m → n = m := by
  intro n
  induction n using Nat.strong_induction_on with
  | _ n ih =>
    intro m h
    rw [formatNat_eq n, formatNat_eq m] at h
    by_cases hn : n < 10 <;> by_cases hm : m < 10
    · simp only [hn, hm, if_true, List.cons.injEq, and_true] at h
      exact digitChar_inj n hn m hm h
    · simp only [hn, hm, if_true, if_false] at h
      have hl := congrArg List.length h
      have hne : 0 < (formatNat (m / 10)).length := List.length_pos.mpr (formatNat_ne_nil _)
      simp only [List.length_singleton, List.length_append] at hl
      omega
    · simp only [hn, hm, if_true, if_false] at h
      have hl := congrArg List.length h
      have hne : 0 < (formatNat (n / 10)).length := List.length_pos.mpr (formatNat_ne_nil _)
      simp only [List.length_singleton, List.length_append] at hl
      omega
    · simp only [hn, hm, if_false] at h
      have h' := List.append_inj' h (by simp)
      have e1 := ih (n / 10) (by omega) (m / 10) h'.1
      have e2 : digitChar (n % 10) = digitChar (m % 10) := by simpa using h'.2
      have e3 := digitChar_inj (n % 10) (by omega) (m % 10) (by omega) e2
      omega

theorem Itoa_ofNat (n : Nat) : Itoa (Int.ofNat n) = ⟨formatNat n⟩ := by
  unfold Itoa
  have h : ¬ (Int.ofNat n < 0) := not_lt.mpr (Int.ofNat_nonneg n)
  rw [if_neg h]
  rfl

/-! ## `path.Clean` -/

theorem takeWhile_notSlash_append (L R : List Char) :
    (L ++ '/' :: R).takeWhile notSlash = L.takeWhile notSlash := by
  induction L with
  | nil => simp [notSlash]
  | cons x L ih =>
    by_cases hx : notSlash x = true
    · simp [List.takeWhile_cons, hx, ih]
    · simp [List.takeWhile_cons, hx]

theorem dropWhile_notSlash_append (L R : List Char) :
    (L ++ '/' :: R).dropWhile notSlash = L.dropWhile notSlash ++ '/' :: R := by
  induction L with
  | nil => simp [notSlash]
  | cons x L ih =>
    by_cases hx : notSlash x = true
    · simp [List.dropWhile_cons, hx, ih]
    · simp [List.dropWhile_cons, hx]

theorem takeWhile_notSlash_all (S : List Char) (h : ∀ c ∈ S, c ≠ '/') :
    S.takeWhile notSlash = S := by
  induction S with
  | nil => rfl
  | cons x S ih =>
    have hx : notSlash x = true := by simp [notSlash, h x (List.mem_cons_self _ _)]
    simp [List.takeWhile_cons, hx, ih (fun c hc => h c (List.mem_cons_of_mem _ hc))]

theorem dropWhile_notSlash_all (S : List Char) (h : ∀ c ∈ S, c ≠ '/') :
    S.dropWhile notSlash = [] := by
  induction S with
  | nil => rfl
  | cons x S ih =>
    have hx : notSlash x = true := by simp [notSlash, h x (List.mem_cons_self _ _)]
    simp [List.dropWhile_cons, hx, ih (fun c hc => h c (List.mem_cons_of_mem _ hc))]

theorem length_dropWhile_notSlash_le (L : List Char) :
    (L.dropWhile notSlash).length ≤ L.length := by
  induction L with
  | nil => simp
  | cons x L ih =>
    by_cases hx : notSlash x = true
    · simp only [List.dropWhile_cons, hx, if_true, List.length_cons]; omega
    · simp [List.dropWhile_cons, hx]

theorem cleanStep_length (rooted : Bool) (c : Char) (tl : List Char) (st : List Char × Nat) :
    (cleanStep rooted c tl st).1.length ≤ tl.length := by
  unfold cleanStep
  by_cases h1 : c = '/'
  · rw [if_pos h1]
  · rw [if_neg h1]
    by_cases h2 : c = '.' ∧ (tl = [] ∨ tl.head? = some '/')
    · rw [if_pos h2]
    · rw [if_neg h2]
      by_cases h3 : c = '.' ∧ tl.head? = some '.' ∧ (tl.tail = [] ∨ tl.tail.head? = some '/')
      · rw [if_pos h3]
        split_ifs <;> simp
      · rw [if_neg h3]
        have hc : notSlash c = true := by simp [notSlash, h1]
        show ((c :: tl).dropWhile notSlash).length ≤ tl.length
        simp only [List.dropWhile_cons, hc, if_true]
        exact length_dropWhile_notSlash_le tl

theorem cleanStep_append (rooted : Bool) (c : Char) (tl R : List Char) (st : List Char × Nat) :
    cleanStep rooted c (tl ++ '/' :: R) st =
      ((cleanStep rooted c tl st).1 ++ '/' :: R, (cleanStep rooted c tl st).2) := by
  have e2 : (tl ++ '/' :: R = [] ∨ (tl ++ '/' :: R).head? = some '/') ↔
      (tl = [] ∨ tl.head? = some '/') := by
    cases tl <;> simp
  have e3 : ((tl ++ '/' :: R).head? = some '.' ∧
      ((tl ++ '/' :: R).tail = [] ∨ (tl ++ '/' :: R).tail.head? = some '/')) ↔
      (tl.head? = some '.' ∧ (tl.tail = [] ∨ tl.tail.head? = some '/')) := by
    rcases tl with _ | ⟨x, _ | ⟨y, tl⟩⟩ <;> simp
  have e4 : tl.head? = some '.' → (tl ++ '/' :: R).tail = tl.tail ++ '/' :: R := by
    cases tl <;> simp
  unfold cleanStep
  by_cases h1 : c = '/'
  · simp [h1]
  · by_cases h2 : c = '.' ∧ (tl = [] ∨ tl.head? = some '/')
    · have h2' : c = '.' ∧ (tl ++ '/' :: R = [] ∨ (tl ++ '/' :: R).head? = some '/') :=
        ⟨h2.1, e2.mpr h2.2⟩
      rw [if_neg h1, if_pos h2', if_neg h1, if_pos h2]
    · have h2' : ¬ (c = '.' ∧ (tl ++ '/' :: R = [] ∨ (tl ++ '/' :: R).head? = some '/')) :=
        fun h => h2 ⟨h.1, e2.mp h.2⟩
      by_cases h3 : c = '.' ∧ tl.head? = some '.' ∧ (tl.tail = [] ∨ tl.tail.head? = some '/')
      · have h3' : c = '.' ∧ (tl ++ '/' :: R).head? = some '.' ∧
            ((tl ++ '/' :: R).tail = [] ∨ (tl ++ '/' :: R).tail.head? = some '/') :=
          ⟨h3.1, e3.mpr h3.2⟩
        rw [if_neg h1, if_neg h2', if_pos h3', if_neg h1, if_neg h2, if_pos h3, e4 h3.2.1]
        split_ifs <;> rfl
      · have h3' : ¬ (c = '.' ∧ (tl ++ '/' :: R).head? = some '.' ∧
            ((tl ++ '/' :: R).tail = [] ∨ (tl ++ '/' :: R).tail.head? = some '/')) :=
          fun h => h3 ⟨h.1, e3.mp h.2⟩
        rw [if_neg h1, if_neg h2', if_neg h3', if_neg h1, if_neg h2, if_neg h3]
        have ea : c :: (tl ++ '/' :: R) = (c :: tl) ++ '/' :: R := rfl
        simp only [ea, takeWhile_notSlash_append, dropWhile_notSlash_append]

theorem cleanLoop_fuel (rooted : Bool) (f1 : Nat) : ∀ (f2 : Nat) (rest : List Char)
    (st : List Char × Nat), rest.length ≤ f1 → rest.length ≤ f2 →
    cleanLoop rooted f1 rest st = cleanLoop rooted f2 rest st := by
  induction f1 with
  | zero =>
    intro f2 rest st h1 _
    have : rest = [] := List.length_eq_zero.mp (by omega)
    subst this
    cases f2 <;> rfl
  | succ f1 ih =>
    intro f2 rest st h1 h2
    cases rest with
    | nil => cases f2 <;> rfl
    | cons c tl =>
      cases f2 with
      | zero => simp at h2
      | succ f2 =>
        have hl := cleanStep_length rooted c tl st
        simp only [List.length_cons] at h1 h2
        show cleanLoop rooted f1 _ _ = cleanLoop rooted f2 _ _
        exact ih f2 _ _ (by omega) (by omega)

theorem cleanRun_nil (rooted : Bool) (st : List Char × Nat) : cleanRun rooted [] st = st := rfl

theorem cleanRun_cons (rooted : Bool) (c : Char) (tl : List Char) (st : List Char × Nat) :
    cleanRun rooted (c :: tl) st =
      cleanRun rooted (cleanStep rooted c tl st).1 (cleanStep rooted c tl st).2 := by
  unfold cleanRun
  show cleanLoop rooted tl.length _ _ = _
  exact cleanLoop_fuel rooted _ _ _ _ (cleanStep_length rooted c tl st) (le_refl _)

theorem cleanLoop_eq_run (rooted : Bool) (fuel : Nat) (rest : List Char) (st : List Char × Nat)
    (h : rest.length ≤ fuel) : cleanLoop rooted fuel rest st = cleanRun rooted rest st :=
  cleanLoop_fuel rooted _ _ _ _ h (le_refl _)

/-- Reading up to a slash leaves the loop in the state it has after reading the part
before the slash alone. -/
theorem cleanRun_append_slash (rooted : Bool) : ∀ (n : Nat) (P R : List Char)
    (st : List Char × Nat), P.length ≤ n →
    cleanRun rooted (P ++ '/' :: R) st = cleanRun rooted R (cleanRun rooted P st) := by
  intro n
  induction n with
  | zero =>
    intro P R st h
    have : P = [] := List.length_eq_zero.mp (by omega)
    subst this
    rw [List.nil_append, cleanRun_cons, cleanRun_nil]
    simp [cleanStep]
  | succ n ih =>
    intro P R st h
    cases P with
    | nil =>
      rw [List.nil_append, cleanRun_cons, cleanRun_nil]
      simp [cleanStep]
    | cons c tl =>
      rw [List.cons_append, cleanRun_cons, cleanStep_append, cleanRun_cons rooted c tl]
      have hl := cleanStep_length rooted c tl st
      simp only [List.length_cons] at h
      exact ih _ _ _ (by omega)

theorem GoodSeg.append_left {L T : List Char} (hL : ∀ c ∈ L, c ≠ '/') (hT : GoodSeg T) :
    GoodSeg (L ++ T) := by
  obtain ⟨h1, h2, h3⟩ := hT
  refine ⟨by simp [h1], ?_, ?_⟩
  · intro c hc
    rcases List.mem_append.mp hc with h | h
    · exact hL c h
    · exact h2 c h
  · rw [List.getLast?_append_of_ne_nil _ h1]
    exact h3

theorem cleanStep_seg (rooted : Bool) (c : Char) (tl : List Char) (st : List Char × Nat)
    (h : GoodSeg (c :: tl)) :
    cleanStep rooted c tl st =
      ([], ((if (rooted && st.1.length != 1) || (!rooted && st.1.length != 0)
        then st.1 ++ ['/'] else st.1) ++ c :: tl, st.2)) := by
  obtain ⟨_, hs, hl⟩ := h
  have h1 : c ≠ '/' := hs c (List.mem_cons_self _ _)
  have htl : ∀ x ∈ tl, x ≠ '/' := fun x hx => hs x (List.mem_cons_of_mem _ hx)
  have h2 : ¬ (c = '.' ∧ (tl = [] ∨ tl.head? = some '/')) := by
    rintro ⟨rfl, h | h⟩
    · subst h
      exact hl rfl
    · cases tl with
      | nil => simp at h
      | cons x tl =>
        simp only [List.head?_cons, Option.some.injEq] at h
        exact htl x (List.mem_cons_self _ _) h
  have h3 : ¬ (c = '.' ∧ tl.head? = some '.' ∧ (tl.tail = [] ∨ tl.tail.head? = some '/')) := by
    rintro ⟨rfl, ha, h | h⟩
    · rcases tl with _ | ⟨x, _ | ⟨y, tl⟩⟩
      · simp at ha
      · simp only [List.head?_cons, Option.some.injEq] at ha
        subst ha
        exact hl rfl
      · simp at h
    · rcases tl with _ | ⟨x, _ | ⟨y, tl⟩⟩
      · simp at ha
      · simp at h
      · simp only [List.tail_cons, List.head?_cons, Option.some.injEq] at h
        exact htl y (by simp) h
  unfold cleanStep
  rw [if_neg h1, if_neg h2, if_neg h3]
  simp only [takeWhile_notSlash_all _ hs, dropWhile_notSlash_all _ hs]

theorem cleanRun_seg (rooted : Bool) (S : List Char) (st : List Char × Nat) (h : GoodSeg S) :
    cleanRun rooted S st =
      ((if (rooted && st.1.length != 1) || (!rooted && st.1.length != 0)
        then st.1 ++ ['/'] else st.1) ++ S, st.2) := by
  cases S with
  | nil => exact absurd rfl h.1
  | cons c tl => rw [cleanRun_cons, cleanStep_seg rooted c tl st h, cleanRun_nil]

theorem slash_split (Z : List Char) :
    (∀ c ∈ Z, c ≠ '/') ∨ ∃ P L, Z = P ++ '/' :: L ∧ ∀ c ∈ L, c ≠ '/' := by
  induction Z with
  | nil => left; simp
  | cons x Z ih =>
    rcases ih with h | ⟨P, L, rfl, hL⟩
    · by_cases hx : x = '/'
      · right
        exact ⟨[], Z, by simp [hx], h⟩
      · left
        intro c hc
        rcases List.mem_cons.mp hc with rfl | hc
        · exact hx
        · exact h c hc
    · right
      exact ⟨x :: P, L, rfl, hL⟩

/-- After any text `Z`, a last element `T` that is copied unchanged ends the output
buffer, and what stands before it depends on `Z` and the state only. -/
theorem cleanRun_last_seg (rooted : Bool) (Z : List Char) (st : List Char × Nat) :
    ∃ H : List Char, ∀ T, GoodSeg T → (cleanRun rooted (Z ++ T) st).1 = H ++ T := by
  rcases slash_split Z with h | ⟨P, L, rfl, hL⟩
  · refine ⟨(if (rooted && st.1.length != 1) || (!rooted && st.1.length != 0)
        then st.1 ++ ['/'] else st.1) ++ Z, ?_⟩
    intro T hT
    rw [cleanRun_seg rooted (Z ++ T) st (GoodSeg.append_left h hT)]
    simp
  · refine ⟨(if (rooted && (cleanRun rooted P st).1.length != 1) ||
        (!rooted && (cleanRun rooted P st).1.length != 0)
        then (cleanRun rooted P st).1 ++ ['/'] else (cleanRun rooted P st).1) ++ L, ?_⟩
    intro T hT
    have e : P ++ '/' :: L ++ T = P ++ '/' :: (L ++ T) := by simp
    rw [e, cleanRun_append_slash rooted P.length P _ st (le_refl _),
      cleanRun_seg rooted (L ++ T) _ (GoodSeg.append_left hL hT)]
    simp

theorem GoodSeg.head_ne_slash {T : List Char} (hT : GoodSeg T) : T.head? ≠ some '/' := by
  obtain ⟨h1, h2, _⟩ := hT
  cases T with
  | nil => exact absurd rfl h1
  | cons c tl =>
    simp only [List.head?_cons, ne_eq, Option.some.injEq]
    exact h2 c (List.mem_cons_self _ _)

/-- Shape of a cleaned path whose last element is copied unchanged. -/
theorem cleanList_last_seg (X : List Char) :
    ∃ H : List Char, ∀ T, GoodSeg T → cleanList (X ++ T) = H ++ T := by
  cases X with
  | nil =>
    obtain ⟨H, hH⟩ := cleanRun_last_seg false [] ([], 0)
    refine ⟨H, ?_⟩
    intro T hT
    have hne : ([] : List Char) ++ T ≠ [] := by simpa using hT.1
    have hr : (([] : List Char) ++ T).head? ≠ some '/' := by simpa using hT.head_ne_slash
    unfold cleanList
    simp only [hne, if_false, hr, decide_False, Bool.false_eq_true]
    rw [cleanLoop_eq_run _ _ _ _ (le_refl _), hH T hT]
    have : (H ++ T).length ≠ 0 := by
      have := List.length_pos.mpr hT.1
      simp only [List.length_append]
      omega
    simp only [this, if_false]
  | cons x X =>
    by_cases hx : x = '/'
    · subst hx
      obtain ⟨H, hH⟩ := cleanRun_last_seg true X (['/'], 1)
      refine ⟨H, ?_⟩
      intro T hT
      unfold cleanList
      simp only [List.cons_append, reduceCtorEq, if_false, List.head?_cons, decide_True,
        if_true, List.tail_cons]
      rw [cleanLoop_eq_run _ _ _ _ (by simp), hH T hT]
      have : (H ++ T).length ≠ 0 := by
        have := List.length_pos.mpr hT.1
        simp only [List.length_append]
        omega
      simp only [this, if_false]
    · obtain ⟨H, hH⟩ := cleanRun_last_seg false (x :: X) ([], 0)
      refine ⟨H, ?_⟩
      intro T hT
      have hr : ¬ (some x = some '/') := by simpa using hx
      unfold cleanList
      simp only [List.cons_append, reduceCtorEq, if_false, List.head?_cons, hr, decide_False,
        Bool.false_eq_true]
      rw [cleanLoop_eq_run _ _ _ _ (le_refl _)]
      have := hH T hT
      simp only [List.cons_append] at this
      rw [this]
      have : (H ++ T).length ≠ 0 := by
        have := List.length_pos.mpr hT.1
        simp only [List.length_append]
        omega
      simp only [this, if_false]

/-! ## File names -/

theorem Join_pair (d x : String) (hx : x ≠ "") :
    Join [d, x] = if d = "" then Clean x else Clean (d ++ "/" ++ x) := by
  unfold Join
  by_cases hd : d = ""
  · subst hd
    simp [List.dropWhile, hx, String.intercalate, String.intercalate.go]
  · simp [List.dropWhile, hd, String.intercalate, String.intercalate.go]

theorem str_ne_empty_of_data {s : String} (h : s.data ≠ []) : s ≠ "" := by
  intro e
  subst e
  exact h rfl

/-- Shape of the names of one job: a fixed text, which depends on the data directory
and the job name only, followed by the suffix when the suffix is copied unchanged. -/
theorem Join_last_seg (d n : String) :
    ∃ H : List Char, ∀ T, GoodSeg T → (Join [d, "mrtmp." ++ n ++ ⟨T⟩]).data = H ++ T := by
  by_cases hd : d = ""
  · obtain ⟨H, hH⟩ := cleanList_last_seg ("mrtmp.".data ++ n.data)
    refine ⟨H, ?_⟩
    intro T hT
    have hx : "mrtmp." ++ n ++ (⟨T⟩ : String) ≠ "" := str_ne_empty_of_data (by simp)
    rw [Join_pair d _ hx, if_pos hd]
    unfold Clean
    simp only [String.data_append]
    exact hH T hT
  · obtain ⟨H, hH⟩ := cleanList_last_seg (d.data ++ "/".data ++ ("mrtmp.".data ++ n.data))
    refine ⟨H, ?_⟩
    intro T hT
    have hx : "mrtmp." ++ n ++ (⟨T⟩ : String) ≠ "" := str_ne_empty_of_data (by simp)
    rw [Join_pair d _ hx, if_neg hd]
    unfold Clean
    simp only [String.data_append]
    have := hH T hT
    simp only [List.append_assoc] at this ⊢
    exact this

theorem getLast?_formatNat (n : Nat) : ∃ c, (formatNat n).getLast? = some c ∧ IsDigit c := by
  rw [formatNat_eq]
  by_cases hn : n < 10
  · exact ⟨digitChar n, by simp [hn], n, hn, rfl⟩
  · exact ⟨digitChar (n % 10), by simp [hn], n % 10, by omega, rfl⟩

theorem goodSeg_of_formatNat (A : List Char) (hA : ∀ c ∈ A, c ≠ '/') (r : Nat) :
    GoodSeg (A ++ formatNat r) := by
  refine ⟨by simp [formatNat_ne_nil], ?_, ?_⟩
  · intro c hc
    rcases List.mem_append.mp hc with h | h
    · exact hA c h
    · exact (formatNat_digits r c h).ne_slash
  · rw [List.getLast?_append_of_ne_nil _ (formatNat_ne_nil r)]
    obtain ⟨c, hc, hd⟩ := getLast?_formatNat r
    rw [hc]
    intro e
    exact hd.ne_dot (Option.some.inj e)

theorem interSuffix_good (m r : Nat) : GoodSeg (interSuffix m r) := by
  have := goodSeg_of_formatNat ('-' :: (formatNat m ++ ['-'])) (by
    intro c hc
    simp only [List.mem_cons, List.mem_append, List.mem_singleton, List.not_mem_nil,
      or_false] at hc
    rcases hc with rfl | h | rfl
    · decide
    · exact (formatNat_digits m c h).ne_slash
    · decide) r
  simpa [interSuffix] using this

theorem mergeSuffix_good (r : Nat) : GoodSeg (mergeSuffix r) := by
  have := goodSeg_of_formatNat ['-', 'r', 'e', 's', '-'] (by decide) r
  simpa [mergeSuffix] using this

theorem reduceName_arg (n : String) (m r : Nat) :
    "mrtmp." ++ n ++ "-" ++ Itoa (Int.ofNat m) ++ "-" ++ Itoa (Int.ofNat r) =
      "mrtmp." ++ n ++ ⟨interSuffix m r⟩ := by
  rw [Itoa_ofNat, Itoa_ofNat]
  apply String.ext
  simp [interSuffix]

theorem mergeName_arg (n : String) (r : Nat) :
    "mrtmp." ++ n ++ "-res-" ++ Itoa (Int.ofNat r) = "mrtmp." ++ n ++ ⟨mergeSuffix r⟩ := by
  rw [Itoa_ofNat]
  apply String.ext
  simp [mergeSuffix]

/-- Shape of the two kinds of names of one job: the same fixed text followed by
`-m-r`, respectively `-res-r`. -/
theorem names_shape (d n : String) :
    ∃ H : List Char,
      (∀ m r : Nat, (reduceName d n (Int.ofNat m) (Int.ofNat r)).data = H ++ interSuffix m r) ∧
      (∀ r : Nat, (mergeName d n (Int.ofNat r)).data = H ++ mergeSuffix r) := by
  obtain ⟨H, hH⟩ := Join_last_seg d n
  refine ⟨H, ?_, ?_⟩
  · intro m r
    unfold reduceName
    rw [reduceName_arg]
    exact hH _ (interSuffix_good m r)
  · intro r
    unfold mergeName
    rw [mergeName_arg]
    exact hH _ (mergeSuffix_good r)

theorem digits_dash_split : ∀ (A A' B B' : List Char), (∀ c ∈ A, c ≠ '-') → (∀ c ∈ A', c ≠ '-') →
    A ++ '-' :: B = A' ++ '-' :: B' → A = A' ∧ B = B' := by
  intro A
  induction A with
  | nil =>
    intro A' B B' _ hA' h
    cases A' with
    | nil => simpa using h
    | cons x A' =>
      simp only [List.nil_append, List.cons_append, List.cons.injEq] at h
      exact absurd h.1.symm (hA' x (List.mem_cons_self _ _))
  | cons a A ih =>
    intro A' B B' hA hA' h
    cases A' with
    | nil =>
      simp only [List.nil_append, List.cons_append, List.cons.injEq] at h
      exact absurd h.1 (hA a (List.mem_cons_self _ _))
    | cons x A' =>
      simp only [List.cons_append, List.cons.injEq] at h
      obtain ⟨rfl, h⟩ := h
      obtain ⟨e1, e2⟩ := ih A' B B' (fun c hc => hA c (List.mem_cons_of_mem _ hc))
        (fun c hc => hA' c (List.mem_cons_of_mem _ hc)) h
      exact ⟨by rw [e1], e2⟩

theorem interSuffix_inj (m r m' r' : Nat) (h : interSuffix m r = interSuffix m' r') :
    m = m' ∧ r = r' := by
  unfold interSuffix at h
  simp only [List.cons.injEq, true_and] at h
  obtain ⟨e1, e2⟩ := digits_dash_split _ _ _ _
    (fun c hc => (formatNat_digits m c hc).ne_dash)
    (fun c hc => (formatNat_digits m' c hc).ne_dash) h
  exact ⟨formatNat_inj _ _ e1, formatNat_inj _ _ e2⟩

theorem mergeSuffix_inj (r r' : Nat) (h : mergeSuffix r = mergeSuffix r') : r = r' := by
  unfold mergeSuffix at h
  simp only [List.cons.injEq, true_and] at h
  exact formatNat_inj _ _ h

theorem interSuffix_ne_mergeSuffix (m r r' : Nat) : interSuffix m r ≠ mergeSuffix r' := by
  intro h
  unfold interSuffix mergeSuffix at h
  simp only [List.cons.injEq, true_and] at h
  have hne := formatNat_ne_nil m
  cases hm : formatNat m with
  | nil => exact hne hm
  | cons c tl =>
    rw [hm] at h
    simp only [List.cons_append, List.cons.injEq] at h
    have hd : IsDigit c := formatNat_digits m c (by rw [hm]; exact List.mem_cons_self _ _)
    exact hd.ne_r h.1

theorem reduceName_inj (d n : String) (m r m' r' : Nat)
    (h : reduceName d n (Int.ofNat m) (Int.ofNat r) = reduceName d n (Int.ofNat m') (Int.ofNat r')) :
    m = m' ∧ r = r' := by
  obtain ⟨H, h1, _⟩ := names_shape d n
  have := congrArg String.data h
  rw [h1, h1] at this
  exact interSuffix_inj _ _ _ _ (List.append_cancel_left this)

theorem mergeName_inj (d n : String) (r r' : Nat)
    (h : mergeName d n (Int.ofNat r) = mergeName d n (Int.ofNat r')) : r = r' := by
  obtain ⟨H, _, h2⟩ := names_shape d n
  have := congrArg String.data h
  rw [h2, h2] at this
  exact mergeSuffix_inj _ _ (List.append_cancel_left this)

theorem reduceName_ne_mergeName (d n : String) (m r r' : Nat) :
    reduceName d n (Int.ofNat m) (Int.ofNat r) ≠ mergeName d n (Int.ofNat r') := by
  intro h
  obtain ⟨H, h1, h2⟩ := names_shape d n
  have := congrArg String.data h
  rw [h1, h2] at this
  exact interSuffix_ne_mergeSuffix _ _ _ (List.append_cancel_left this)

theorem Itoa_no_slash (m : Int) : ∀ ch ∈ (Itoa m).data, ch ≠ '/' := by
  intro ch hch
  unfold Itoa at hch
  by_cases hm : m < 0
  · rw [if_pos hm] at hch
    rcases List.mem_cons.mp hch with rfl | h
    · decide
    · exact (formatNat_digits _ ch h).ne_slash
  · rw [if_neg hm] at hch
    exact (formatNat_digits _ ch hch).ne_slash

/-- For any map index, the intermediate file name determines the reduce index. -/
theorem reduceName_inj_right (d n : String) (m : Int) (r r' : Nat)
    (h : reduceName d n m (Int.ofNat r) = reduceName d n m (Int.ofNat r')) : r = r' := by
  obtain ⟨H, hH⟩ := Join_last_seg d n
  have hA : ∀ ch ∈ '-' :: ((Itoa m).data ++ ['-']), ch ≠ '/' := by
    intro ch hch
    simp only [List.mem_cons, List.mem_append, List.mem_singleton, List.not_mem_nil,
      or_false] at hch
    rcases hch with rfl | h | rfl
    · decide
    · exact Itoa_no_slash m ch h
    · decide
  have harg : ∀ k : Nat, "mrtmp." ++ n ++ "-" ++ Itoa m ++ "-" ++ Itoa (Int.ofNat k) =
      "mrtmp." ++ n ++ ⟨('-' :: ((Itoa m).data ++ ['-'])) ++ formatNat k⟩ := by
    intro k
    rw [Itoa_ofNat]
    apply String.ext
    simp
  have h2 := congrArg String.data h
  unfold reduceName at h2
  rw [harg, harg, hH _ (goodSeg_of_formatNat _ hA r), hH _ (goodSeg_of_formatNat _ hA r')] at h2
  exact formatNat_inj _ _ (List.append_cancel_left (List.append_cancel_left h2))

/-- A cleaned directory followed by a slash and an element that is copied unchanged
is already clean. -/
theorem cleanList_exact (D S : List Char) (hc : cleanList D = D) (hdot : D ≠ ['.'])
    (hroot : D ≠ ['/']) (hS : GoodSeg S) : cleanList (D ++ '/' :: S) = D ++ '/' :: S := by
  cases D with
  | nil => simp [cleanList] at hc
  | cons x D =>
    have hSlen : 0 < S.length := List.length_pos.mpr hS.1
    by_cases hx : x = '/'
    · subst hx
      have hD : D ≠ [] := fun h => hroot (by rw [h])
      have hDlen : 0 < D.length := List.length_pos.mpr hD
      unfold cleanList at hc ⊢
      simp only [List.cons_append, reduceCtorEq, if_false, List.head?_cons, decide_True,
        if_true, List.tail_cons] at hc ⊢
      rw [cleanLoop_eq_run _ _ _ _ (by simp)] at hc ⊢
      rw [cleanRun_append_slash true D.length D S _ (le_refl _)]
      have hst : (cleanRun true D (['/'], 1)).1 = '/' :: D := by
        by_cases h0 : (cleanRun true D (['/'], 1)).1.length = 0
        · rw [if_pos h0] at hc
          exact absurd hc.symm hdot
        · rw [if_neg h0] at hc
          exact hc
      rw [cleanRun_seg true S _ hS, hst]
      simp only [List.length_cons, Bool.true_and, Bool.not_true, Bool.false_and, Bool.or_false,
        List.length_append]
      have h1 : (D.length + 1 != 1) = true := by
        simp only [bne_iff_ne, ne_eq]
        omega
      rw [h1]
      simp
    · have hr : ¬ (some x = some '/') := by simpa using hx
      unfold cleanList at hc ⊢
      simp only [List.cons_append, reduceCtorEq, if_false, List.head?_cons, hr, decide_False,
        Bool.false_eq_true] at hc ⊢
      rw [cleanLoop_eq_run _ _ _ _ (le_refl _)] at hc ⊢
      have e : x :: (D ++ '/' :: S) = (x :: D) ++ '/' :: S := rfl
      rw [e, cleanRun_append_slash false (x :: D).length (x :: D) S _ (le_refl _)]
      have hst : (cleanRun false (x :: D) ([], 0)).1 = x :: D := by
        by_cases h0 : (cleanRun false (x :: D) ([], 0)).1.length = 0
        · rw [if_pos h0] at hc
          exact absurd hc.symm hdot
        · rw [if_neg h0] at hc
          exact hc
      rw [cleanRun_seg false S _ hS, hst]
      simp

theorem Clean_empty_ne : Clean "" ≠ "" := by decide

/-- C6 (file naming, as the code has it): both names are `path.Join` of the data
directory and the base name, that is `path.Clean` of `dataDir + "/" + base` (of
`base` alone when `dataDir` is empty).  When the data directory is in cleaned form
(`path.Clean` leaves it unchanged) and is neither `.` nor `/`, and the job name has
no slash, the names are exactly `dataDir + "/mrtmp." + jobName + "-m-r"` and
`dataDir + "/mrtmp." + jobName + "-res-r"`. -/
theorem file_names_exact (dataDir jobName : String) (m r : Nat)
    (hclean : Clean dataDir = dataDir) (hdot : dataDir ≠ ".") (hroot : dataDir ≠ "/")
    (hjob : ∀ c ∈ jobName.data, c ≠ '/') :
    reduceName dataDir jobName (Int.ofNat m) (Int.ofNat r) =
        dataDir ++ "/" ++ "mrtmp." ++ jobName ++ "-" ++ Itoa (Int.ofNat m) ++ "-"
          ++ Itoa (Int.ofNat r) ∧
      mergeName dataDir jobName (Int.ofNat r) =
        dataDir ++ "/" ++ "mrtmp." ++ jobName ++ "-res-" ++ Itoa (Int.ofNat r) ∧
      (∀ (d n : String) (i j : Int), reduceName d n i j =
        if d = "" then Clean ("mrtmp." ++ n ++ "-" ++ Itoa i ++ "-" ++ Itoa j)
        else Clean (d ++ "/" ++ ("mrtmp." ++ n ++ "-" ++ Itoa i ++ "-" ++ Itoa j))) ∧
      (∀ (d n : String) (j : Int), mergeName d n j =
        if d = "" then Clean ("mrtmp." ++ n ++ "-res-" ++ Itoa j)
        else Clean (d ++ "/" ++ ("mrtmp." ++ n ++ "-res-" ++ Itoa j))) := by
  have hne : dataDir ≠ "" := by
    intro h
    rw [h] at hclean
    exact Clean_empty_ne hclean
  have hc : cleanList dataDir.data = dataDir.data := by
    have := congrArg String.data hclean
    simpa [Clean] using this
  have hd1 : dataDir.data ≠ ['.'] := fun h => hdot (String.ext h)
  have hd2 : dataDir.data ≠ ['/'] := fun h => hroot (String.ext h)
  have hm : ∀ c ∈ "mrtmp.".data, c ≠ '/' := by decide
  have hpre : ∀ c ∈ "mrtmp.".data ++ jobName.data, c ≠ '/' := by
    intro c hc'
    rcases List.mem_append.mp hc' with h | h
    · exact hm c h
    · exact hjob c h
  refine ⟨?_, ?_, ?_, ?_⟩
  · unfold reduceName
    rw [reduceName_arg, Join_pair _ _ (str_ne_empty_of_data (by simp)), if_neg hne]
    apply String.ext
    have hS := GoodSeg.append_left hpre (interSuffix_good m r)
    have := cleanList_exact dataDir.data _ hc hd1 hd2 hS
    rw [Itoa_ofNat, Itoa_ofNat]
    simp only [Clean, String.data_append, List.append_assoc] at this ⊢
    simpa [interSuffix] using this
  · unfold mergeName
    rw [mergeName_arg, Join_pair _ _ (str_ne_empty_of_data (by simp)), if_neg hne]
    apply String.ext
    have hS := GoodSeg.append_left hpre (mergeSuffix_good r)
    have := cleanList_exact dataDir.data _ hc hd1 hd2 hS
    rw [Itoa_ofNat]
    simp only [Clean, String.data_append, List.append_assoc] at this ⊢
    simpa [mergeSuffix] using this
  · intro d n i j
    unfold reduceName
    exact Join_pair _ _ (str_ne_empty_of_data (by simp))
  · intro d n j
    unfold mergeName
    exact Join_pair _ _ (str_ne_empty_of_data (by simp))

theorem file_names_exact_witness :
    (Clean "/tmp/data" = "/tmp/data" ∧ "/tmp/data" ≠ "." ∧ "/tmp/data" ≠ "/" ∧
      ∀ c ∈ "job".data, c ≠ '/') ∧
    reduceName "/tmp/data" "job" (Int.ofNat 3) (Int.ofNat 12) =
      "/tmp/data" ++ "/" ++ "mrtmp." ++ "job" ++ "-" ++ Itoa (Int.ofNat 3) ++ "-"
        ++ Itoa (Int.ofNat 12) ∧
    mergeName "/tmp/data" "job" (Int.ofNat 12) =
      "/tmp/data" ++ "/" ++ "mrtmp." ++ "job" ++ "-res-" ++ Itoa (Int.ofNat 12) :=
  ⟨by decide,
    (file_names_exact "/tmp/data" "job" 3 12 (by decide) (by decide) (by decide) (by decide)).1,
    (file_names_exact "/tmp/data" "job" 3 12 (by decide) (by decide) (by decide)
      (by decide)).2.1⟩

/-- C6, as stated, fails: with an empty data directory `path.Join` adds no slash;
with a data directory that ends in a slash, or is `/`, the doubled slash is cleaned
away; the data directory `.` is dropped; a doubled slash in the job name is cleaned
away too. -/
theorem file_names_counterexample :
    reduceName "" "job" 0 0 ≠ "" ++ "/" ++ "mrtmp." ++ "job" ++ "-" ++ Itoa 0 ++ "-" ++ Itoa 0 ∧
    reduceName "" "job" 0 0 = "mrtmp.job-0-0" ∧
    mergeName "data/" "job" 0 ≠ "data/" ++ "/" ++ "mrtmp." ++ "job" ++ "-res-" ++ Itoa 0 ∧
    mergeName "data/" "job" 0 = "data/mrtmp.job-res-0" ∧
    mergeName "/" "job" 0 ≠ "/" ++ "/" ++ "mrtmp." ++ "job" ++ "-res-" ++ Itoa 0 ∧
    mergeName "/" "job" 0 = "/mrtmp.job-res-0" ∧
    reduceName "." "job" 0 0 ≠ "." ++ "/" ++ "mrtmp." ++ "job" ++ "-" ++ Itoa 0 ++ "-" ++ Itoa 0 ∧
    reduceName "." "job" 0 0 = "mrtmp.job-0-0" ∧
    reduceName "data" "a//b" 0 0 ≠
      "data" ++ "/" ++ "mrtmp." ++ "a//b" ++ "-" ++ Itoa 0 ++ "-" ++ Itoa 0 ∧
    reduceName "data" "a//b" 0 0 = "data/mrtmp.a/b-0-0" := by
  decide

theorem mem_writePaths_map {t : task} (h : t.phase = jobPhase.mapPhase) (p : String) :
    p ∈ writePaths t ↔ ∃ k : Nat, k < t.nReduce.toNat ∧
      p = reduceName t.dataDir t.jobName t.taskNumber (Int.ofNat k) := by
  unfold writePaths
  rw [if_pos h]
  simp only [List.mem_map, List.mem_range]
  constructor
  · rintro ⟨k, hk, rfl⟩
    exact ⟨k, hk, rfl⟩
  · rintro ⟨k, hk, rfl⟩
    exact ⟨k, hk, rfl⟩

theorem mem_writePaths_reduce {t : task} (h : t.phase = jobPhase.reducePhase) (p : String) :
    p ∈ writePaths t ↔ p = mergeName t.dataDir t.jobName t.taskNumber := by
  unfold writePaths
  have : ¬ t.phase = jobPhase.mapPhase := by rw [h]; decide
  rw [if_neg this]
  simp

/-- C8 (no path collisions within one job): for a fixed data directory and job
name, the intermediate file name determines the pair (map index, reduce index), the
output file name determines the reduce index, and no intermediate file name is an
output file name; hence any two distinct tasks of one job (map or reduce) write
disjoint sets of paths. -/
theorem no_path_collisions (dataDir jobName : String) :
    (∀ m r m' r' : Nat,
      reduceName dataDir jobName (Int.ofNat m) (Int.ofNat r) =
        reduceName dataDir jobName (Int.ofNat m') (Int.ofNat r') ↔ (m = m' ∧ r = r')) ∧
    (∀ r r' : Nat,
      mergeName dataDir jobName (Int.ofNat r) = mergeName dataDir jobName (Int.ofNat r') ↔
        r = r') ∧
    (∀ m r r' : Nat,
      reduceName dataDir jobName (Int.ofNat m) (Int.ofNat r) ≠
        mergeName dataDir jobName (Int.ofNat r')) ∧
    (∀ (mapF : MapF) (reduceF : ReduceF) (mapFiles : List String) (nReduce : Int),
      (mapTasks jobName dataDir mapF mapFiles nReduce ++
        reduceTasks jobName dataDir reduceF (Int.ofNat mapFiles.length) nReduce).Pairwise
        (fun t1 t2 => ∀ p ∈ writePaths t1, p ∉ writePaths t2)) := by
  refine ⟨?_, ?_, ?_, ?_⟩
  · intro m r m' r'
    constructor
    · exact reduceName_inj dataDir jobName m r m' r'
    · rintro ⟨rfl, rfl⟩
      rfl
  · intro r r'
    constructor
    · exact mergeName_inj dataDir jobName r r'
    · rintro rfl
      rfl
  · exact reduceName_ne_mergeName dataDir jobName
  · intro mapF reduceF mapFiles nReduce
    rw [List.pairwise_append]
    refine ⟨?_, ?_, ?_⟩
    · unfold mapTasks
      rw [List.pairwise_map]
      refine List.Pairwise.imp ?_ (List.pairwise_lt_range _)
      intro i j hij p hp hp'
      rw [mem_writePaths_map rfl] at hp hp'
      obtain ⟨k, _, rfl⟩ := hp
      obtain ⟨k', _, e⟩ := hp'
      have := (reduceName_inj dataDir jobName i k j k' e).1
      omega
    · unfold reduceTasks
      rw [List.pairwise_map]
      refine List.Pairwise.imp ?_ (List.pairwise_lt_range _)
      intro i j hij p hp hp'
      rw [mem_writePaths_reduce rfl] at hp hp'
      subst hp
      have := mergeName_inj dataDir jobName i j hp'
      omega
    · intro t1 h1 t2 h2 p hp hp'
      unfold mapTasks at h1
      unfold reduceTasks at h2
      simp only [List.mem_map, List.mem_range] at h1 h2
      obtain ⟨i, _, rfl⟩ := h1
      obtain ⟨j, _, rfl⟩ := h2
      rw [mem_writePaths_map rfl] at hp
      rw [mem_writePaths_reduce rfl] at hp'
      obtain ⟨k, _, rfl⟩ := hp
      exact reduceName_ne_mergeName dataDir jobName i k j hp'

/-! ## The concrete codec round-trips -/

theorem tagDecode_key (s R : List Char) : ∀ (key value : List Char),
    tagDecode (s.flatMap (fun ch => ['k', ch]) ++ R) key value = tagDecode R (key ++ s) value := by
  induction s with
  | nil => intro key value; simp
  | cons ch s ih =>
    intro key value
    simp only [List.flatMap_cons, List.cons_append, List.nil_append, List.append_assoc]
    rw [tagDecode]
    simp only [if_true]
    rw [ih]
    simp

theorem tagDecode_value (s R : List Char) : ∀ (key value : List Char),
    tagDecode (s.flatMap (fun ch => ['v', ch]) ++ R) key value = tagDecode R key (value ++ s) := by
  induction s with
  | nil => intro key value; simp
  | cons ch s ih =>
    intro key value
    simp only [List.flatMap_cons, List.cons_append, List.nil_append, List.append_assoc]
    rw [tagDecode]
    have h1 : ¬ ('v' = 'k') := by decide
    simp only [h1, if_false, if_true]
    rw [ih]
    simp

theorem tagDecode_end (R key value : List Char) :
    tagDecode (';' :: '\n' :: R) key value =
      ⟨⟨⟨key⟩, ⟨value⟩⟩ :: (tagDecode R [] []).pending, (tagDecode R [] []).err⟩ := by
  rw [tagDecode]
  have h1 : ¬ (';' = 'k') := by decide
  have h2 : ¬ (';' = 'v') := by decide
  simp only [h1, h2, if_false, if_true]

theorem encodeAll_data (c : JSONCodec) (kvs : List KeyValue) :
    (c.encodeAll kvs).data = (kvs.map fun kv => (c.Encode kv).data).flatten := by
  have h : ∀ (l : List KeyValue) (buf : String),
      (l.foldl (fun buf kv => buf ++ c.Encode kv) buf).data =
        buf.data ++ (l.map fun kv => (c.Encode kv).data).flatten := by
    intro l
    induction l with
    | nil => intro buf; simp
    | cons kv l ih =>
      intro buf
      simp only [List.foldl_cons, List.map_cons, List.flatten_cons]
      rw [ih]
      simp [String.data_append]
  unfold JSONCodec.encodeAll
  rw [h]
  simp

theorem tagCodec_faithful : tagCodec.Faithful := by
  intro kvs
  show tagDecode (tagCodec.encodeAll kvs).data [] [] = _
  rw [encodeAll_data]
  induction kvs with
  | nil => rfl
  | cons kv kvs ih =>
    simp only [List.map_cons, List.flatten_cons]
    show tagDecode ((tagEncode kv).data ++ _) [] [] = _
    unfold tagEncode
    simp only [List.append_assoc]
    rw [tagDecode_key, tagDecode_value]
    simp only [List.cons_append, List.nil_append]
    rw [tagDecode_end, ih]

/-! ## Map task: buckets -/

theorem partitionLoop_spec (nReduce : Int) (h : 1 ≤ nReduce) :
    ∀ (kvs : List KeyValue) (inter : List (List KeyValue)), inter.length = nReduce.toNat →
    ∃ buckets, partitionLoop nReduce kvs inter = .ok buckets ∧ buckets.length = nReduce.toNat ∧
      ∀ p : Nat, p < nReduce.toNat →
        buckets.getD p [] =
          inter.getD p [] ++ routed kvs nReduce p := by
  unfold routed
  intro kvs
  induction kvs with
  | nil =>
    intro inter hlen
    exact ⟨inter, rfl, hlen, fun p _ => by simp⟩
  | cons kv rest ih =>
    intro inter hlen
    obtain ⟨hmod, h0, h1⟩ := partition_bounds kv.Key nReduce h
    have hin : 0 ≤ partition kv.Key nReduce ∧ partition kv.Key nReduce < (inter.length : Int) := by
      refine ⟨h0, ?_⟩
      rw [hlen]
      omega
    obtain ⟨buckets, hb, hbl, hbp⟩ := ih
      (inter.set (partition kv.Key nReduce).toNat
        (inter.getD (partition kv.Key nReduce).toNat [] ++ [kv])) (by simp [hlen])
    refine ⟨buckets, ?_, hbl, ?_⟩
    · unfold partitionLoop
      rw [hmod]
      simp only [hin, and_self, if_true]
      exact hb
    · intro p hp
      rw [hbp p hp]
      have hidx : (partition kv.Key nReduce).toNat < inter.length := by omega
      by_cases hpe : partition kv.Key nReduce = Int.ofNat p
      · have hpn : (partition kv.Key nReduce).toNat = p := by rw [hpe]; rfl
        rw [hpn] at hidx ⊢
        have hdec : decide (partition kv.Key nReduce = Int.ofNat p) = true := by
          rw [hpe]
          exact decide_eq_true rfl
        rw [List.filter_cons, if_pos hdec]
        simp [List.getD_eq_getElem?_getD, List.getElem?_set, hidx]
      · have hpn : (partition kv.Key nReduce).toNat ≠ p := by
          intro e
          apply hpe
          rw [← e]
          exact (Int.toNat_of_nonneg h0).symm
        have hdec : ¬ decide (partition kv.Key nReduce = Int.ofNat p) = true := by
          rw [decide_eq_true_iff]
          exact hpe
        rw [List.filter_cons, if_neg hdec]
        simp [List.getD_eq_getElem?_getD, List.getElem?_set, hpn]

theorem partitionKVs_spec (kvs : List KeyValue) (nReduce : Int) (h : 1 ≤ nReduce) :
    ∃ buckets, partitionKVs kvs nReduce = .ok buckets ∧ buckets.length = nReduce.toNat ∧
      ∀ p : Nat, p < nReduce.toNat →
        buckets.getD p [] = routed kvs nReduce p := by
  obtain ⟨buckets, hb, hbl, hbp⟩ :=
    partitionLoop_spec nReduce h kvs (List.replicate nReduce.toNat []) (by simp)
  refine ⟨buckets, ?_, hbl, ?_⟩
  · unfold partitionKVs
    have : ¬ nReduce < 0 := by omega
    rw [if_neg this]
    exact hb
  · intro p hp
    rw [hbp p hp]
    simp [List.getD_eq_getElem?_getD, List.getElem?_replicate, hp]

theorem writeBuckets_frame (c : JSONCodec) (t : task) :
    ∀ (buckets : List (List KeyValue)) (k : Nat) (fs : FS) (path : String),
    (∀ j : Nat, j < buckets.length →
      path ≠ reduceName t.dataDir t.jobName t.taskNumber (Int.ofNat (k + j))) →
    writeBuckets c t buckets (Int.ofNat k) fs path = fs path := by
  intro buckets
  induction buckets with
  | nil => intro k fs path _; rfl
  | cons b rest ih =>
    intro k fs path h
    unfold writeBuckets
    have e : Int.ofNat k + 1 = Int.ofNat (k + 1) := rfl
    rw [e, ih (k + 1) _ path (fun j hj => by
      have := h (j + 1) (by simp only [List.length_cons]; omega)
      have e2 : k + 1 + j = k + (j + 1) := by omega
      rw [e2]
      exact this)]
    have h0 := h 0 (by simp)
    simp only [Nat.add_zero] at h0
    unfold FS.write
    rw [if_neg h0]

theorem writeBuckets_get (c : JSONCodec) (t : task) :
    ∀ (buckets : List (List KeyValue)) (k : Nat) (fs : FS) (j : Nat), j < buckets.length →
    writeBuckets c t buckets (Int.ofNat k) fs
        (reduceName t.dataDir t.jobName t.taskNumber (Int.ofNat (k + j))) =
      some (c.encodeAll (buckets.getD j [])) := by
  intro buckets
  induction buckets with
  | nil => intro k fs j hj; simp at hj
  | cons b rest ih =>
    intro k fs j hj
    unfold writeBuckets
    have e : Int.ofNat k + 1 = Int.ofNat (k + 1) := rfl
    cases j with
    | zero =>
      rw [e, writeBuckets_frame c t rest (k + 1) _ _ (fun j' _ => by
        intro hEq
        have := reduceName_inj_right _ _ _ _ _ hEq
        omega)]
      unfold FS.write
      exact if_pos rfl
    | succ j =>
      have e2 : k + (j + 1) = k + 1 + j := by omega
      rw [e, e2, ih (k + 1) _ j (by simpa using hj)]
      simp

theorem sum_indicator (j c : Nat) : ∀ n : Nat,
    ((List.range n).map (fun p => if j = p then c else 0)).sum = if j < n then c else 0 := by
  intro n
  induction n with
  | zero => simp
  | succ n ih =>
    rw [List.sum_range_succ, ih]
    by_cases h1 : j < n
    · have h2 : j ≠ n := by omega
      have h3 : j < n + 1 := by omega
      simp [h1, h2, h3]
    · by_cases h2 : j = n
      · subst h2
        simp
      · have h3 : ¬ j < n + 1 := by omega
        simp [h1, h2, h3]

theorem count_routed (kvs : List KeyValue) (nReduce : Int) (kv : KeyValue) (p : Nat)
    (h0 : 0 ≤ partition kv.Key nReduce) :
    (routed kvs nReduce p).count kv =
      if (partition kv.Key nReduce).toNat = p then kvs.count kv else 0 := by
  unfold routed
  by_cases h : (partition kv.Key nReduce).toNat = p
  · rw [if_pos h]
    apply List.count_filter
    rw [decide_eq_true_iff, ← h]
    exact (Int.toNat_of_nonneg h0).symm
  · rw [if_neg h, List.count_eq_zero, List.mem_filter]
    rintro ⟨_, hd⟩
    rw [decide_eq_true_iff] at hd
    apply h
    rw [hd]
    rfl

theorem buckets_eq_map (buckets : List (List KeyValue)) (kvs : List KeyValue) (nReduce : Int)
    (hl : buckets.length = nReduce.toNat)
    (hb : ∀ p : Nat, p < nReduce.toNat → buckets.getD p [] = routed kvs nReduce p) :
    buckets = (List.range nReduce.toNat).map (routed kvs nReduce) := by
  apply List.ext_getElem (by simp [hl])
  intro p h1 h2
  rw [List.getElem_map, List.getElem_range, ← List.getD_eq_getElem buckets [] h1]
  exact hb p (by omega)

theorem count_buckets (kvs : List KeyValue) (nReduce : Int) (h : 1 ≤ nReduce) (kv : KeyValue) :
    (((List.range nReduce.toNat).map (routed kvs nReduce)).map (List.count kv)).sum =
      kvs.count kv := by
  obtain ⟨_, h0, h1⟩ := partition_bounds kv.Key nReduce h
  rw [List.map_map]
  have e : (List.count kv ∘ routed kvs nReduce) =
      fun p => if (partition kv.Key nReduce).toNat = p then kvs.count kv else 0 := by
    funext p
    exact count_routed kvs nReduce kv p h0
  rw [e, sum_indicator]
  have : (partition kv.Key nReduce).toNat < nReduce.toNat := by omega
  rw [if_pos this]

/-- C2 (map-side shuffle completeness): a map task with `nReduce ≥ 1` whose input
file exists runs to completion; its bucket `p`, which is what it writes (encoded) to
the intermediate file of (map index, `p`), is exactly the records of the map
function's result whose key has partition index `p`, in emit order.  Hence every
emitted record lies in exactly one bucket, the buckets hold every record as often
as it was emitted, and the bucket lengths add up to the number of records. -/
theorem shuffle_complete (c : JSONCodec) (fs : FS) (t : task) (mapF : MapF) (content : String)
    (hn : 1 ≤ t.nReduce) (hf : t.mapF = some mapF) (hfile : fs t.mapFile = some content) :
    ∃ (buckets : List (List KeyValue)) (fs2 : FS) (log : TaskLog),
      partitionKVs (mapF t.mapFile content) t.nReduce = .ok buckets ∧
      doMap c fs t = .ok (fs2, log) ∧
      log.emitted = mapF t.mapFile content ∧
      buckets.length = t.nReduce.toNat ∧
      (∀ p : Nat, p < t.nReduce.toNat →
        buckets.getD p [] = routed (mapF t.mapFile content) t.nReduce p ∧
        fs2 (reduceName t.dataDir t.jobName t.taskNumber (Int.ofNat p)) =
          some (c.encodeAll (routed (mapF t.mapFile content) t.nReduce p))) ∧
      (∀ kv ∈ mapF t.mapFile content, ∃ p : Nat, p < t.nReduce.toNat ∧
        kv ∈ buckets.getD p [] ∧
        ∀ q : Nat, q < t.nReduce.toNat → kv ∈ buckets.getD q [] → q = p) ∧
      (∀ kv : KeyValue,
        (buckets.map (List.count kv)).sum = (mapF t.mapFile content).count kv) ∧
      (buckets.map List.length).sum = (mapF t.mapFile content).length := by
  obtain ⟨buckets, hb, hbl, hbp⟩ := partitionKVs_spec (mapF t.mapFile content) t.nReduce hn
  have hmap := buckets_eq_map buckets _ _ hbl hbp
  have hcount : ∀ kv : KeyValue,
      (buckets.map (List.count kv)).sum = (mapF t.mapFile content).count kv := by
    intro kv
    rw [hmap]
    exact count_buckets _ _ hn kv
  refine ⟨buckets, writeBuckets c t buckets 0 fs,
    { emitted := mapF t.mapFile content, opened := [t.mapFile] }, hb, ?_, rfl, hbl, ?_, ?_,
    hcount, ?_⟩
  · unfold doMap
    rw [hfile, hf]
    simp only [hb]
  · intro p hp
    refine ⟨hbp p hp, ?_⟩
    have := writeBuckets_get c t buckets 0 fs p (by omega)
    rw [Nat.zero_add, hbp p hp] at this
    exact this
  · intro kv hkv
    obtain ⟨_, h0, h1⟩ := partition_bounds kv.Key t.nReduce hn
    refine ⟨(partition kv.Key t.nReduce).toNat, by omega, ?_, ?_⟩
    · rw [hbp _ (by omega)]
      unfold routed
      rw [List.mem_filter, decide_eq_true_iff]
      exact ⟨hkv, (Int.toNat_of_nonneg h0).symm⟩
    · intro q hq hmem
      rw [hbp q hq] at hmem
      unfold routed at hmem
      rw [List.mem_filter, decide_eq_true_iff] at hmem
      rw [hmem.2]
      rfl
  · have hperm : buckets.flatten.Perm (mapF t.mapFile content) := by
      rw [List.perm_iff_count]
      intro kv
      rw [List.count_flatten]
      exact hcount kv
    rw [← List.length_flatten]
    exact hperm.length_eq

theorem shuffle_complete_witness :
    (1 ≤ wordMapTask.nReduce ∧ wordMapTask.mapF = some wordCountMap ∧
      wordFS wordMapTask.mapFile = some "the cat") ∧
    ∃ (buckets : List (List KeyValue)) (fs2 : FS) (log : TaskLog),
      partitionKVs (wordCountMap wordMapTask.mapFile "the cat") wordMapTask.nReduce
        = .ok buckets ∧
      doMap tagCodec wordFS wordMapTask = .ok (fs2, log) ∧
      log.emitted = wordCountMap wordMapTask.mapFile "the cat" ∧
      buckets.length = wordMapTask.nReduce.toNat ∧
      (∀ p : Nat, p < wordMapTask.nReduce.toNat →
        buckets.getD p [] =
          routed (wordCountMap wordMapTask.mapFile "the cat") wordMapTask.nReduce p ∧
        fs2 (reduceName wordMapTask.dataDir wordMapTask.jobName wordMapTask.taskNumber
            (Int.ofNat p)) =
          some (tagCodec.encodeAll
            (routed (wordCountMap wordMapTask.mapFile "the cat") wordMapTask.nReduce p))) ∧
      (∀ kv ∈ wordCountMap wordMapTask.mapFile "the cat", ∃ p : Nat,
        p < wordMapTask.nReduce.toNat ∧ kv ∈ buckets.getD p [] ∧
        ∀ q : Nat, q < wordMapTask.nReduce.toNat → kv ∈ buckets.getD q [] → q = p) ∧
      (∀ kv : KeyValue, (buckets.map (List.count kv)).sum =
        (wordCountMap wordMapTask.mapFile "the cat").count kv) ∧
      (buckets.map List.length).sum = (wordCountMap wordMapTask.mapFile "the cat").length :=
  ⟨⟨by decide, rfl, rfl⟩,
    shuffle_complete tagCodec wordFS wordMapTask wordCountMap "the cat" (by decide) rfl rfl⟩

/-! ## Reduce task: reading -/

theorem decodeLoop_eq : ∀ (pending kvs : List KeyValue), decodeLoop pending kvs = kvs ++ pending := by
  intro pending
  induction pending with
  | nil => intro kvs; simp [decodeLoop]
  | cons kv pending ih => intro kvs; simp [decodeLoop, ih]

theorem readLoop_opened (c : JSONCodec) (fs : FS) (t : task) :
    ∀ (n k : Nat) (kvs : List KeyValue) (opened : List String) (r : List KeyValue × List String),
    readLoop c fs t n (Int.ofNat k) kvs opened = .ok r →
    r.2 = opened ++ (List.range' k n).map
      (fun i => reduceName t.dataDir t.jobName (Int.ofNat i) t.taskNumber) := by
  intro n
  induction n with
  | zero =>
    intro k kvs opened r h
    simp only [readLoop, Except.ok.injEq] at h
    subst h
    simp
  | succ n ih =>
    intro k kvs opened r h
    unfold readLoop at h
    cases hfs : fs (reduceName t.dataDir t.jobName (Int.ofNat k) t.taskNumber) with
    | none =>
      simp only [hfs] at h
      cases h
    | some content =>
      simp only [hfs] at h
      have e : Int.ofNat k + 1 = Int.ofNat (k + 1) := rfl
      rw [e] at h
      rw [ih (k + 1) _ _ r h]
      simp [List.range'_succ]

theorem readLoop_ok (c : JSONCodec) (fs : FS) (t : task) :
    ∀ (n k : Nat) (kvs : List KeyValue) (opened : List String),
    (∀ j : Nat, j < n →
      fs (reduceName t.dataDir t.jobName (Int.ofNat (k + j)) t.taskNumber) ≠ none) →
    ∃ r, readLoop c fs t n (Int.ofNat k) kvs opened = .ok r := by
  intro n
  induction n with
  | zero => intro k kvs opened _; exact ⟨_, rfl⟩
  | succ n ih =>
    intro k kvs opened h
    unfold readLoop
    have h0 := h 0 (by omega)
    simp only [Nat.add_zero] at h0
    cases hfs : fs (reduceName t.dataDir t.jobName (Int.ofNat k) t.taskNumber) with
    | none => exact absurd hfs h0
    | some content =>
      simp only [hfs]
      have e : Int.ofNat k + 1 = Int.ofNat (k + 1) := rfl
      rw [e]
      apply ih
      intro j hj
      have := h (j + 1) (by omega)
      have e2 : k + 1 + j = k + (j + 1) := by omega
      rw [e2]
      exact this

theorem readLoop_faithful (c : JSONCodec) (hc : c.Faithful) (fs : FS) (t : task)
    (B : Nat → List KeyValue) :
    ∀ (n k : Nat) (kvs : List KeyValue) (opened : List String),
    (∀ j : Nat, j < n →
      fs (reduceName t.dataDir t.jobName (Int.ofNat (k + j)) t.taskNumber) =
        some (c.encodeAll (B (k + j)))) →
    readLoop c fs t n (Int.ofNat k) kvs opened =
      .ok (kvs ++ ((List.range' k n).map B).flatten,
        opened ++ (List.range' k n).map
          (fun i => reduceName t.dataDir t.jobName (Int.ofNat i) t.taskNumber)) := by
  intro n
  induction n with
  | zero => intro k kvs opened _; simp [readLoop]
  | succ n ih =>
    intro k kvs opened h
    unfold readLoop
    have h0 := h 0 (by omega)
    simp only [Nat.add_zero] at h0
    simp only [h0]
    have e : Int.ofNat k + 1 = Int.ofNat (k + 1) := rfl
    rw [e, ih (k + 1) _ _ (fun j hj => by
      have := h (j + 1) (by omega)
      have e2 : k + 1 + j = k + (j + 1) := by omega
      rw [e2]
      exact this)]
    rw [hc (B k), decodeLoop_eq]
    simp [List.range'_succ]

theorem readLoop_missing (c : JSONCodec) (fs : FS) (t : task) :
    ∀ (n k : Nat) (kvs : List KeyValue) (opened : List String) (m : Nat), m < n →
    (∀ j : Nat, j < m →
      fs (reduceName t.dataDir t.jobName (Int.ofNat (k + j)) t.taskNumber) ≠ none) →
    fs (reduceName t.dataDir t.jobName (Int.ofNat (k + m)) t.taskNumber) = none →
    readLoop c fs t n (Int.ofNat k) kvs opened =
      .error (Abort.cannotOpen (reduceName t.dataDir t.jobName (Int.ofNat (k + m)) t.taskNumber)) := by
  intro n
  induction n with
  | zero => intro k kvs opened m hm; omega
  | succ n ih =>
    intro k kvs opened m hm hsome hnone
    unfold readLoop
    cases m with
    | zero =>
      simp only [Nat.add_zero] at hnone ⊢
      simp only [hnone]
    | succ m =>
      have h0 := hsome 0 (by omega)
      simp only [Nat.add_zero] at h0
      obtain ⟨content, hcontent⟩ := Option.ne_none_iff_exists'.mp h0
      simp only [hcontent]
      have e : Int.ofNat k + 1 = Int.ofNat (k + 1) := rfl
      have e2 : k + (m + 1) = k + 1 + m := by omega
      rw [e, e2]
      apply ih (k + 1) _ _ m (by omega)
      · intro j hj
        have := hsome (j + 1) (by omega)
        have e3 : k + 1 + j = k + (j + 1) := by omega
        rw [e3]
        exact this
      · rw [← e2]
        exact hnone

/-- C3 (reduce-side file set): a reduce task with index `p` of a job with `nMap` map
tasks opens, when it runs to the end of its reading loop, exactly the paths
`reduceName(dataDir, jobName, i, p)` for `i = 0, ..., nMap-1` in this order, and it
does run to the end when these files exist (when one is missing, it opens the
paths before the first missing one and aborts on that one).  Each of these paths is
the path that map task `i` of the job writes its bucket `p` to: it is the `p`-th
path that task writes, and after that task has run the file there holds the
encoding of its bucket `p`.  With a faithful codec, when the file of map task `i`
holds the encoding of the record list `B i`, the records accumulated are the
concatenation of `B 0, ..., B (nMap-1)`. -/
theorem reduce_file_set (c : JSONCodec) (t : task) (p nMap : Nat)
    (hp : t.taskNumber = Int.ofNat p) (hm : t.nMap = Int.ofNat nMap) :
    (∀ (fs : FS) (kvs : List KeyValue) (opened : List String),
      readLoop c fs t t.nMap.toNat 0 [] [] = .ok (kvs, opened) →
      opened = (List.range nMap).map
        (fun i => reduceName t.dataDir t.jobName (Int.ofNat i) (Int.ofNat p))) ∧
    (∀ fs : FS,
      (∀ i : Nat, i < nMap →
        fs (reduceName t.dataDir t.jobName (Int.ofNat i) (Int.ofNat p)) ≠ none) →
      ∃ kvs, readLoop c fs t t.nMap.toNat 0 [] [] =
        .ok (kvs, (List.range nMap).map
          (fun i => reduceName t.dataDir t.jobName (Int.ofNat i) (Int.ofNat p)))) ∧
    (∀ (fs : FS) (k : Nat), k < nMap →
      (∀ i : Nat, i < k →
        fs (reduceName t.dataDir t.jobName (Int.ofNat i) (Int.ofNat p)) ≠ none) →
      fs (reduceName t.dataDir t.jobName (Int.ofNat k) (Int.ofNat p)) = none →
      readLoop c fs t t.nMap.toNat 0 [] [] =
        .error (Abort.cannotOpen
          (reduceName t.dataDir t.jobName (Int.ofNat k) (Int.ofNat p)))) ∧
    (∀ (tm : task) (i : Nat), tm.phase = jobPhase.mapPhase → tm.dataDir = t.dataDir →
      tm.jobName = t.jobName → tm.taskNumber = Int.ofNat i → p < tm.nReduce.toNat →
      (writePaths tm).getD p "" =
        reduceName t.dataDir t.jobName (Int.ofNat i) (Int.ofNat p)) ∧
    (∀ (tm : task) (i : Nat) (fs : FS) (mapF : MapF) (content : String),
      tm.dataDir = t.dataDir → tm.jobName = t.jobName → tm.taskNumber = Int.ofNat i →
      p < tm.nReduce.toNat → tm.mapF = some mapF → fs tm.mapFile = some content →
      ∃ (fs2 : FS) (log : TaskLog), doMap c fs tm = .ok (fs2, log) ∧
        fs2 (reduceName t.dataDir t.jobName (Int.ofNat i) (Int.ofNat p)) =
          some (c.encodeAll (routed (mapF tm.mapFile content) tm.nReduce p))) ∧
    (∀ (fs : FS) (B : Nat → List KeyValue), c.Faithful →
      (∀ i : Nat, i < nMap →
        fs (reduceName t.dataDir t.jobName (Int.ofNat i) (Int.ofNat p)) =
          some (c.encodeAll (B i))) →
      readLoop c fs t t.nMap.toNat 0 [] [] =
        .ok (((List.range nMap).map B).flatten, (List.range nMap).map
          (fun i => reduceName t.dataDir t.jobName (Int.ofNat i) (Int.ofNat p)))) := by
  have hn : t.nMap.toNat = nMap := by rw [hm]; rfl
  have h0 : (0 : Int) = Int.ofNat 0 := rfl
  rw [hn, h0]
  refine ⟨?_, ?_, ?_, ?_, ?_, ?_⟩
  · intro fs kvs opened h
    have := readLoop_opened c fs t nMap 0 [] [] _ h
    simp only [List.nil_append] at this
    rw [this, hp, List.range_eq_range']
  · intro fs hfs
    obtain ⟨r, hr⟩ := readLoop_ok c fs t nMap 0 [] [] (fun j hj => by
      rw [Nat.zero_add, hp]
      exact hfs j hj)
    have := readLoop_opened c fs t nMap 0 [] [] _ hr
    simp only [List.nil_append] at this
    refine ⟨r.1, ?_⟩
    rw [hr, List.range_eq_range', ← hp, ← this]
  · intro fs k hk hsome hnone
    have := readLoop_missing c fs t nMap 0 [] [] k hk (fun j hj => by
      rw [Nat.zero_add, hp]
      exact hsome j hj) (by
      rw [Nat.zero_add, hp]
      exact hnone)
    rw [Nat.zero_add, hp] at this
    exact this
  · intro tm i hph hd hj hi hlt
    unfold writePaths
    rw [if_pos hph, hd, hj, hi]
    rw [List.getD_eq_getElem _ _ (by simpa using hlt)]
    simp
  · intro tm i fs mapF content hd hj hi hlt hf hfile
    obtain ⟨buckets, hb, hbl, hbp⟩ :=
      partitionKVs_spec (mapF tm.mapFile content) tm.nReduce (by omega)
    refine ⟨writeBuckets c tm buckets 0 fs,
      { emitted := mapF tm.mapFile content, opened := [tm.mapFile] }, ?_, ?_⟩
    · unfold doMap
      rw [hfile, hf]
      simp only [hb]
    · have := writeBuckets_get c tm buckets 0 fs p (by omega)
      rw [Nat.zero_add, hbp p hlt, hd, hj, hi] at this
      exact this
  · intro fs B hc hfs
    have := readLoop_faithful c hc fs t B nMap 0 [] [] (fun j hj => by
      rw [Nat.zero_add, hp]
      exact hfs j hj)
    rw [this, hp, List.range_eq_range']
    simp

theorem reduce_file_set_witness :
    (wordReduceTask.taskNumber = Int.ofNat 1 ∧ wordReduceTask.nMap = Int.ofNat 2 ∧
      tagCodec.Faithful ∧
      ∀ i : Nat, i < 2 →
        wordShuffledFS (reduceName wordReduceTask.dataDir wordReduceTask.jobName (Int.ofNat i)
          (Int.ofNat 1)) = some (tagCodec.encodeAll (wordBuckets i))) ∧
    readLoop tagCodec wordShuffledFS wordReduceTask wordReduceTask.nMap.toNat 0 [] [] =
      .ok (((List.range 2).map wordBuckets).flatten, (List.range 2).map
        (fun i => reduceName wordReduceTask.dataDir wordReduceTask.jobName (Int.ofNat i)
          (Int.ofNat 1))) ∧
    (writePaths wordMapTask).getD 1 "" =
      reduceName wordReduceTask.dataDir wordReduceTask.jobName (Int.ofNat 0) (Int.ofNat 1) :=
  ⟨⟨rfl, rfl, tagCodec_faithful, by decide⟩,
    (reduce_file_set tagCodec wordReduceTask 1 2 rfl rfl).2.2.2.2.2 wordShuffledFS wordBuckets
      tagCodec_faithful (by decide),
    (reduce_file_set tagCodec wordReduceTask 1 2 rfl rfl).2.2.2.1 wordMapTask 0 rfl rfl rfl rfl
      (by decide)⟩

/-! ## Reduce task: grouping and output -/

theorem GoMap.get_nil (k : String) : GoMap.get [] k = [] := rfl

theorem GoMap.get_cons (k0 : String) (v0 : List String) (m : GoMap) (k : String) :
    GoMap.get ((k0, v0) :: m) k = if k = k0 then v0 else GoMap.get m k := by
  unfold GoMap.get
  by_cases h : k = k0
  · subst h
    simp [List.lookup]
  · have : (k == k0) = false := by simpa using h
    simp [List.lookup, this, h]

theorem GoMap.get_set (m : GoMap) (k : String) (v : List String) (k2 : String) :
    (GoMap.set m k v).get k2 = if k2 = k then v else m.get k2 := by
  induction m with
  | nil =>
    unfold GoMap.set
    rw [GoMap.get_cons, GoMap.get_nil]
  | cons e m ih =>
    obtain ⟨k0, v0⟩ := e
    unfold GoMap.set
    by_cases h : k0 = k
    · subst h
      rw [if_pos rfl, GoMap.get_cons, GoMap.get_cons]
      by_cases h2 : k2 = k0
      · rw [if_pos h2, if_pos h2]
      · rw [if_neg h2, if_neg h2, if_neg h2]
    · rw [if_neg h, GoMap.get_cons, GoMap.get_cons, ih]
      by_cases h2 : k2 = k0
      · subst h2
        have h3 : ¬ k2 = k := h
        rw [if_pos rfl, if_pos rfl, if_neg h3]
      · rw [if_neg h2, if_neg h2]

theorem GoMap.keys_set (m : GoMap) (k : String) (v : List String) :
    GoMap.keys (GoMap.set m k v) = if k ∈ GoMap.keys m then GoMap.keys m else GoMap.keys m ++ [k] := by
  induction m with
  | nil => simp [GoMap.set, GoMap.keys]
  | cons e m ih =>
    obtain ⟨k0, v0⟩ := e
    unfold GoMap.set
    by_cases h : k0 = k
    · subst h
      simp [GoMap.keys]
    · rw [if_neg h]
      have hk : GoMap.keys ((k0, v0) :: GoMap.set m k v) = k0 :: GoMap.keys (GoMap.set m k v) :=
        rfl
      have hk2 : GoMap.keys ((k0, v0) :: m) = k0 :: GoMap.keys m := rfl
      rw [hk, hk2, ih]
      have hne : ¬ k = k0 := fun e => h e.symm
      by_cases h2 : k ∈ GoMap.keys m
      · simp [h2]
      · simp [h2, hne]

theorem GoMap.mem_iff_get (m : GoMap) (hnd : (GoMap.keys m).Nodup) (k : String)
    (v : List String) : (k, v) ∈ m ↔ k ∈ GoMap.keys m ∧ GoMap.get m k = v := by
  induction m with
  | nil => simp [GoMap.keys]
  | cons e m ih =>
    obtain ⟨k0, v0⟩ := e
    have hk2 : GoMap.keys ((k0, v0) :: m) = k0 :: GoMap.keys m := rfl
    rw [hk2, List.nodup_cons] at hnd
    rw [hk2, GoMap.get_cons, List.mem_cons, List.mem_cons, ih hnd.2]
    by_cases h : k = k0
    · subst h
      simp only [Prod.mk.injEq, true_and, if_true, true_or]
      constructor
      · rintro (h | h)
        · exact h.symm
        · exact absurd h.1 hnd.1
      · intro h
        left
        exact h.symm
    · simp [h]

theorem groupLoop_get : ∀ (kvs : List KeyValue) (m : GoMap) (k : String),
    GoMap.get (groupLoop kvs m) k = GoMap.get m k ++ valuesOf k kvs := by
  intro kvs
  induction kvs with
  | nil => intro m k; simp [groupLoop, valuesOf]
  | cons kv rest ih =>
    intro m k
    unfold groupLoop
    rw [ih, GoMap.get_set]
    unfold valuesOf
    by_cases h : k = kv.Key
    · subst h
      simp [List.filter_cons]
    · have h2 : ¬ kv.Key = k := fun e => h e.symm
      simp [List.filter_cons, h, h2]

theorem groupLoop_keys : ∀ (kvs : List KeyValue) (m : GoMap), (GoMap.keys m).Nodup →
    (GoMap.keys (groupLoop kvs m)).Nodup ∧
    ∀ k, k ∈ GoMap.keys (groupLoop kvs m) ↔ (k ∈ GoMap.keys m ∨ ∃ kv ∈ kvs, kv.Key = k) := by
  intro kvs
  induction kvs with
  | nil => intro m h; simp [groupLoop, h]
  | cons kv rest ih =>
    intro m h
    unfold groupLoop
    have hnd : (GoMap.keys (GoMap.set m kv.Key (GoMap.get m kv.Key ++ [kv.Value]))).Nodup := by
      rw [GoMap.keys_set]
      by_cases h2 : kv.Key ∈ GoMap.keys m
      · rw [if_pos h2]
        exact h
      · rw [if_neg h2]
        rw [List.nodup_append]
        refine ⟨h, List.nodup_singleton _, ?_⟩
        intro a ha hb
        rw [List.mem_singleton] at hb
        subst hb
        exact h2 ha
    obtain ⟨h1, h2⟩ := ih _ hnd
    refine ⟨h1, ?_⟩
    intro k
    rw [h2, GoMap.keys_set]
    by_cases h3 : kv.Key ∈ GoMap.keys m
    · rw [if_pos h3]
      simp only [List.mem_cons, exists_eq_or_imp]
      constructor
      · rintro (h | h)
        · exact Or.inl h
        · exact Or.inr (Or.inr h)
      · rintro (h | h | h)
        · exact Or.inl h
        · subst h
          exact Or.inl h3
        · exact Or.inr h
    · rw [if_neg h3]
      simp only [List.mem_append, List.mem_cons, List.not_mem_nil, or_false, exists_eq_or_imp]
      constructor
      · rintro ((h | h) | h)
        · exact Or.inl h
        · exact Or.inr (Or.inl h.symm)
        · exact Or.inr (Or.inr h)
      · rintro (h | h | h)
        · exact Or.inl (Or.inl h)
        · exact Or.inl (Or.inr h.symm)
        · exact Or.inr h

theorem reduceLoop_some (f : ReduceF) : ∀ (calls : GoMap) (buf : String),
    reduceLoop (some f) calls buf =
      .ok (buf ++ String.join (calls.map fun e => f e.1 e.2)) := by
  intro calls
  induction calls with
  | nil =>
    intro buf
    simp [reduceLoop, String.join]
  | cons e calls ih =>
    intro buf
    obtain ⟨k, v⟩ := e
    unfold reduceLoop
    simp only []
    rw [ih]
    congr 1
    have hj : ∀ (l : List String) (a : String), l.foldl (fun r s => r ++ s) a =
        a ++ l.foldl (fun r s => r ++ s) "" := by
      intro l
      induction l with
      | nil => intro a; simp
      | cons x l ihl =>
        intro a
        simp only [List.foldl_cons]
        rw [ihl (a ++ x), ihl ("" ++ x)]
        simp [String.append_assoc]
    simp only [String.join, List.map_cons, List.foldl_cons]
    rw [hj _ ("" ++ f k v)]
    simp [String.append_assoc]

theorem readLoop_contents (c : JSONCodec) (fs : FS) (t : task) (cont : Nat → String) :
    ∀ (n k : Nat) (kvs : List KeyValue) (opened : List String),
    (∀ j : Nat, j < n →
      fs (reduceName t.dataDir t.jobName (Int.ofNat (k + j)) t.taskNumber) = some (cont (k + j))) →
    readLoop c fs t n (Int.ofNat k) kvs opened =
      .ok (kvs ++ ((List.range' k n).map fun i => (c.NewDecoder (cont i)).pending).flatten,
        opened ++ (List.range' k n).map
          (fun i => reduceName t.dataDir t.jobName (Int.ofNat i) t.taskNumber)) := by
  intro n
  induction n with
  | zero => intro k kvs opened _; simp [readLoop]
  | succ n ih =>
    intro k kvs opened h
    unfold readLoop
    have h0 := h 0 (by omega)
    simp only [Nat.add_zero] at h0
    simp only [h0]
    have e : Int.ofNat k + 1 = Int.ofNat (k + 1) := rfl
    rw [e, ih (k + 1) _ _ (fun j hj => by
      have := h (j + 1) (by omega)
      have e2 : k + 1 + j = k + (j + 1) := by omega
      rw [e2]
      exact this)]
    rw [decodeLoop_eq]
    simp [List.range'_succ]

theorem reduceRead_contents (c : JSONCodec) (fs : FS) (t : task) (p nMap : Nat)
    (cont : Nat → String) (hp : t.taskNumber = Int.ofNat p) (hm : t.nMap = Int.ofNat nMap)
    (hfiles : ∀ i : Nat, i < nMap →
      fs (reduceName t.dataDir t.jobName (Int.ofNat i) (Int.ofNat p)) = some (cont i)) :
    readLoop c fs t t.nMap.toNat 0 [] [] =
      .ok (accumulated c cont nMap, (List.range nMap).map
        (fun i => reduceName t.dataDir t.jobName (Int.ofNat i) (Int.ofNat p))) := by
  have hn : t.nMap.toNat = nMap := by rw [hm]; rfl
  have h0 : (0 : Int) = Int.ofNat 0 := rfl
  rw [hn, h0, readLoop_contents c fs t cont nMap 0 [] [] (fun j hj => by
    rw [Nat.zero_add, hp]
    exact hfiles j hj)]
  rw [hp, List.range_eq_range']
  simp [accumulated, List.range_eq_range']

theorem doReduce_eq (c : JSONCodec) (it : MapIter) (fs : FS) (t : task) (f : ReduceF)
    (kvs : List KeyValue) (opened : List String) (hr : t.reduceF = some f)
    (hread : readLoop c fs t t.nMap.toNat 0 [] [] = .ok (kvs, opened)) :
    doReduce c it fs t =
      .ok (fs.write (mergeName t.dataDir t.jobName t.taskNumber)
          (String.join ((it.order (groupLoop kvs [])).map fun e => f e.1 e.2)),
        { opened := opened, calls := it.order (groupLoop kvs []) }) := by
  unfold doReduce
  rw [hread, hr]
  simp only [reduceLoop_some]
  congr 2

/-- C10 (reduce output): a reduce task whose `nMap` intermediate files exist runs to
completion; the keys it calls the reduce function with are pairwise distinct and are
exactly the keys of the accumulated records, and the content of its output file is
the concatenation of the results of these calls in call order, with nothing else;
no other path is written. -/
theorem reduce_output (c : JSONCodec) (it : MapIter) (fs : FS) (t : task) (p nMap : Nat)
    (reduceF : ReduceF) (cont : Nat → String)
    (hp : t.taskNumber = Int.ofNat p) (hm : t.nMap = Int.ofNat nMap)
    (hr : t.reduceF = some reduceF)
    (hfiles : ∀ i : Nat, i < nMap →
      fs (reduceName t.dataDir t.jobName (Int.ofNat i) (Int.ofNat p)) = some (cont i)) :
    ∃ (fs2 : FS) (log : TaskLog),
      doReduce c it fs t = .ok (fs2, log) ∧
      (log.calls.map Prod.fst).Nodup ∧
      (∀ key : String, key ∈ log.calls.map Prod.fst ↔
        ∃ kv ∈ accumulated c cont nMap, kv.Key = key) ∧
      fs2 (mergeName t.dataDir t.jobName t.taskNumber) =
        some (String.join (log.calls.map fun e => reduceF e.1 e.2)) ∧
      (∀ path : String, path ≠ mergeName t.dataDir t.jobName t.taskNumber →
        fs2 path = fs path) := by
  have hread := reduceRead_contents c fs t p nMap cont hp hm hfiles
  obtain ⟨hnd, hkeys⟩ := groupLoop_keys (accumulated c cont nMap) [] List.nodup_nil
  have hperm := (it.perm (groupLoop (accumulated c cont nMap) [])).map Prod.fst
  refine ⟨_, _, doReduce_eq c it fs t reduceF _ _ hr hread, ?_, ?_, ?_, ?_⟩
  · exact hperm.nodup_iff.mpr hnd
  · intro key
    simp only
    rw [hperm.mem_iff]
    have := hkeys key
    simp only [GoMap.keys, List.map_nil, List.not_mem_nil, false_or] at this
    exact this
  · simp [FS.write]
  · intro path hpath
    simp [FS.write, hpath]

/-- C5, evaluated: the file of map task `0` holds one well-formed record followed by
a truncated one, so the decoder ends with an error that is not the clean end of
input; the reduce task nevertheless runs to completion and writes an output file
computed from the one record it had decoded. -/
theorem decode_failure_not_fatal :
    (tagCodec.NewDecoder "kav1;\nkb").err = DecodeError.Malformed ∧
    (doReduce tagCodec MapIter.insertion
        (fun path => if path = "/tmp/mrtmp.job-0-0" then some "kav1;\nkb" else none)
        { dataDir := "/tmp", jobName := "job", phase := jobPhase.reducePhase, taskNumber := 0,
          nMap := 1, reduceF := some wordCountReduce }).map
      (fun r => (r.1 "/tmp/mrtmp.job-res-0", r.2.calls)) =
        .ok (some "a:1\n", [("a", ["1"])]) := by
  decide

theorem reduce_output_witness :
    (wordReduceTask.taskNumber = Int.ofNat 1 ∧ wordReduceTask.nMap = Int.ofNat 2 ∧
      wordReduceTask.reduceF = some wordCountReduce ∧
      ∀ i : Nat, i < 2 →
        wordShuffledFS (reduceName wordReduceTask.dataDir wordReduceTask.jobName (Int.ofNat i)
          (Int.ofNat 1)) = some (wordContents i)) ∧
    ∃ (fs2 : FS) (log : TaskLog),
      doReduce tagCodec MapIter.insertion wordShuffledFS wordReduceTask = .ok (fs2, log) ∧
      (log.calls.map Prod.fst).Nodup ∧
      (∀ key : String, key ∈ log.calls.map Prod.fst ↔
        ∃ kv ∈ accumulated tagCodec wordContents 2, kv.Key = key) ∧
      fs2 (mergeName wordReduceTask.dataDir wordReduceTask.jobName wordReduceTask.taskNumber) =
        some (String.join (log.calls.map fun e => wordCountReduce e.1 e.2)) ∧
      (∀ path : String,
        path ≠ mergeName wordReduceTask.dataDir wordReduceTask.jobName
          wordReduceTask.taskNumber → fs2 path = wordShuffledFS path) :=
  ⟨⟨rfl, rfl, rfl, by decide⟩,
    reduce_output tagCodec MapIter.insertion wordShuffledFS wordReduceTask 1 2 wordCountReduce
      wordContents rfl rfl rfl (by decide)⟩

/-! ## The phases of a job -/

theorem writeBuckets_some (c : JSONCodec) (t : task) :
    ∀ (buckets : List (List KeyValue)) (k : Int) (fs : FS) (path : String),
    fs path ≠ none → writeBuckets c t buckets k fs path ≠ none := by
  intro buckets
  induction buckets with
  | nil => intro k fs path h; exact h
  | cons b rest ih =>
    intro k fs path h
    unfold writeBuckets
    apply ih
    unfold FS.write
    by_cases hp : path = reduceName t.dataDir t.jobName t.taskNumber k
    · rw [if_pos hp]
      exact Option.some_ne_none _
    · rw [if_neg hp]
      exact h

theorem doMap_spec (c : JSONCodec) (fs : FS) (t : task) (mapF : MapF) (content : String)
    (i : Nat) (hn : 1 ≤ t.nReduce) (hi : t.taskNumber = Int.ofNat i) (hf : t.mapF = some mapF)
    (hfile : fs t.mapFile = some content) :
    ∃ fs2 : FS,
      doMap c fs t = .ok (fs2, { emitted := mapF t.mapFile content, opened := [t.mapFile] }) ∧
      (∀ p : Nat, p < t.nReduce.toNat →
        fs2 (reduceName t.dataDir t.jobName (Int.ofNat i) (Int.ofNat p)) =
          some (c.encodeAll (routed (mapF t.mapFile content) t.nReduce p))) ∧
      (∀ path : String, (∀ p : Nat, p < t.nReduce.toNat →
          path ≠ reduceName t.dataDir t.jobName (Int.ofNat i) (Int.ofNat p)) →
        fs2 path = fs path) ∧
      (∀ path : String, fs path ≠ none → fs2 path ≠ none) := by
  obtain ⟨buckets, hb, hbl, hbp⟩ := partitionKVs_spec (mapF t.mapFile content) t.nReduce hn
  refine ⟨writeBuckets c t buckets 0 fs, ?_, ?_, ?_, ?_⟩
  · unfold doMap
    rw [hfile, hf]
    simp only [hb]
  · intro p hp
    have := writeBuckets_get c t buckets 0 fs p (by omega)
    rw [Nat.zero_add, hbp p hp, hi] at this
    exact this
  · intro path hpath
    have := writeBuckets_frame c t buckets 0 fs path (fun j hj => by
      rw [Nat.zero_add, hi]
      exact hpath j (by omega))
    exact this
  · intro path hpath
    exact writeBuckets_some c t buckets 0 fs path hpath

theorem mapPhase_spec (c : JSONCodec) (it : MapIter) (jobName dataDir : String) (mapF : MapF)
    (mapFiles : List String) (nReduce : Int) :
    ∀ (is : List Nat) (fs : FS), is.Nodup → (is ≠ [] → 1 ≤ nReduce) →
    (∀ i ∈ is, fs (mapFiles.getD i "") ≠ none) →
    ∃ (fs1 : FS) (E : Nat → List KeyValue),
      runTasks c it (is.map (mapTask jobName dataDir mapF mapFiles nReduce)) fs =
        .ok (fs1, is.map fun i => { emitted := E i, opened := [mapFiles.getD i ""] }) ∧
      (∀ i ∈ is, ∀ p : Nat, p < nReduce.toNat →
        fs1 (reduceName dataDir jobName (Int.ofNat i) (Int.ofNat p)) =
          some (c.encodeAll (routed (E i) nReduce p))) ∧
      (∀ path : String, (∀ i ∈ is, ∀ p : Nat, p < nReduce.toNat →
          path ≠ reduceName dataDir jobName (Int.ofNat i) (Int.ofNat p)) →
        fs1 path = fs path) ∧
      (∀ path : String, fs path ≠ none → fs1 path ≠ none) ∧
      (∀ i ∈ is, ∃ content : String, E i = mapF (mapFiles.getD i "") content) ∧
      (∀ i ∈ is, (∀ j ∈ is, ∀ p : Nat, p < nReduce.toNat →
          mapFiles.getD i "" ≠ reduceName dataDir jobName (Int.ofNat j) (Int.ofNat p)) →
        ∀ content : String, fs (mapFiles.getD i "") = some content →
          E i = mapF (mapFiles.getD i "") content) := by
  intro is
  induction is with
  | nil =>
    intro fs _ _ _
    exact ⟨fs, fun _ => [], rfl, by simp, fun _ _ => rfl, fun _ h => h, by simp, by simp⟩
  | cons i rest ih =>
    intro fs hnd hn hfiles
    have hn1 : 1 ≤ nReduce := hn (List.cons_ne_nil _ _)
    rw [List.nodup_cons] at hnd
    obtain ⟨content, hcontent⟩ := Option.ne_none_iff_exists'.mp (hfiles i (List.mem_cons_self _ _))
    obtain ⟨fs', hdo, hget, hframe, hmono⟩ :=
      doMap_spec c fs (mapTask jobName dataDir mapF mapFiles nReduce i) mapF content i hn1 rfl rfl
        hcontent
    obtain ⟨fs1, E', hrun, hget', hframe', hmono', hE', hinit'⟩ := ih fs' hnd.2 (fun _ => hn1)
      (fun j hj => hmono _ (hfiles j (List.mem_cons_of_mem _ hj)))
    have hEq : ∀ j ∈ rest, (if j = i then mapF (mapFiles.getD i "") content else E' j) = E' j := by
      intro j hj
      have : j ≠ i := fun e => hnd.1 (e ▸ hj)
      rw [if_neg this]
    refine ⟨fs1, fun j => if j = i then mapF (mapFiles.getD i "") content else E' j,
      ?_, ?_, ?_, ?_, ?_, ?_⟩
    · simp only [List.map_cons, runTasks]
      have hw : worker c it fs (mapTask jobName dataDir mapF mapFiles nReduce i) =
          doMap c fs (mapTask jobName dataDir mapF mapFiles nReduce i) := by
        unfold worker
        exact if_pos rfl
      rw [hw, hdo]
      simp only [hrun, if_true]
      congr 2
      apply congrArg
      apply List.map_congr_left
      intro j hj
      rw [hEq j hj]
    · intro j hj p hp
      beta_reduce
      rcases List.mem_cons.mp hj with rfl | hj
      · rw [if_pos rfl, hframe' _ (fun k hk q _ hEq2 => by
          have := (reduceName_inj _ _ _ _ _ _ hEq2).1
          exact hnd.1 (this ▸ hk))]
        exact hget p hp
      · rw [hEq j hj]
        exact hget' j hj p hp
    · intro path hpath
      rw [hframe' path (fun j hj p hp => hpath j (List.mem_cons_of_mem _ hj) p hp)]
      exact hframe path (fun p hp => hpath i (List.mem_cons_self _ _) p hp)
    · intro path hpath
      exact hmono' path (hmono path hpath)
    · intro j hj
      beta_reduce
      rcases List.mem_cons.mp hj with rfl | hj
      · exact ⟨content, by rw [if_pos rfl]⟩
      · rw [hEq j hj]
        exact hE' j hj
    · intro j hj hfree content2 hc2
      beta_reduce
      rcases List.mem_cons.mp hj with rfl | hj
      · rw [if_pos rfl]
        rw [hcontent] at hc2
        rw [Option.some.inj hc2]
      · rw [hEq j hj]
        apply hinit' j hj (fun k hk p hp => hfree k (List.mem_cons_of_mem _ hk) p hp)
        rw [hframe _ (fun p hp => hfree i (List.mem_cons_self _ _) p hp)]
        exact hc2

theorem reducePhase_spec (c : JSONCodec) (it : MapIter) (jobName dataDir : String)
    (reduceF : ReduceF) (nMap : Nat) (cont : Nat → Nat → String) :
    ∀ (ps : List Nat) (fs : FS), ps.Nodup →
    (∀ p ∈ ps, ∀ i : Nat, i < nMap →
      fs (reduceName dataDir jobName (Int.ofNat i) (Int.ofNat p)) = some (cont i p)) →
    ∃ fs2 : FS,
      runTasks c it (ps.map (reduceTask jobName dataDir reduceF (Int.ofNat nMap))) fs =
        .ok (fs2, ps.map fun p =>
          { opened := (List.range nMap).map
              (fun i => reduceName dataDir jobName (Int.ofNat i) (Int.ofNat p)),
            calls := it.order (groupLoop (accumulated c (fun i => cont i p) nMap) []) }) ∧
      (∀ p ∈ ps, fs2 (mergeName dataDir jobName (Int.ofNat p)) =
        some (String.join ((it.order (groupLoop (accumulated c (fun i => cont i p) nMap) [])).map
          fun e => reduceF e.1 e.2))) ∧
      (∀ path : String, (∀ p ∈ ps, path ≠ mergeName dataDir jobName (Int.ofNat p)) →
        fs2 path = fs path) := by
  intro ps
  induction ps with
  | nil =>
    intro fs _ _
    exact ⟨fs, rfl, by simp, fun _ _ => rfl⟩
  | cons p rest ih =>
    intro fs hnd hfiles
    rw [List.nodup_cons] at hnd
    have hread := reduceRead_contents c fs (reduceTask jobName dataDir reduceF (Int.ofNat nMap) p)
      p nMap (fun i => cont i p) rfl rfl (hfiles p (List.mem_cons_self _ _))
    have hdo := doReduce_eq c it fs (reduceTask jobName dataDir reduceF (Int.ofNat nMap) p)
      reduceF _ _ rfl hread
    obtain ⟨fs2, hrun, hout, hframe⟩ := ih
      (fs.write (mergeName dataDir jobName (Int.ofNat p))
        (String.join ((it.order (groupLoop (accumulated c (fun i => cont i p) nMap) [])).map
          fun e => reduceF e.1 e.2))) hnd.2
      (fun q hq i hi => by
        unfold FS.write
        rw [if_neg (reduceName_ne_mergeName dataDir jobName i q p)]
        exact hfiles q (List.mem_cons_of_mem _ hq) i hi)
    refine ⟨fs2, ?_, ?_, ?_⟩
    · simp only [List.map_cons, runTasks]
      have hw : worker c it fs (reduceTask jobName dataDir reduceF (Int.ofNat nMap) p) =
          doReduce c it fs (reduceTask jobName dataDir reduceF (Int.ofNat nMap) p) := by
        unfold worker
        have : ¬ (reduceTask jobName dataDir reduceF (Int.ofNat nMap) p).phase =
            jobPhase.mapPhase := by
          show ¬ (jobPhase.reducePhase = jobPhase.mapPhase)
          decide
        exact if_neg this
      rw [hw, hdo]
      have hrun' := hrun
      simp only [reduceTask] at hrun' ⊢
      simp only [hrun']
    · intro q hq
      rcases List.mem_cons.mp hq with rfl | hq
      · rw [hframe _ (fun r hr hEq => by
          have := mergeName_inj _ _ _ _ hEq
          exact hnd.1 (this ▸ hr))]
        unfold FS.write
        exact if_pos rfl
      · exact hout q hq
    · intro path hpath
      rw [hframe path (fun q hq => hpath q (List.mem_cons_of_mem _ hq))]
      unfold FS.write
      exact if_neg (hpath p (List.mem_cons_self _ _))

theorem run_spec (c : JSONCodec) (it : MapIter) (fs : FS) (jobName dataDir : String)
    (mapF : MapF) (reduceF : ReduceF) (mapFiles : List String) (nReduce : Int)
    (h0 : 0 ≤ nReduce) (hn : mapFiles ≠ [] → 1 ≤ nReduce)
    (hfiles : ∀ f ∈ mapFiles, fs f ≠ none) :
    ∃ (fs2 : FS) (E : Nat → List KeyValue),
      run c it fs jobName dataDir mapF reduceF mapFiles nReduce =
        .ok { fs := fs2,
              results := (List.range nReduce.toNat).map fun i =>
                mergeName dataDir jobName (Int.ofNat i),
              mapLogs := (List.range mapFiles.length).map fun i =>
                { emitted := E i, opened := [mapFiles.getD i ""] },
              reduceLogs := (List.range nReduce.toNat).map fun p =>
                { opened := (List.range mapFiles.length).map
                    (fun i => reduceName dataDir jobName (Int.ofNat i) (Int.ofNat p)),
                  calls := it.order (groupLoop (accumulated c
                    (fun i => c.encodeAll (routed (E i) nReduce p)) mapFiles.length) []) } } ∧
      (∀ p : Nat, p < nReduce.toNat →
        fs2 (mergeName dataDir jobName (Int.ofNat p)) =
          some (String.join ((it.order (groupLoop (accumulated c
            (fun i => c.encodeAll (routed (E i) nReduce p)) mapFiles.length) [])).map
              fun e => reduceF e.1 e.2))) ∧
      ((∀ f ∈ mapFiles, ∀ j p : Nat, f ≠ reduceName dataDir jobName (Int.ofNat j) (Int.ofNat p)) →
        ∀ i : Nat, i < mapFiles.length →
          E i = mapF (mapFiles.getD i "") ((fs (mapFiles.getD i "")).getD "")) := by
  have hmem : ∀ i ∈ List.range mapFiles.length, mapFiles.getD i "" ∈ mapFiles := by
    intro i hi
    rw [List.mem_range] at hi
    rw [List.getD_eq_getElem _ _ hi]
    exact List.getElem_mem hi
  obtain ⟨fs1, E, hrun1, hget, _, _, _, hinit⟩ :=
    mapPhase_spec c it jobName dataDir mapF mapFiles nReduce (List.range mapFiles.length) fs
      (List.nodup_range _)
      (fun hne => hn (fun e => hne (by rw [e]; rfl)))
      (fun i hi => hfiles _ (hmem i hi))
  obtain ⟨fs2, hrun2, hout, _⟩ :=
    reducePhase_spec c it jobName dataDir reduceF mapFiles.length
      (fun i p => c.encodeAll (routed (E i) nReduce p)) (List.range nReduce.toNat) fs1
      (List.nodup_range _)
      (fun p hp i hi => hget i (List.mem_range.mpr hi) p (List.mem_range.mp hp))
  refine ⟨fs2, E, ?_, ?_, ?_⟩
  · unfold run mapTasks reduceTasks
    have hneg : ¬ nReduce < 0 := by omega
    simp only [hrun1, hneg, if_false, hrun2]
  · intro p hp
    exact hout p (List.mem_range.mpr hp)
  · intro hfree i hi
    have hi' := List.mem_range.mpr hi
    obtain ⟨content, hcontent⟩ := Option.ne_none_iff_exists'.mp (hfiles _ (hmem i hi'))
    rw [hcontent]
    exact hinit i hi' (fun j _ p _ => hfree _ (hmem i hi') j p) content hcontent

/-- C7 (submit result): for `nReduce ≥ 0`, whenever a job delivers a list through
its completion handle, the list has `nReduce` entries and its `i`-th entry is
`mergeName(dataDir, jobName, i)`, the one path that reduce task `i` writes.  The
job does deliver when its input files exist (and `nReduce ≥ 1` unless there is no
input file), and then the file at the `i`-th entry holds what reduce task `i`
wrote: the concatenation of the results of its calls of the reduce function. -/
theorem submit_result (c : JSONCodec) (it : MapIter) (fs : FS) (jobName dataDir : String)
    (mapF : MapF) (reduceF : ReduceF) (mapFiles : List String) (nReduce : Int)
    (h0 : 0 ≤ nReduce) :
    (∀ results : List String,
      Submit c it fs jobName dataDir mapF reduceF mapFiles nReduce = .ok results →
      results.length = nReduce.toNat ∧
      ∀ i : Nat, i < nReduce.toNat →
        results.getD i "" = mergeName dataDir jobName (Int.ofNat i) ∧
        writePaths ((reduceTasks jobName dataDir reduceF (Int.ofNat mapFiles.length)
          nReduce).getD i (reduceTask jobName dataDir reduceF 0 0)) = [results.getD i ""]) ∧
    ((mapFiles ≠ [] → 1 ≤ nReduce) → (∀ f ∈ mapFiles, fs f ≠ none) →
      ∃ res : RunResult,
        run c it fs jobName dataDir mapF reduceF mapFiles nReduce = .ok res ∧
        Submit c it fs jobName dataDir mapF reduceF mapFiles nReduce = .ok res.results ∧
        res.reduceLogs.length = nReduce.toNat ∧
        ∀ i : Nat, i < nReduce.toNat →
          res.fs (res.results.getD i "") =
            some (String.join ((res.reduceLogs.getD i {}).calls.map
              fun e => reduceF e.1 e.2))) := by
  constructor
  · intro results hres
    have hresults : results = (List.range nReduce.toNat).map fun i =>
        mergeName dataDir jobName (Int.ofNat i) := by
      unfold Submit run at hres
      simp only at hres
      split at hres
      · cases hres
      · rename_i res hrun
        cases hres
        split at hrun
        · cases hrun
        · split at hrun
          · cases hrun
          · split at hrun
            · cases hrun
            · cases hrun
              rfl
    rw [hresults]
    refine ⟨by simp, ?_⟩
    intro i hi
    have h1 : ((List.range nReduce.toNat).map fun i =>
        mergeName dataDir jobName (Int.ofNat i)).getD i "" =
        mergeName dataDir jobName (Int.ofNat i) := by
      rw [List.getD_eq_getElem _ _ (by simpa using hi)]
      simp
    refine ⟨h1, ?_⟩
    rw [h1]
    unfold reduceTasks
    rw [List.getD_eq_getElem _ _ (by simpa using hi)]
    simp only [List.getElem_map, List.getElem_range]
    rfl
  · intro hn hfiles
    obtain ⟨fs2, E, hrun, hout, _⟩ :=
      run_spec c it fs jobName dataDir mapF reduceF mapFiles nReduce h0 hn hfiles
    refine ⟨_, hrun, ?_, by simp, ?_⟩
    · unfold Submit
      rw [hrun]
    · intro i hi
      simp only
      rw [List.getD_eq_getElem _ _ (by simpa using hi),
        List.getD_eq_getElem _ _ (by simpa using hi)]
      simp only [List.getElem_map, List.getElem_range]
      exact hout i hi

theorem submit_result_witness :
    ((0 : Int) ≤ 2 ∧ ((["in0", "in1"] : List String) ≠ [] → (1 : Int) ≤ 2) ∧
      ∀ f ∈ (["in0", "in1"] : List String), wordFS f ≠ none) ∧
    (∃ res : RunResult,
      run tagCodec MapIter.insertion wordFS "wc" "/tmp" wordCountMap wordCountReduce
        ["in0", "in1"] 2 = .ok res ∧
      Submit tagCodec MapIter.insertion wordFS "wc" "/tmp" wordCountMap wordCountReduce
        ["in0", "in1"] 2 = .ok res.results ∧
      res.reduceLogs.length = (2 : Int).toNat ∧
      ∀ i : Nat, i < (2 : Int).toNat →
        res.fs (res.results.getD i "") =
          some (String.join ((res.reduceLogs.getD i {}).calls.map
            fun e => wordCountReduce e.1 e.2))) ∧
    Submit tagCodec MapIter.insertion wordFS "wc" "/tmp" wordCountMap wordCountReduce
      ["in0", "in1"] 2 = .ok ["/tmp/mrtmp.wc-res-0", "/tmp/mrtmp.wc-res-1"] :=
  ⟨⟨by decide, fun _ => by decide, by decide⟩,
    (submit_result tagCodec MapIter.insertion wordFS "wc" "/tmp" wordCountMap wordCountReduce
      ["in0", "in1"] 2 (by decide)).2 (fun _ => by decide) (by decide),
    by decide⟩

/-! ## End to end -/

theorem mem_groupLoop (kvs : List KeyValue) (key : String) (values : List String) :
    (key, values) ∈ groupLoop kvs [] ↔
      (∃ kv ∈ kvs, kv.Key = key) ∧ values = valuesOf key kvs := by
  obtain ⟨hnd, hkeys⟩ := groupLoop_keys kvs [] List.nodup_nil
  rw [GoMap.mem_iff_get _ hnd, groupLoop_get, GoMap.get_nil, List.nil_append, hkeys]
  simp only [GoMap.keys, List.map_nil, List.not_mem_nil, false_or]
  constructor
  · rintro ⟨h1, h2⟩
    exact ⟨h1, h2.symm⟩
  · rintro ⟨h1, h2⟩
    exact ⟨h1, h2.symm⟩

theorem groupLoop_nodup (kvs : List KeyValue) : (groupLoop kvs []).Nodup :=
  List.Nodup.of_map Prod.fst (groupLoop_keys kvs [] List.nodup_nil).1

theorem groupLoop_perm (kvs : List KeyValue) :
    (groupLoop kvs []).Perm (((kvs.map KeyValue.Key).dedup).map fun key =>
      (key, valuesOf key kvs)) := by
  have hnd2 : (((kvs.map KeyValue.Key).dedup).map fun key =>
      (key, valuesOf key kvs)).Nodup := by
    apply List.Nodup.map _ (List.nodup_dedup _)
    intro a b hab
    exact (Prod.mk.inj hab).1
  rw [List.perm_ext_iff_of_nodup (groupLoop_nodup kvs) hnd2]
  rintro ⟨key, values⟩
  rw [mem_groupLoop, List.mem_map]
  constructor
  · rintro ⟨⟨kv, hkv, hk⟩, hv⟩
    refine ⟨key, List.mem_dedup.mpr (List.mem_map.mpr ⟨kv, hkv, hk⟩), ?_⟩
    rw [hv]
  · rintro ⟨k, hk, heq⟩
    obtain ⟨h1, h2⟩ := Prod.mk.inj heq
    subst h1
    obtain ⟨kv, hkv, hkk⟩ := List.mem_map.mp (List.mem_dedup.mp hk)
    exact ⟨⟨kv, hkv, hkk⟩, h2.symm⟩

/-- C9 (value order per key): a reduce task whose `nMap` intermediate files exist
runs to completion.  The sequence of records it accumulates is what the decoder
yields for the file of map task `0`, then of map task `1`, ..., each file in its own
order.  The calls of the reduce function are, up to their order, one call for each
distinct key of that sequence, with the values of the records with that key in the
order of the sequence; and the content of the output file is the concatenation of
the results of the reduce function on exactly these arguments, for every reduce
function.  In particular the values passed for a key are never an empty list. -/
theorem value_order (c : JSONCodec) (it : MapIter) (fs : FS) (t : task) (p nMap : Nat)
    (reduceF : ReduceF) (cont : Nat → String)
    (hp : t.taskNumber = Int.ofNat p) (hm : t.nMap = Int.ofNat nMap)
    (hr : t.reduceF = some reduceF)
    (hfiles : ∀ i : Nat, i < nMap →
      fs (reduceName t.dataDir t.jobName (Int.ofNat i) (Int.ofNat p)) = some (cont i)) :
    ∃ (fs2 : FS) (log : TaskLog) (opened : List String),
      readLoop c fs t t.nMap.toNat 0 [] [] = .ok (accumulated c cont nMap, opened) ∧
      doReduce c it fs t = .ok (fs2, log) ∧
      log.calls.Perm ((((accumulated c cont nMap).map KeyValue.Key).dedup).map fun key =>
        (key, valuesOf key (accumulated c cont nMap))) ∧
      fs2 (mergeName t.dataDir t.jobName t.taskNumber) =
        some (String.join (log.calls.map fun e => reduceF e.1 e.2)) ∧
      (∀ key : String, (∃ kv ∈ accumulated c cont nMap, kv.Key = key) →
        (key, valuesOf key (accumulated c cont nMap)) ∈ log.calls) ∧
      ∀ (key : String) (values : List String), (key, values) ∈ log.calls →
        values = valuesOf key (accumulated c cont nMap) ∧ values ≠ [] := by
  have hread := reduceRead_contents c fs t p nMap cont hp hm hfiles
  refine ⟨_, _, _, hread, doReduce_eq c it fs t reduceF _ _ hr hread, ?_, ?_, ?_, ?_⟩
  · exact (it.perm _).trans (groupLoop_perm _)
  · simp [FS.write]
  · intro key hkey
    exact (it.perm _).mem_iff.mpr ((mem_groupLoop _ _ _).mpr ⟨hkey, rfl⟩)
  · intro key values hmem
    have hmem2 : (key, values) ∈ groupLoop (accumulated c cont nMap) [] :=
      (it.perm _).mem_iff.mp hmem
    obtain ⟨⟨kv, hkv, hk⟩, hv⟩ := (mem_groupLoop _ _ _).mp hmem2
    refine ⟨hv, ?_⟩
    rw [hv, ← hk]
    intro he
    have : kv.Value ∈ valuesOf kv.Key (accumulated c cont nMap) := by
      unfold valuesOf
      rw [List.mem_map]
      exact ⟨kv, List.mem_filter.mpr ⟨hkv, by simp⟩, rfl⟩
    rw [he] at this
    simp at this

theorem value_order_witness :
    (orderReduceTask.taskNumber = Int.ofNat 0 ∧ orderReduceTask.nMap = Int.ofNat 2 ∧
      orderReduceTask.reduceF = some listReduce ∧
      ∀ i : Nat, i < 2 →
        orderFS (reduceName orderReduceTask.dataDir orderReduceTask.jobName (Int.ofNat i)
          (Int.ofNat 0)) = some (orderContents i)) ∧
    accumulated tagCodec orderContents 2 =
      [⟨"k", "x"⟩, ⟨"j", "u"⟩, ⟨"k", "y"⟩, ⟨"j", "v"⟩, ⟨"k", "z"⟩] ∧
    (doReduce tagCodec MapIter.insertion orderFS orderReduceTask).map
        (fun r => (r.1 "/tmp/mrtmp.ord-res-0", r.2.calls)) =
      .ok (some "k=x,y,z\nj=u,v\n", [("k", ["x", "y", "z"]), ("j", ["u", "v"])]) ∧
    ∃ (fs2 : FS) (log : TaskLog) (opened : List String),
      readLoop tagCodec orderFS orderReduceTask orderReduceTask.nMap.toNat 0 [] [] =
        .ok (accumulated tagCodec orderContents 2, opened) ∧
      doReduce tagCodec MapIter.insertion orderFS orderReduceTask = .ok (fs2, log) ∧
      log.calls.Perm ((((accumulated tagCodec orderContents 2).map KeyValue.Key).dedup).map
        fun key => (key, valuesOf key (accumulated tagCodec orderContents 2))) ∧
      fs2 (mergeName orderReduceTask.dataDir orderReduceTask.jobName
          orderReduceTask.taskNumber) =
        some (String.join (log.calls.map fun e => listReduce e.1 e.2)) ∧
      (∀ key : String, (∃ kv ∈ accumulated tagCodec orderContents 2, kv.Key = key) →
        (key, valuesOf key (accumulated tagCodec orderContents 2)) ∈ log.calls) ∧
      ∀ (key : String) (values : List String), (key, values) ∈ log.calls →
        values = valuesOf key (accumulated tagCodec orderContents 2) ∧ values ≠ [] :=
  ⟨⟨rfl, rfl, rfl, by decide⟩, by decide, by decide,
    value_order tagCodec MapIter.insertion orderFS orderReduceTask 0 2 listReduce
      orderContents rfl rfl rfl (by decide)⟩

/-! ## The hash -/

theorem fnv1aSpec_eq_foldl : ∀ (bytes : List Nat) (h : Nat),
    fnv1aSpec h bytes = bytes.foldl (fun h b => ((h ^^^ b) * 16777619) % 2 ^ 32) h := by
  intro bytes
  induction bytes with
  | nil => intro h; rfl
  | cons b bytes ih => intro h; simp only [fnv1aSpec, List.foldl_cons, ih]

theorem foldl_fnv_lt : ∀ (bytes : List Nat) (h : Nat), h < 2 ^ 32 →
    bytes.foldl (fun h b => ((h ^^^ b) * 16777619) % 2 ^ 32) h < 2 ^ 32 := by
  intro bytes
  induction bytes with
  | nil => intro h hh; exact hh
  | cons b bytes ih =>
    intro h _
    simp only [List.foldl_cons]
    exact ih _ (Nat.mod_lt _ (by norm_num))

/-- C13 (hash definition): `ihash(key)` is the 32-bit FNV-1a hash of the key's bytes
(offset basis 2166136261, per byte xor then multiply by 16777619 modulo 2^32), a
value below 2^32, with bit 31 cleared; so `0 ≤ ihash(key) < 2^31`.  The hash of the
empty key is 18652613 (and the FNV-1a hashes of `a` and `foobar` are the published
test values), and for `nReduce ≥ 1` the partition index is the hash modulo
`nReduce`. -/
theorem ihash_definition (key : String) (nReduce : Int) (h : 1 ≤ nReduce) :
    ihash key = ihashSpec key ∧
    fnv32a (bytesOf key) = fnv1aSpec 2166136261 (bytesOf key) ∧
    fnv32a (bytesOf key) < 2 ^ 32 ∧
    0 ≤ ihash key ∧ ihash key < 2 ^ 31 ∧
    ihash "" = 18652613 ∧
    fnv32a (bytesOf "a") = 0xe40c292c ∧ fnv32a (bytesOf "foobar") = 0xbf9cf968 ∧
    partition key nReduce = ihash key % nReduce ∧
    goMod (ihash key) nReduce = .ok (ihash key % nReduce) := by
  have hspec : fnv32a (bytesOf key) = fnv1aSpec 2166136261 (bytesOf key) := by
    unfold fnv32a
    rw [fnv1aSpec_eq_foldl]
  have hmask : fnv32a (bytesOf key) &&& 0x7fffffff = fnv32a (bytesOf key) % 2 ^ 31 :=
    Nat.and_pow_two_sub_one_eq_mod _ 31
  have hlt : ihash key < 2 ^ 31 := by
    have := ihash_lt key
    norm_num
    exact this
  have hmod : partition key nReduce = ihash key % nReduce :=
    Int.tmod_eq_emod (ihash_nonneg key) (by omega)
  refine ⟨?_, hspec, ?_, ihash_nonneg key, hlt, by decide, by decide, by decide, hmod, ?_⟩
  · unfold ihash ihashSpec
    rw [hmask, hspec]
  · unfold fnv32a
    exact foldl_fnv_lt _ _ (by norm_num)
  · rw [← hmod]
    exact (partition_bounds key nReduce h).1

theorem ihash_definition_witness :
    ((1 : Int) ≤ 4) ∧
    (ihash "the" = ihashSpec "the" ∧
    fnv32a (bytesOf "the") = fnv1aSpec 2166136261 (bytesOf "the") ∧
    fnv32a (bytesOf "the") < 2 ^ 32 ∧
    0 ≤ ihash "the" ∧ ihash "the" < 2 ^ 31 ∧
    ihash "" = 18652613 ∧
    fnv32a (bytesOf "a") = 0xe40c292c ∧ fnv32a (bytesOf "foobar") = 0xbf9cf968 ∧
    partition "the" 4 = ihash "the" % 4 ∧
    goMod (ihash "the") 4 = .ok (ihash "the" % 4)) :=
  ⟨by decide, ihash_definition "the" 4 (by decide)⟩

/-! ## The phase barrier -/

theorem set_keeps_done (l : List TaskStatus) (idx k : Nat) (st0 st : TaskStatus)
    (hk : ∀ x, x < k → l[x]? = some TaskStatus.done) (h0 : l[idx]? = some st0)
    (hne : st0 ≠ TaskStatus.done) :
    ∀ x, x < k → (l.set idx st)[x]? = some TaskStatus.done := by
  intro x hx
  rw [List.getElem?_set]
  by_cases hix : idx = x
  · subst hix
    have := hk idx hx
    rw [h0] at this
    exact absurd (Option.some.inj this) hne
  · rw [if_neg hix]
    exact hk x hx

theorem all_done_no_other (l : List TaskStatus) (idx : Nat) (st0 : TaskStatus)
    (hall : ∀ st ∈ l, st = TaskStatus.done) (h0 : l[idx]? = some st0) :
    st0 = TaskStatus.done :=
  hall st0 (List.mem_iff_getElem?.mpr ⟨idx, h0⟩)

theorem AllMapDone_setStatus (j : Job) (s : JobState) (phase : jobPhase) (idx : Nat)
    (st0 st : TaskStatus) (h : s.AllMapDone j) (h0 : s.status phase idx = some st0)
    (hne : st0 ≠ TaskStatus.done) : (s.setStatus phase idx st).AllMapDone j := by
  unfold JobState.status at h0
  unfold JobState.setStatus
  by_cases hp : phase = jobPhase.mapPhase
  · rw [if_pos hp] at h0
    exact absurd (all_done_no_other _ _ _ h.2 h0) hne
  · rw [if_neg hp]
    exact h

theorem Inv_setStatus (j : Job) (s : JobState) (phase : jobPhase) (idx : Nat)
    (st0 st : TaskStatus) (hI : s.Inv j) (h0 : s.status phase idx = some st0)
    (hne : st0 ≠ TaskStatus.done) : (s.setStatus phase idx st).Inv j := by
  obtain ⟨h1, h2, h3, h4, h5, h6⟩ := hI
  have hamd : s.AllMapDone j → (s.setStatus phase idx st).AllMapDone j :=
    fun h => AllMapDone_setStatus j s phase idx st0 st h h0 hne
  have hpc : (s.setStatus phase idx st).pc = s.pc := by
    unfold JobState.setStatus
    split_ifs <;> rfl
  have hmlen : (s.setStatus phase idx st).mapSt.length = s.mapSt.length := by
    unfold JobState.setStatus
    split_ifs <;> simp
  have hrlen : (s.setStatus phase idx st).reduceSt.length = s.reduceSt.length := by
    unfold JobState.setStatus
    split_ifs <;> simp
  have hrnil : s.reduceSt = [] → (s.setStatus phase idx st).reduceSt = [] := by
    intro h
    apply List.length_eq_zero.mp
    rw [hrlen, h]
    rfl
  have hmk : ∀ k : Nat, (∀ x : Nat, x < k → s.mapSt[x]? = some TaskStatus.done) →
      ∀ x : Nat, x < k → (s.setStatus phase idx st).mapSt[x]? = some TaskStatus.done := by
    intro k hk
    unfold JobState.status at h0
    unfold JobState.setStatus
    by_cases hp : phase = jobPhase.mapPhase
    · rw [if_pos hp] at h0
      rw [if_pos hp]
      exact set_keeps_done _ _ _ _ _ hk h0 hne
    · rw [if_neg hp]
      exact hk
  have hrk : ∀ k : Nat, (∀ x : Nat, x < k → s.reduceSt[x]? = some TaskStatus.done) →
      ∀ x : Nat, x < k → (s.setStatus phase idx st).reduceSt[x]? = some TaskStatus.done := by
    intro k hk
    unfold JobState.status at h0
    unfold JobState.setStatus
    by_cases hp : phase = jobPhase.mapPhase
    · rw [if_pos hp]
      exact hk
    · rw [if_neg hp] at h0
      rw [if_neg hp]
      exact set_keeps_done _ _ _ _ _ hk h0 hne
  have hard : s.AllReduceDone j → (s.setStatus phase idx st).AllReduceDone j := by
    intro h
    unfold JobState.status at h0
    unfold JobState.setStatus
    by_cases hp : phase = jobPhase.mapPhase
    · rw [if_pos hp]
      exact h
    · rw [if_neg hp] at h0
      exact absurd (all_done_no_other _ _ _ h.2 h0) hne
  refine ⟨?_, ?_, ?_, ?_, ?_, ?_⟩
  · intro i hi
    rw [hpc] at hi
    obtain ⟨a, b, c⟩ := h1 i hi
    exact ⟨by rw [hmlen]; exact a, b, hrnil c⟩
  · intro k hk
    rw [hpc] at hk
    obtain ⟨a, b, c⟩ := h2 k hk
    exact ⟨by rw [hmlen]; exact a, hmk k b, hrnil c⟩
  · intro i hi
    rw [hpc] at hi
    obtain ⟨a, b, c, d⟩ := h3 i hi
    exact ⟨hamd a, b, by rw [hrlen]; exact c, d⟩
  · intro k hk
    rw [hpc] at hk
    obtain ⟨a, b, c, d⟩ := h4 k hk
    exact ⟨hamd a, b, by rw [hrlen]; exact c, hrk k d⟩
  · intro hn
    rw [hpc] at hn
    obtain ⟨a, b, c⟩ := h5 hn
    exact ⟨hamd a, b, hard c⟩
  · intro hne2
    apply hamd
    apply h6
    intro hnil
    exact hne2 (hrnil hnil)

theorem Inv_abort (j : Job) (s : JobState) (e : Abort) (hI : s.Inv j) :
    JobState.Inv j { s with pc := CoordPC.aborted e } := by
  obtain ⟨_, _, _, _, _, h6⟩ := hI
  refine ⟨?_, ?_, ?_, ?_, ?_, h6⟩
  · intro i hi; cases hi
  · intro i hi; cases hi
  · intro i hi; cases hi
  · intro i hi; cases hi
  · rintro (hi | hi) <;> cases hi

theorem Inv_init (j : Job) (fs : FS) : (JobState.init fs).Inv j := by
  refine ⟨?_, ?_, ?_, ?_, ?_, ?_⟩
  · intro i hi
    cases hi
    exact ⟨rfl, Nat.zero_le _, rfl⟩
  · intro i hi; cases hi
  · intro i hi; cases hi
  · intro i hi; cases hi
  · rintro (hi | hi) <;> cases hi
  · intro h
    exact absurd rfl h

theorem Inv_coordStep (j : Job) (s s2 : JobState) (hI : s.Inv j)
    (h : coordStep j s = some s2) : s2.Inv j := by
  have hI0 := hI
  obtain ⟨h1, h2, h3, h4, h5, h6⟩ := hI
  unfold coordStep at h
  cases hpc : s.pc with
  | mapCreate i =>
    rw [hpc] at h
    obtain ⟨a, b, c⟩ := h1 i hpc
    simp only at h
    split_ifs at h with hbig hlt
    · cases h
      exact Inv_abort j s _ hI0
    · cases h
      refine ⟨?_, ?_, ?_, ?_, ?_, ?_⟩
      · intro i2 hi
        cases hi
        exact ⟨by simp [a], hlt, c⟩
      · intro i2 hi; cases hi
      · intro i2 hi; cases hi
      · intro i2 hi; cases hi
      · rintro (hi | hi) <;> cases hi
      · intro hne
        exact absurd c hne
    · cases h
      refine ⟨?_, ?_, ?_, ?_, ?_, ?_⟩
      · intro i2 hi; cases hi
      · intro i2 hi
        cases hi
        exact ⟨by show s.mapSt.length = _; omega, fun x hx => absurd hx (Nat.not_lt_zero x), c⟩
      · intro i2 hi; cases hi
      · intro i2 hi; cases hi
      · rintro (hi | hi) <;> cases hi
      · intro hne
        exact absurd c hne
  | mapWait k =>
    rw [hpc] at h
    obtain ⟨a, b, c⟩ := h2 k hpc
    simp only at h
    split_ifs at h with hlt hd hneg
    · cases h
      refine ⟨?_, ?_, ?_, ?_, ?_, ?_⟩
      · intro i2 hi; cases hi
      · intro i2 hi
        cases hi
        refine ⟨a, ?_, c⟩
        intro x hx
        by_cases hxk : x = k
        · subst hxk; exact hd
        · exact b x (by omega)
      · intro i2 hi; cases hi
      · intro i2 hi; cases hi
      · rintro (hi | hi) <;> cases hi
      · intro hne
        exact absurd c hne
    · cases h
      exact Inv_abort j s _ hI0
    · cases h
      have hamd : s.AllMapDone j := by
        refine ⟨a, ?_⟩
        intro st hst
        obtain ⟨x, hx⟩ := List.mem_iff_getElem?.mp hst
        have hxl : x < s.mapSt.length := by
          by_contra hcon
          rw [List.getElem?_eq_none (by omega)] at hx
          cases hx
        have := b x (by omega)
        rw [hx] at this
        exact Option.some.inj this
      refine ⟨?_, ?_, ?_, ?_, ?_, ?_⟩
      · intro i2 hi; cases hi
      · intro i2 hi; cases hi
      · intro i2 hi
        cases hi
        exact ⟨hamd, by omega, by show s.reduceSt.length = 0; rw [c]; rfl, Nat.zero_le _⟩
      · intro i2 hi; cases hi
      · rintro (hi | hi) <;> cases hi
      · intro _
        exact hamd
  | reduceCreate i =>
    rw [hpc] at h
    obtain ⟨a, b, c, d⟩ := h3 i hpc
    simp only at h
    split_ifs at h with hlt
    · cases h
      refine ⟨?_, ?_, ?_, ?_, ?_, ?_⟩
      · intro i2 hi; cases hi
      · intro i2 hi; cases hi
      · intro i2 hi
        cases hi
        refine ⟨a, b, by simp [c], ?_⟩
        have : (Int.ofNat i) = (i : Int) := rfl
        omega
      · intro i2 hi; cases hi
      · rintro (hi | hi) <;> cases hi
      · intro _
        exact a
    · cases h
      refine ⟨?_, ?_, ?_, ?_, ?_, ?_⟩
      · intro i2 hi; cases hi
      · intro i2 hi; cases hi
      · intro i2 hi; cases hi
      · intro i2 hi
        cases hi
        refine ⟨a, b, ?_, fun x hx => absurd hx (Nat.not_lt_zero x)⟩
        show s.reduceSt.length = _
        have : (Int.ofNat i) = (i : Int) := rfl
        omega
      · rintro (hi | hi) <;> cases hi
      · intro _
        exact a
  | reduceWait k =>
    rw [hpc] at h
    obtain ⟨a, b, c, d⟩ := h4 k hpc
    simp only at h
    split_ifs at h with hlt hd hbig
    · cases h
      refine ⟨?_, ?_, ?_, ?_, ?_, ?_⟩
      · intro i2 hi; cases hi
      · intro i2 hi; cases hi
      · intro i2 hi; cases hi
      · intro i2 hi
        cases hi
        refine ⟨a, b, c, ?_⟩
        intro x hx
        by_cases hxk : x = k
        · subst hxk; exact hd
        · exact d x (by omega)
      · rintro (hi | hi) <;> cases hi
      · intro _
        exact a
    · cases h
      exact Inv_abort j s _ hI0
    · cases h
      have hard : s.AllReduceDone j := by
        refine ⟨c, ?_⟩
        intro st hst
        obtain ⟨x, hx⟩ := List.mem_iff_getElem?.mp hst
        have hxl : x < s.reduceSt.length := by
          by_contra hcon
          rw [List.getElem?_eq_none (by omega)] at hx
          cases hx
        have := d x (by omega)
        rw [hx] at this
        exact Option.some.inj this
      refine ⟨?_, ?_, ?_, ?_, ?_, ?_⟩
      · intro i2 hi; cases hi
      · intro i2 hi; cases hi
      · intro i2 hi; cases hi
      · intro i2 hi; cases hi
      · intro _
        exact ⟨a, b, hard⟩
      · intro _
        exact a
  | notify =>
    rw [hpc] at h
    obtain ⟨a, b, c⟩ := h5 (Or.inl hpc)
    simp only at h
    cases h
    refine ⟨?_, ?_, ?_, ?_, ?_, ?_⟩
    · intro i2 hi; cases hi
    · intro i2 hi; cases hi
    · intro i2 hi; cases hi
    · intro i2 hi; cases hi
    · intro _
      exact ⟨a, b, c⟩
    · intro _
      exact a
  | finished =>
    rw [hpc] at h
    cases h
  | aborted e =>
    rw [hpc] at h
    cases h

theorem step_start (j : Job) (s : JobState) (phase : jobPhase) (index : Nat) :
    step j s (Action.start phase index) =
      if s.isAborted = false ∧ s.status phase index = some TaskStatus.queued ∧
          s.busy < j.nWorkers then
        some (s.setStatus phase index TaskStatus.running)
      else none := rfl

theorem step_finish (j : Job) (s : JobState) (phase : jobPhase) (index : Nat) :
    step j s (Action.finish phase index) =
      if s.isAborted = false ∧ s.status phase index = some TaskStatus.running then
        match workerWith j.writable j.c j.it s.fs (j.task phase index) with
        | .error e => some { s with pc := CoordPC.aborted e }
        | .ok (fs2, _) => some { (s.setStatus phase index TaskStatus.done) with fs := fs2 }
      else none := rfl

theorem Inv_step (j : Job) (s s2 : JobState) (a : Action) (hI : s.Inv j)
    (h : step j s a = some s2) : s2.Inv j := by
  cases a with
  | coord => exact Inv_coordStep j s s2 hI h
  | start phase index =>
    rw [step_start] at h
    split_ifs at h with hen
    cases h
    exact Inv_setStatus j s phase index TaskStatus.queued TaskStatus.running hI hen.2.1
      (by decide)
  | finish phase index =>
    rw [step_finish] at h
    split_ifs at h with hen
    cases hw : workerWith j.writable j.c j.it s.fs (j.task phase index) with
    | error e =>
      rw [hw] at h
      cases h
      exact Inv_abort j s e hI
    | ok r =>
      obtain ⟨fs2, lg⟩ := r
      rw [hw] at h
      cases h
      exact Inv_setStatus j s phase index TaskStatus.running TaskStatus.done hI hen.2
        (by decide)

theorem Inv_exec (j : Job) (actions : List Action) :
    ∀ (s s2 : JobState), s.Inv j → exec j s actions = some s2 → s2.Inv j := by
  induction actions with
  | nil =>
    intro s s2 hI h
    cases h
    exact hI
  | cons a rest ih =>
    intro s s2 hI h
    unfold exec at h
    cases hs : step j s a with
    | none =>
      rw [hs] at h
      cases h
    | some s1 =>
      rw [hs] at h
      exact ih s1 s2 (Inv_step j s s1 a hI hs) h

theorem coordStep_reduce_grows (j : Job) (s s2 : JobState) (h : coordStep j s = some s2)
    (hg : s.reduceSt.length < s2.reduceSt.length) : ∃ i, s.pc = CoordPC.reduceCreate i := by
  unfold coordStep at h
  cases hpc : s.pc with
  | reduceCreate i => exact ⟨i, rfl⟩
  | mapCreate i =>
    rw [hpc] at h
    simp only at h
    split_ifs at h <;> cases h <;> exact absurd hg (Nat.lt_irrefl _)
  | mapWait k =>
    rw [hpc] at h
    simp only at h
    split_ifs at h <;> cases h <;> exact absurd hg (Nat.lt_irrefl _)
  | reduceWait k =>
    rw [hpc] at h
    simp only at h
    split_ifs at h <;> cases h <;> exact absurd hg (Nat.lt_irrefl _)
  | notify =>
    rw [hpc] at h
    cases h
    exact absurd hg (Nat.lt_irrefl _)
  | finished =>
    rw [hpc] at h
    cases h
  | aborted e =>
    rw [hpc] at h
    cases h

theorem setStatus_reduce_length (s : JobState) (phase : jobPhase) (idx : Nat)
    (st : TaskStatus) : (s.setStatus phase idx st).reduceSt.length = s.reduceSt.length := by
  unfold JobState.setStatus
  split_ifs <;> simp

theorem step_reduce_grows (j : Job) (s s2 : JobState) (a : Action)
    (h : step j s a = some s2) (hg : s.reduceSt.length < s2.reduceSt.length) :
    a = Action.coord ∧ ∃ i, s.pc = CoordPC.reduceCreate i := by
  cases a with
  | coord => exact ⟨rfl, coordStep_reduce_grows j s s2 h hg⟩
  | start phase index =>
    rw [step_start] at h
    split_ifs at h with hen
    cases h
    rw [setStatus_reduce_length] at hg
    exact absurd hg (Nat.lt_irrefl _)
  | finish phase index =>
    rw [step_finish] at h
    split_ifs at h with hen
    cases hw : workerWith j.writable j.c j.it s.fs (j.task phase index) with
    | error e =>
      rw [hw] at h
      cases h
      exact absurd hg (Nat.lt_irrefl _)
    | ok r =>
      obtain ⟨fs2, lg⟩ := r
      rw [hw] at h
      cases h
      have hg2 : s.reduceSt.length <
          (s.setStatus phase index TaskStatus.done).reduceSt.length := hg
      rw [setStatus_reduce_length] at hg2
      exact absurd hg2 (Nat.lt_irrefl _)

theorem step_reduce_enabled (j : Job) (s s2 : JobState) (index : Nat)
    (h : step j s (Action.start jobPhase.reducePhase index) = some s2 ∨
      step j s (Action.finish jobPhase.reducePhase index) = some s2) :
    s.reduceSt ≠ [] := by
  intro hnil
  have hst : s.status jobPhase.reducePhase index = none := by
    unfold JobState.status
    rw [if_neg (by decide), hnil]
    rfl
  rcases h with h | h
  · rw [step_start] at h
    split_ifs at h with hen
    rw [hst] at hen
    exact absurd hen.2.1 (by simp)
  · rw [step_finish] at h
    split_ifs at h with hen
    rw [hst] at hen
    exact absurd hen.2 (by simp)

theorem AllMapDone_step (j : Job) (s s2 : JobState) (a : Action) (hI : s.Inv j)
    (h : step j s a = some s2) (hd : s.AllMapDone j) : s2.AllMapDone j := by
  cases a with
  | coord =>
    have h0 := h
    unfold step coordStep at h
    cases hpc : s.pc with
    | mapCreate i =>
      rw [hpc] at h
      simp only at h
      split_ifs at h with hbig hlt
      · cases h
        exact hd
      · have := (hI.1 i hpc).1
        have := hd.1
        omega
      · cases h
        exact hd
    | mapWait k =>
      rw [hpc] at h
      simp only at h
      split_ifs at h <;> cases h <;> exact hd
    | reduceCreate i =>
      rw [hpc] at h
      simp only at h
      split_ifs at h <;> cases h <;> exact hd
    | reduceWait k =>
      rw [hpc] at h
      simp only at h
      split_ifs at h <;> cases h <;> exact hd
    | notify =>
      rw [hpc] at h
      cases h
      exact hd
    | finished =>
      rw [hpc] at h
      cases h
    | aborted e =>
      rw [hpc] at h
      cases h
  | start phase index =>
    rw [step_start] at h
    split_ifs at h with hen
    cases h
    exact AllMapDone_setStatus j s phase index TaskStatus.queued TaskStatus.running hd hen.2.1
      (by decide)
  | finish phase index =>
    rw [step_finish] at h
    split_ifs at h with hen
    cases hw : workerWith j.writable j.c j.it s.fs (j.task phase index) with
    | error e =>
      rw [hw] at h
      cases h
      exact hd
    | ok r =>
      obtain ⟨fs2, lg⟩ := r
      rw [hw] at h
      cases h
      exact AllMapDone_setStatus j s phase index TaskStatus.running TaskStatus.done hd hen.2
        (by decide)

/-- C11 (phase barrier): in every execution of a job from the state in which run
starts, whatever the schedule, the state reached satisfies the barrier: when any
reduce task exists (built, queued, running or done), every one of the nMap map
tasks has been built and is done.  For every further step from that state: a step
that builds a reduce task is a step of the coordinator at the loop that builds
them, and is taken with all map tasks done; a worker receives or ends a reduce task
only with all map tasks done; and once all map tasks are done they stay so. -/
theorem phase_barrier (j : Job) (fs : FS) (actions : List Action) (s : JobState)
    (h : exec j (JobState.init fs) actions = some s) :
    (s.reduceSt ≠ [] → s.AllMapDone j) ∧
    ∀ (a : Action) (s2 : JobState), step j s a = some s2 →
      (s.reduceSt.length < s2.reduceSt.length → a = Action.coord ∧ s.AllMapDone j) ∧
      (∀ index, a = Action.start jobPhase.reducePhase index ∨
          a = Action.finish jobPhase.reducePhase index → s.AllMapDone j) ∧
      (s.AllMapDone j → s2.AllMapDone j) := by
  have hI : s.Inv j := Inv_exec j actions _ s (Inv_init j fs) h
  refine ⟨hI.2.2.2.2.2, ?_⟩
  intro a s2 hs
  refine ⟨?_, ?_, AllMapDone_step j s s2 a hI hs⟩
  · intro hg
    obtain ⟨ha, i, hi⟩ := step_reduce_grows j s s2 a hs hg
    exact ⟨ha, (hI.2.2.1 i hi).1⟩
  · intro index ha
    apply hI.2.2.2.2.2
    apply step_reduce_enabled j s s2 index
    rcases ha with ha | ha
    · left; rw [← ha]; exact hs
    · right; rw [← ha]; exact hs

theorem exec_getD (j : Job) (s0 d : JobState) (actions : List Action)
    (h : (exec j s0 actions).isSome = true) :
    exec j s0 actions = some ((exec j s0 actions).getD d) := by
  cases he : exec j s0 actions with
  | none =>
    rw [he] at h
    cases h
  | some s => rfl

theorem exec_word_mid :
    exec wordJob (JobState.init wordFS) (wordSchedule.take 14) = some wordMidState :=
  exec_getD _ _ _ _ (by decide)

theorem phase_barrier_witness :
    exec wordJob (JobState.init wordFS) (wordSchedule.take 14) = some wordMidState ∧
    wordMidState.reduceSt = [TaskStatus.running, TaskStatus.queued] ∧
    ((wordMidState.reduceSt ≠ [] → wordMidState.AllMapDone wordJob) ∧
    ∀ (a : Action) (s2 : JobState), step wordJob wordMidState a = some s2 →
      (wordMidState.reduceSt.length < s2.reduceSt.length →
        a = Action.coord ∧ wordMidState.AllMapDone wordJob) ∧
      (∀ index, a = Action.start jobPhase.reducePhase index ∨
          a = Action.finish jobPhase.reducePhase index → wordMidState.AllMapDone wordJob) ∧
      (wordMidState.AllMapDone wordJob → s2.AllMapDone wordJob)) :=
  ⟨exec_word_mid, by decide,
    phase_barrier wordJob wordFS (wordSchedule.take 14) wordMidState exec_word_mid⟩

/-! ## The job without input files -/

theorem worker_reduce_empty (c : JSONCodec) (it : MapIter) (fs : FS) (jobName dataDir : String)
    (reduceF : ReduceF) (p : Nat) :
    worker c it fs (reduceTask jobName dataDir reduceF (Int.ofNat 0) p) =
      .ok (fs.write (mergeName dataDir jobName (Int.ofNat p)) "",
        { opened := [], calls := [] }) := by
  have horder : it.order (groupLoop [] []) = [] := (it.perm _).eq_nil
  unfold worker
  rw [if_neg (by simp [reduceTask])]
  rw [doReduce_eq c it fs (reduceTask jobName dataDir reduceF (Int.ofNat 0) p) reduceF [] []
    rfl rfl, horder]
  rfl

theorem workerWith_ok_iff (writable : String → Bool) (c : JSONCodec) (it : MapIter) (fs : FS)
    (t : task) (r : FS × TaskLog) :
    workerWith writable c it fs t = .ok r ↔
      worker c it fs t = .ok r ∧ ∀ path ∈ writePaths t, writable path = true := by
  unfold workerWith
  cases hw : worker c it fs t with
  | error e =>
    constructor
    · intro h; cases h
    · rintro ⟨h, _⟩; cases h
  | ok r0 =>
    simp only []
    cases hf : (writePaths t).find? (fun path => !writable path) with
    | some path =>
      simp only []
      constructor
      · intro h; cases h
      · rintro ⟨_, h⟩
        exfalso
        have h1 := List.find?_some hf
        have h2 := h path (List.mem_of_find?_eq_some hf)
        rw [h2] at h1
        cases h1
    | none =>
      simp only [Except.ok.injEq]
      constructor
      · intro h
        refine ⟨h, ?_⟩
        intro path hp
        have := List.find?_eq_none.mp hf path hp
        simpa using this
      · rintro ⟨h, _⟩
        exact h

theorem writePaths_reduceTask (jobName dataDir : String) (reduceF : ReduceF) (nMap : Int)
    (p : Nat) (path : String) :
    path ∈ writePaths (reduceTask jobName dataDir reduceF nMap p) ↔
      path = mergeName dataDir jobName (Int.ofNat p) :=
  mem_writePaths_reduce rfl path

theorem workerWith_reduce_empty (writable : String → Bool) (c : JSONCodec) (it : MapIter)
    (fs : FS) (jobName dataDir : String) (reduceF : ReduceF) (p : Nat)
    (hw : writable (mergeName dataDir jobName (Int.ofNat p)) = true) :
    workerWith writable c it fs (reduceTask jobName dataDir reduceF (Int.ofNat 0) p) =
      .ok (fs.write (mergeName dataDir jobName (Int.ofNat p)) "",
        { opened := [], calls := [] }) := by
  rw [workerWith_ok_iff]
  refine ⟨worker_reduce_empty c it fs jobName dataDir reduceF p, ?_⟩
  intro path hp
  rw [(writePaths_reduceTask _ _ _ _ _ _).mp hp]
  exact hw

theorem weight_set (l : List TaskStatus) : ∀ (idx : Nat) (old new : TaskStatus),
    l[idx]? = some old →
    ((l.set idx new).map TaskStatus.weight).sum + old.weight =
      (l.map TaskStatus.weight).sum + new.weight := by
  induction l with
  | nil =>
    intro idx old new h
    cases h
  | cons a l ih =>
    intro idx old new h
    cases idx with
    | zero =>
      simp only [List.getElem?_cons_zero] at h
      cases h
      simp only [List.set_cons_zero, List.map_cons, List.sum_cons]
      omega
    | succ n =>
      simp only [List.getElem?_cons_succ] at h
      have := ih n old new h
      simp only [List.set_cons_succ, List.map_cons, List.sum_cons]
      omega

theorem isAborted_false_of (s : JobState) (h : s.isAborted = false) (e : Abort) :
    s.pc ≠ CoordPC.aborted e := by
  intro hpc
  unfold JobState.isAborted at h
  rw [hpc] at h
  cases h

theorem setStatus_remaining (j : Job) (s : JobState) (phase : jobPhase) (idx : Nat)
    (old new : TaskStatus) (hab : s.isAborted = false) (h0 : s.status phase idx = some old)
    (hw : new.weight + 1 = old.weight) :
    (s.setStatus phase idx new).remaining j + 1 = s.remaining j := by
  unfold JobState.status at h0
  unfold JobState.remaining
  by_cases hp : phase = jobPhase.mapPhase
  · rw [if_pos hp] at h0
    have hset := weight_set s.mapSt idx old new h0
    have e1 : (s.setStatus phase idx new).isAborted = s.isAborted := by
      unfold JobState.setStatus; rw [if_pos hp]; rfl
    have e2 : (s.setStatus phase idx new).coordRemaining j = s.coordRemaining j := by
      unfold JobState.setStatus; rw [if_pos hp]
      unfold JobState.coordRemaining
      simp only [List.length_set]
    have e3 : (s.setStatus phase idx new).mapSt = s.mapSt.set idx new := by
      unfold JobState.setStatus; rw [if_pos hp]
    have e4 : (s.setStatus phase idx new).reduceSt = s.reduceSt := by
      unfold JobState.setStatus; rw [if_pos hp]
    rw [e1, e2, e3, e4, hab]
    simp only [Bool.false_eq_true, if_false]
    omega
  · rw [if_neg hp] at h0
    have hset := weight_set s.reduceSt idx old new h0
    have e1 : (s.setStatus phase idx new).isAborted = s.isAborted := by
      unfold JobState.setStatus; rw [if_neg hp]; rfl
    have e2 : (s.setStatus phase idx new).coordRemaining j = s.coordRemaining j := by
      unfold JobState.setStatus; rw [if_neg hp]
      unfold JobState.coordRemaining
      simp only [List.length_set]
    have e3 : (s.setStatus phase idx new).mapSt = s.mapSt := by
      unfold JobState.setStatus; rw [if_neg hp]
    have e4 : (s.setStatus phase idx new).reduceSt = s.reduceSt.set idx new := by
      unfold JobState.setStatus; rw [if_neg hp]
    rw [e1, e2, e3, e4, hab]
    simp only [Bool.false_eq_true, if_false]
    omega

theorem coordStep_remaining (j : Job) (s s2 : JobState) (h : coordStep j s = some s2) :
    s2.remaining j < s.remaining j := by
  unfold coordStep at h
  cases hpc : s.pc with
  | mapCreate i =>
    rw [hpc] at h
    simp only at h
    split_ifs at h with hbig hlt
    · cases h
      simp [JobState.remaining, JobState.coordRemaining, JobState.isAborted, hpc]
    · cases h
      simp [JobState.remaining, JobState.coordRemaining, JobState.isAborted, hpc,
        TaskStatus.weight]
      all_goals omega
    · cases h
      simp [JobState.remaining, JobState.coordRemaining, JobState.isAborted, hpc]
      all_goals omega
  | mapWait k =>
    rw [hpc] at h
    simp only at h
    split_ifs at h with hlt hd hneg
    · cases h
      simp [JobState.remaining, JobState.coordRemaining, JobState.isAborted, hpc]
      all_goals omega
    · cases h
      simp [JobState.remaining, JobState.coordRemaining, JobState.isAborted, hpc]
    · cases h
      simp [JobState.remaining, JobState.coordRemaining, JobState.isAborted, hpc]
      all_goals omega
  | reduceCreate i =>
    rw [hpc] at h
    simp only at h
    have hcast : (Int.ofNat i) = (i : Int) := rfl
    split_ifs at h with hlt
    · cases h
      simp [JobState.remaining, JobState.coordRemaining, JobState.isAborted, hpc,
        TaskStatus.weight]
      all_goals omega
    · cases h
      simp [JobState.remaining, JobState.coordRemaining, JobState.isAborted, hpc]
      all_goals omega
  | reduceWait k =>
    rw [hpc] at h
    simp only at h
    split_ifs at h with hlt hd hbig
    · cases h
      simp [JobState.remaining, JobState.coordRemaining, JobState.isAborted, hpc]
      all_goals omega
    · cases h
      simp [JobState.remaining, JobState.coordRemaining, JobState.isAborted, hpc]
    · cases h
      simp [JobState.remaining, JobState.coordRemaining, JobState.isAborted, hpc]
      all_goals omega
  | notify =>
    rw [hpc] at h
    cases h
    simp [JobState.remaining, JobState.coordRemaining, JobState.isAborted, hpc]
  | finished =>
    rw [hpc] at h
    cases h
  | aborted e =>
    rw [hpc] at h
    cases h

theorem step_remaining (j : Job) (s s2 : JobState) (a : Action) (h : step j s a = some s2) :
    s2.remaining j < s.remaining j := by
  cases a with
  | coord => exact coordStep_remaining j s s2 h
  | start phase index =>
    rw [step_start] at h
    split_ifs at h with hen
    cases h
    have := setStatus_remaining j s phase index TaskStatus.queued TaskStatus.running hen.1
      hen.2.1 rfl
    omega
  | finish phase index =>
    rw [step_finish] at h
    split_ifs at h with hen
    cases hw : workerWith j.writable j.c j.it s.fs (j.task phase index) with
    | error e =>
      rw [hw] at h
      cases h
      have h1 : JobState.remaining j { s with pc := CoordPC.aborted e } = 0 := rfl
      rw [h1]
      unfold JobState.remaining
      rw [hen.1]
      simp only [Bool.false_eq_true, if_false]
      omega
    | ok r =>
      obtain ⟨fs2, lg⟩ := r
      rw [hw] at h
      cases h
      have := setStatus_remaining j s phase index TaskStatus.running TaskStatus.done hen.1
        hen.2 rfl
      have h1 : JobState.remaining j
          { (s.setStatus phase index TaskStatus.done) with fs := fs2 } =
          (s.setStatus phase index TaskStatus.done).remaining j := rfl
      rw [h1]
      omega

theorem exec_remaining (j : Job) (actions : List Action) :
    ∀ (s s2 : JobState), exec j s actions = some s2 →
      actions.length + s2.remaining j ≤ s.remaining j := by
  induction actions with
  | nil =>
    intro s s2 h
    cases h
    simp
  | cons a rest ih =>
    intro s s2 h
    unfold exec at h
    cases hs : step j s a with
    | none =>
      rw [hs] at h
      cases h
    | some s1 =>
      rw [hs] at h
      have := ih s1 s2 h
      have := step_remaining j s s1 a hs
      simp only [List.length_cons]
      omega

theorem exists_running (l : List TaskStatus) (h : 0 < l.count TaskStatus.running) :
    ∃ idx : Nat, l[idx]? = some TaskStatus.running :=
  List.mem_iff_getElem?.mp (List.count_pos_iff.mp h)

theorem finish_enabled (j : Job) (s : JobState) (phase : jobPhase) (idx : Nat)
    (hab : s.isAborted = false) (h : s.status phase idx = some TaskStatus.running) :
    ∃ s2, step j s (Action.finish phase idx) = some s2 := by
  rw [step_finish, if_pos ⟨hab, h⟩]
  cases hw : workerWith j.writable j.c j.it s.fs (j.task phase idx) with
  | error e => exact ⟨_, rfl⟩
  | ok r =>
    obtain ⟨fs2, lg⟩ := r
    exact ⟨_, rfl⟩

theorem task_enabled (j : Job) (s : JobState) (phase : jobPhase) (idx : Nat)
    (st : TaskStatus) (hw : 1 ≤ j.nWorkers) (hab : s.isAborted = false)
    (h : s.status phase idx = some st) (hne : st ≠ TaskStatus.done) :
    ∃ a s2, a ≠ Action.coord ∧ step j s a = some s2 := by
  cases st with
  | done => exact absurd rfl hne
  | running =>
    obtain ⟨s2, h2⟩ := finish_enabled j s phase idx hab h
    exact ⟨_, s2, by simp, h2⟩
  | queued =>
    by_cases hb : s.busy < j.nWorkers
    · refine ⟨Action.start phase idx, s.setStatus phase idx TaskStatus.running, by simp, ?_⟩
      rw [step_start, if_pos ⟨hab, h, hb⟩]
    · have hpos : 0 < s.busy := by omega
      unfold JobState.busy at hpos
      by_cases hm : 0 < s.mapSt.count TaskStatus.running
      · obtain ⟨i, hi⟩ := exists_running _ hm
        obtain ⟨s2, h2⟩ := finish_enabled j s jobPhase.mapPhase i hab
          (by unfold JobState.status; rw [if_pos rfl]; exact hi)
        exact ⟨_, s2, by simp, h2⟩
      · obtain ⟨i, hi⟩ := exists_running s.reduceSt (by omega)
        obtain ⟨s2, h2⟩ := finish_enabled j s jobPhase.reducePhase i hab
          (by unfold JobState.status; rw [if_neg (by decide)]; exact hi)
        exact ⟨_, s2, by simp, h2⟩

theorem progress (j : Job) (s : JobState) (hw : 1 ≤ j.nWorkers) (hab : s.isAborted = false)
    (hfin : s.pc ≠ CoordPC.finished) : ∃ a s2, step j s a = some s2 := by
  have hwait : ∀ (phase : jobPhase) (k : Nat) (st : TaskStatus),
      s.status phase k = some st → st ≠ TaskStatus.done → ∃ a s2, step j s a = some s2 := by
    intro phase k st h hne
    obtain ⟨a, s2, _, h2⟩ := task_enabled j s phase k st hw hab h hne
    exact ⟨a, s2, h2⟩
  cases hpc : s.pc with
  | mapCreate i =>
    refine ⟨Action.coord, ?_⟩
    show ∃ s2, coordStep j s = some s2
    unfold coordStep
    rw [hpc]
    simp only
    split_ifs <;> exact ⟨_, rfl⟩
  | mapWait k =>
    by_cases hlt : k < s.mapSt.length
    · by_cases hd : s.mapSt[k]? = some TaskStatus.done
      · refine ⟨Action.coord, ?_⟩
        show ∃ s2, coordStep j s = some s2
        unfold coordStep
        rw [hpc]
        simp only
        rw [if_pos hlt, if_pos hd]
        exact ⟨_, rfl⟩
      · have hk : s.mapSt[k]? = some s.mapSt[k] := List.getElem?_eq_getElem hlt
        apply hwait jobPhase.mapPhase k s.mapSt[k]
        · unfold JobState.status
          rw [if_pos rfl]
          exact hk
        · intro hcon
          rw [hcon] at hk
          exact hd hk
    · refine ⟨Action.coord, ?_⟩
      show ∃ s2, coordStep j s = some s2
      unfold coordStep
      rw [hpc]
      simp only
      rw [if_neg hlt]
      split_ifs <;> exact ⟨_, rfl⟩
  | reduceCreate i =>
    refine ⟨Action.coord, ?_⟩
    show ∃ s2, coordStep j s = some s2
    unfold coordStep
    rw [hpc]
    simp only
    split_ifs <;> exact ⟨_, rfl⟩
  | reduceWait k =>
    by_cases hlt : k < s.reduceSt.length
    · by_cases hd : s.reduceSt[k]? = some TaskStatus.done
      · refine ⟨Action.coord, ?_⟩
        show ∃ s2, coordStep j s = some s2
        unfold coordStep
        rw [hpc]
        simp only
        rw [if_pos hlt, if_pos hd]
        exact ⟨_, rfl⟩
      · have hk : s.reduceSt[k]? = some s.reduceSt[k] := List.getElem?_eq_getElem hlt
        apply hwait jobPhase.reducePhase k s.reduceSt[k]
        · unfold JobState.status
          rw [if_neg (by decide)]
          exact hk
        · intro hcon
          rw [hcon] at hk
          exact hd hk
    · refine ⟨Action.coord, ?_⟩
      show ∃ s2, coordStep j s = some s2
      unfold coordStep
      rw [hpc]
      simp only
      rw [if_neg hlt]
      split_ifs <;> exact ⟨_, rfl⟩
  | notify =>
    refine ⟨Action.coord, ?_⟩
    show ∃ s2, coordStep j s = some s2
    unfold coordStep
    rw [hpc]
    exact ⟨_, rfl⟩
  | finished => exact absurd hpc hfin
  | aborted e => exact absurd hpc (isAborted_false_of s hab e)

theorem Inv_reduce_len (j : Job) (s : JobState) (hI : s.Inv j) (hab : s.isAborted = false) :
    s.reduceSt.length ≤ j.nReduce.toNat := by
  obtain ⟨h1, h2, h3, h4, h5, _⟩ := hI
  cases hpc : s.pc with
  | mapCreate i => rw [(h1 i hpc).2.2]; exact Nat.zero_le _
  | mapWait k => rw [(h2 k hpc).2.2]; exact Nat.zero_le _
  | reduceCreate i =>
    obtain ⟨_, _, c, d⟩ := h3 i hpc
    omega
  | reduceWait k =>
    obtain ⟨_, _, c, _⟩ := h4 k hpc
    omega
  | notify =>
    obtain ⟨_, _, c, _⟩ := h5 (Or.inl hpc)
    omega
  | finished =>
    obtain ⟨_, _, c, _⟩ := h5 (Or.inr hpc)
    omega
  | aborted e => exact absurd hpc (isAborted_false_of s hab e)

theorem EmptyInv_init (j : Job) (fs : FS) : (JobState.init fs).EmptyInv j fs := by
  refine ⟨rfl, rfl, ?_, ?_, ?_⟩
  · intro h; cases h
  · intro p h; cases h
  · intro path h; exact absurd rfl h

theorem EmptyInv_coordStep (j : Job) (fs : FS) (s s2 : JobState) (hempty : j.mapFiles = [])
    (h0 : 0 ≤ j.nReduce) (halloc : 16 * j.nReduce.toNat ≤ j.maxAlloc)
    (hE : s.EmptyInv j fs) (h : coordStep j s = some s2) :
    s2.EmptyInv j fs := by
  obtain ⟨e1, e2, e3, e4, e5⟩ := hE
  unfold coordStep at h
  cases hpc : s.pc with
  | mapCreate i =>
    rw [hpc] at h
    simp only at h
    split_ifs at h with hbig hlt
    · rw [hempty] at hbig
      simp at hbig
    · rw [hempty] at hlt
      exact absurd hlt (Nat.not_lt_zero i)
    · cases h
      refine ⟨e1, rfl, ?_, e4, e5⟩
      intro hc; cases hc
  | mapWait k =>
    rw [hpc] at h
    simp only at h
    split_ifs at h with hlt hd hneg
    · rw [e1] at hlt
      exact absurd hlt (Nat.not_lt_zero k)
    · omega
    · cases h
      refine ⟨e1, rfl, ?_, e4, e5⟩
      intro hc; cases hc
  | reduceCreate i =>
    rw [hpc] at h
    simp only at h
    split_ifs at h with hlt
    · cases h
      refine ⟨e1, rfl, ?_, ?_, ?_⟩
      · intro hc; cases hc
      · intro p hp
        apply e4
        by_cases hpl : p < s.reduceSt.length
        · rw [List.getElem?_append_left hpl] at hp
          exact hp
        · exfalso
          have hp2 : (s.reduceSt ++ [TaskStatus.queued])[p]? = some TaskStatus.done := hp
          rw [List.getElem?_append_right (by omega)] at hp2
          by_cases hz : p - s.reduceSt.length = 0
          · rw [hz] at hp2
            cases hp2
          · rw [List.getElem?_eq_none (by simp; omega)] at hp2
            cases hp2
      · intro path hne
        obtain ⟨p, hp, hpath⟩ := e5 path hne
        refine ⟨p, ?_, hpath⟩
        show p < (s.reduceSt ++ [TaskStatus.queued]).length
        rw [List.length_append]
        omega
    · cases h
      refine ⟨e1, rfl, ?_, e4, e5⟩
      intro hc; cases hc
  | reduceWait k =>
    rw [hpc] at h
    simp only at h
    split_ifs at h with hlt hd hbig
    · cases h
      refine ⟨e1, rfl, ?_, e4, e5⟩
      intro hc; cases hc
    · omega
    · cases h
      refine ⟨e1, rfl, ?_, e4, e5⟩
      intro hc; cases hc
  | notify =>
    rw [hpc] at h
    cases h
    exact ⟨e1, rfl, fun _ => rfl, e4, e5⟩
  | finished =>
    rw [hpc] at h
    cases h
  | aborted e =>
    rw [hpc] at h
    cases h

theorem status_map_none (s : JobState) (idx : Nat) (h : s.mapSt = []) :
    s.status jobPhase.mapPhase idx = none := by
  unfold JobState.status
  rw [if_pos rfl, h]
  rfl

theorem task_reduce_empty (j : Job) (hempty : j.mapFiles = []) (index : Nat) :
    j.task jobPhase.reducePhase index =
      reduceTask j.jobName j.dataDir j.reduceF (Int.ofNat 0) index := by
  unfold Job.task
  rw [if_neg (by decide), hempty]
  rfl

theorem EmptyInv_step (j : Job) (fs : FS) (s s2 : JobState) (a : Action)
    (hempty : j.mapFiles = []) (h0 : 0 ≤ j.nReduce)
    (halloc : 16 * j.nReduce.toNat ≤ j.maxAlloc)
    (hwrite : ∀ p : Nat, p < j.nReduce.toNat →
      j.writable (mergeName j.dataDir j.jobName (Int.ofNat p)) = true)
    (hI : s.Inv j) (hE : s.EmptyInv j fs)
    (h : step j s a = some s2) : s2.EmptyInv j fs := by
  cases a with
  | coord => exact EmptyInv_coordStep j fs s s2 hempty h0 halloc hE h
  | start phase index =>
    obtain ⟨e1, e2, e3, e4, e5⟩ := hE
    rw [step_start] at h
    split_ifs at h with hen
    cases h
    cases phase with
    | mapPhase =>
      rw [status_map_none s index e1] at hen
      exact absurd hen.2.1 (by simp)
    | reducePhase =>
      have hst : s.reduceSt[index]? = some TaskStatus.queued := hen.2.1
      refine ⟨e1, e2, e3, ?_, ?_⟩
      · intro p hp
        apply e4
        have hp2 : (s.reduceSt.set index TaskStatus.running)[p]? = some TaskStatus.done := hp
        rw [List.getElem?_set] at hp2
        by_cases hip : index = p
        · rw [if_pos hip] at hp2
          split_ifs at hp2
          cases hp2
        · rw [if_neg hip] at hp2
          exact hp2
      · intro path hne
        obtain ⟨p, hp, hpath⟩ := e5 path hne
        refine ⟨p, ?_, hpath⟩
        show p < (s.reduceSt.set index TaskStatus.running).length
        rw [List.length_set]
        exact hp
  | finish phase index =>
    have hlen := Inv_reduce_len j s hI hE.2.1
    obtain ⟨e1, e2, e3, e4, e5⟩ := hE
    rw [step_finish] at h
    split_ifs at h with hen
    cases phase with
    | mapPhase =>
      rw [status_map_none s index e1] at hen
      exact absurd hen.2 (by simp)
    | reducePhase =>
      have hst : s.reduceSt[index]? = some TaskStatus.running := hen.2
      have hidx : index < s.reduceSt.length := by
        by_contra hcon
        rw [List.getElem?_eq_none (by omega)] at hst
        cases hst
      rw [task_reduce_empty j hempty index,
        workerWith_reduce_empty _ _ _ _ _ _ _ _ (hwrite index (by omega))] at h
      cases h
      refine ⟨e1, e2, e3, ?_, ?_⟩
      · intro p hp
        show (s.fs.write (mergeName j.dataDir j.jobName (Int.ofNat index)) "")
          (mergeName j.dataDir j.jobName (Int.ofNat p)) = some ""
        unfold FS.write
        by_cases hpath : mergeName j.dataDir j.jobName (Int.ofNat p) =
            mergeName j.dataDir j.jobName (Int.ofNat index)
        · exact if_pos hpath
        · rw [if_neg hpath]
          apply e4
          have hp2 : (s.reduceSt.set index TaskStatus.done)[p]? = some TaskStatus.done := hp
          rw [List.getElem?_set] at hp2
          by_cases hip : index = p
          · exact absurd (by rw [hip]) hpath
          · rw [if_neg hip] at hp2
            exact hp2
      · intro path hne
        show ∃ p : Nat, p < (s.reduceSt.set index TaskStatus.done).length ∧ _
        rw [List.length_set]
        by_cases hpath : path = mergeName j.dataDir j.jobName (Int.ofNat index)
        · exact ⟨index, hidx, hpath⟩
        · apply e5
          intro hcon
          apply hne
          show (s.fs.write (mergeName j.dataDir j.jobName (Int.ofNat index)) "") path = _
          unfold FS.write
          rw [if_neg hpath]
          exact hcon

theorem EmptyInv_exec (j : Job) (fs : FS) (hempty : j.mapFiles = []) (h0 : 0 ≤ j.nReduce)
    (halloc : 16 * j.nReduce.toNat ≤ j.maxAlloc)
    (hwrite : ∀ p : Nat, p < j.nReduce.toNat →
      j.writable (mergeName j.dataDir j.jobName (Int.ofNat p)) = true)
    (actions : List Action) :
    ∀ (s s2 : JobState), s.Inv j → s.EmptyInv j fs → exec j s actions = some s2 →
      s2.EmptyInv j fs := by
  induction actions with
  | nil =>
    intro s s2 _ hE h
    cases h
    exact hE
  | cons a rest ih =>
    intro s s2 hI hE h
    unfold exec at h
    cases hs : step j s a with
    | none =>
      rw [hs] at h
      cases h
    | some s1 =>
      rw [hs] at h
      exact ih s1 s2 (Inv_step j s s1 a hI hs)
        (EmptyInv_step j fs s s1 a hempty h0 halloc hwrite hI hE hs) h

theorem Stuck_init (p : Nat) (fs : FS) : (JobState.init fs).Stuck p := by
  refine ⟨?_, rfl, ?_, ?_, ?_⟩
  · intro h; cases h
  · intro h; cases h
  · intro h; cases h
  · intro k h; cases h

theorem Stuck_of_pc (p : Nat) (s s2 : JobState) (hS : s.Stuck p)
    (hr : s2.reduceSt = s.reduceSt) (hd : s2.delivered = s.delivered)
    (h1 : s2.pc ≠ CoordPC.notify) (h2 : s2.pc ≠ CoordPC.finished)
    (h3 : ∀ k, s2.pc = CoordPC.reduceWait k → k ≤ p) : s2.Stuck p := by
  obtain ⟨u1, u2, _, _, _⟩ := hS
  refine ⟨?_, ?_, h1, h2, h3⟩
  · rw [hr]
    exact u1
  · rw [hd]
    exact u2

theorem Stuck_coordStep (j : Job) (p : Nat) (s s2 : JobState) (hp : p < j.nReduce.toNat)
    (hI : s.Inv j) (hS : s.Stuck p) (h : coordStep j s = some s2) : s2.Stuck p := by
  have hS0 := hS
  obtain ⟨u1, u2, u3, u4, u5⟩ := hS
  unfold coordStep at h
  cases hpc : s.pc with
  | mapCreate i =>
    rw [hpc] at h
    simp only at h
    split_ifs at h <;> cases h <;>
      exact Stuck_of_pc p s _ hS0 rfl rfl (by intro hc; cases hc) (by intro hc; cases hc)
        (by intro k hc; cases hc)
  | mapWait k =>
    rw [hpc] at h
    simp only at h
    split_ifs at h <;> cases h <;>
      exact Stuck_of_pc p s _ hS0 rfl rfl (by intro hc; cases hc) (by intro hc; cases hc)
        (by intro k hc; cases hc)
  | reduceCreate i =>
    rw [hpc] at h
    simp only at h
    split_ifs at h with hlt
    · cases h
      refine ⟨?_, u2, ?_, ?_, ?_⟩
      rotate_left
      · intro hc; cases hc
      · intro hc; cases hc
      · intro k hc; cases hc
      intro hd
      have hd2 : (s.reduceSt ++ [TaskStatus.queued])[p]? = some TaskStatus.done := hd
      by_cases hpl : p < s.reduceSt.length
      · rw [List.getElem?_append_left hpl] at hd2
        exact u1 hd2
      · rw [List.getElem?_append_right (by omega)] at hd2
        by_cases hz : p - s.reduceSt.length = 0
        · rw [hz] at hd2
          cases hd2
        · rw [List.getElem?_eq_none (by simp; omega)] at hd2
          cases hd2
    · cases h
      refine Stuck_of_pc p s _ hS0 rfl rfl (by intro hc; cases hc) (by intro hc; cases hc) ?_
      intro k hc
      cases hc
      exact Nat.zero_le _
  | reduceWait k =>
    rw [hpc] at h
    simp only at h
    have hk := u5 k hpc
    have hlen := (hI.2.2.2.1 k hpc).2.2.1
    split_ifs at h with hlt hd hbig
    · cases h
      refine Stuck_of_pc p s _ hS0 rfl rfl (by intro hc; cases hc) (by intro hc; cases hc) ?_
      intro k2 hc
      cases hc
      by_cases hkp : k = p
      · rw [hkp] at hd
        exact absurd hd u1
      · omega
    · omega
    · omega
  | notify => exact absurd hpc u3
  | finished => exact absurd hpc u4
  | aborted e =>
    rw [hpc] at h
    cases h

theorem Stuck_setStatus (p : Nat) (s : JobState) (phase : jobPhase) (idx : Nat)
    (st : TaskStatus) (hS : s.Stuck p)
    (hst : ¬ (phase = jobPhase.reducePhase ∧ idx = p ∧ st = TaskStatus.done)) :
    (s.setStatus phase idx st).Stuck p := by
  obtain ⟨u1, u2, u3, u4, u5⟩ := hS
  unfold JobState.setStatus
  by_cases hp : phase = jobPhase.mapPhase
  · rw [if_pos hp]
    exact ⟨u1, u2, u3, u4, u5⟩
  · rw [if_neg hp]
    refine ⟨?_, u2, u3, u4, u5⟩
    intro hd
    have hd2 : (s.reduceSt.set idx st)[p]? = some TaskStatus.done := hd
    rw [List.getElem?_set] at hd2
    by_cases hip : idx = p
    · rw [if_pos hip] at hd2
      split_ifs at hd2
      · apply hst
        refine ⟨?_, hip, Option.some.inj hd2⟩
        cases phase
        · exact absurd rfl hp
        · rfl
    · rw [if_neg hip] at hd2
      exact u1 hd2

theorem Stuck_step (j : Job) (p : Nat) (s s2 : JobState) (a : Action)
    (hp : p < j.nReduce.toNat)
    (hw : j.writable (mergeName j.dataDir j.jobName (Int.ofNat p)) = false)
    (hI : s.Inv j) (hS : s.Stuck p) (h : step j s a = some s2) : s2.Stuck p := by
  cases a with
  | coord => exact Stuck_coordStep j p s s2 hp hI hS h
  | start phase index =>
    rw [step_start] at h
    split_ifs at h with hen
    cases h
    exact Stuck_setStatus p s phase index _ hS (fun hc => by cases hc.2.2)
  | finish phase index =>
    rw [step_finish] at h
    split_ifs at h with hen
    cases hwk : workerWith j.writable j.c j.it s.fs (j.task phase index) with
    | error e =>
      rw [hwk] at h
      cases h
      exact Stuck_of_pc p s _ hS rfl rfl (by intro hc; cases hc) (by intro hc; cases hc)
        (by intro k hc; cases hc)
    | ok r =>
      obtain ⟨fs2, lg⟩ := r
      rw [hwk] at h
      cases h
      have hS2 : (s.setStatus phase index TaskStatus.done).Stuck p := by
        apply Stuck_setStatus p s phase index _ hS
        rintro ⟨hph, hidx, _⟩
        subst hph
        subst hidx
        have hall := ((workerWith_ok_iff _ _ _ _ _ _).mp hwk).2
        have hmem : mergeName j.dataDir j.jobName (Int.ofNat index) ∈
            writePaths (j.task jobPhase.reducePhase index) := by
          unfold Job.task
          rw [if_neg (by decide)]
          exact (writePaths_reduceTask _ _ _ _ _ _).mpr rfl
        rw [hall _ hmem] at hw
        cases hw
      exact hS2

theorem Stuck_exec (j : Job) (p : Nat) (hp : p < j.nReduce.toNat)
    (hw : j.writable (mergeName j.dataDir j.jobName (Int.ofNat p)) = false)
    (actions : List Action) :
    ∀ (s s2 : JobState), s.Inv j → s.Stuck p → exec j s actions = some s2 → s2.Stuck p := by
  induction actions with
  | nil =>
    intro s s2 _ hS h
    cases h
    exact hS
  | cons a rest ih =>
    intro s s2 hI hS h
    unfold exec at h
    cases hs : step j s a with
    | none =>
      rw [hs] at h
      cases h
    | some s1 =>
      rw [hs] at h
      exact ih s1 s2 (Inv_step j s s1 a hI hs) (Stuck_step j p s s1 a hp hw hI hS hs) h

theorem never_delivered (j : Job) (fs : FS) (p : Nat) (hp : p < j.nReduce.toNat)
    (hw : j.writable (mergeName j.dataDir j.jobName (Int.ofNat p)) = false)
    (actions : List Action) (s : JobState) (h : exec j (JobState.init fs) actions = some s) :
    s.delivered = none ∧ s.pc ≠ CoordPC.finished := by
  obtain ⟨_, u2, _, u4, _⟩ :=
    Stuck_exec j p hp hw actions _ s (Inv_init j fs) (Stuck_init p fs) h
  exact ⟨u2, u4⟩

theorem Unsent_of (s : JobState) (hd : s.delivered = none) (h1 : s.pc ≠ CoordPC.notify)
    (h2 : s.pc ≠ CoordPC.finished) : s.Unsent :=
  ⟨hd, h1, h2⟩

theorem Unsent_step (j : Job) (s s2 : JobState) (a : Action)
    (hbig : 16 * j.nReduce.toNat > j.maxAlloc) (hU : s.Unsent)
    (h : step j s a = some s2) : s2.Unsent := by
  obtain ⟨u1, u2, u3⟩ := hU
  cases a with
  | coord =>
    have h1 : coordStep j s = some s2 := h
    unfold coordStep at h1
    cases hpc : s.pc with
    | mapCreate i =>
      rw [hpc] at h1
      simp only at h1
      split_ifs at h1 <;> cases h1 <;>
        exact Unsent_of _ u1 (by intro hc; cases hc) (by intro hc; cases hc)
    | mapWait k =>
      rw [hpc] at h1
      simp only at h1
      split_ifs at h1 <;> cases h1 <;>
        exact Unsent_of _ u1 (by intro hc; cases hc) (by intro hc; cases hc)
    | reduceCreate i =>
      rw [hpc] at h1
      simp only at h1
      split_ifs at h1 <;> cases h1 <;>
        exact Unsent_of _ u1 (by intro hc; cases hc) (by intro hc; cases hc)
    | reduceWait k =>
      rw [hpc] at h1
      simp only at h1
      split_ifs at h1 <;> cases h1 <;>
        exact Unsent_of _ u1 (by intro hc; cases hc) (by intro hc; cases hc)
    | notify => exact absurd hpc u2
    | finished => exact absurd hpc u3
    | aborted e =>
      rw [hpc] at h1
      cases h1
  | start phase index =>
    rw [step_start] at h
    split_ifs at h with hen
    cases h
    unfold JobState.setStatus
    split_ifs <;> exact ⟨u1, u2, u3⟩
  | finish phase index =>
    rw [step_finish] at h
    split_ifs at h with hen
    cases hwk : workerWith j.writable j.c j.it s.fs (j.task phase index) with
    | error e =>
      rw [hwk] at h
      cases h
      exact Unsent_of _ u1 (by intro hc; cases hc) (by intro hc; cases hc)
    | ok r =>
      obtain ⟨fs2, lg⟩ := r
      rw [hwk] at h
      cases h
      unfold JobState.setStatus
      split_ifs <;> exact ⟨u1, u2, u3⟩

theorem never_sent (j : Job) (hbig : 16 * j.nReduce.toNat > j.maxAlloc)
    (actions : List Action) :
    ∀ (s s2 : JobState), s.Unsent → exec j s actions = some s2 → s2.Unsent := by
  induction actions with
  | nil =>
    intro s s2 hU h
    cases h
    exact hU
  | cons a rest ih =>
    intro s s2 hU h
    unfold exec at h
    cases hs : step j s a with
    | none =>
      rw [hs] at h
      cases h
    | some s1 =>
      rw [hs] at h
      exact ih s1 s2 (Unsent_step j s s1 a hbig hU hs) h

theorem init_remaining (j : Job) (fs : FS) :
    (JobState.init fs).remaining j = 4 * j.mapFiles.length + 4 * j.nReduce.toNat + 6 := by
  simp [JobState.remaining, JobState.coordRemaining, JobState.isAborted, JobState.init]
  omega

theorem remaining_pos (j : Job) (s : JobState) (h : s.isAborted = false) :
    1 ≤ s.remaining j := by
  unfold JobState.remaining
  rw [h]
  simp only [Bool.false_eq_true, if_false]
  omega

theorem mem_results (j : Job) (p : Nat) (h : p < j.nReduce.toNat) :
    mergeName j.dataDir j.jobName (Int.ofNat p) ∈ j.results :=
  List.mem_map.mpr ⟨p, List.mem_range.mpr h, rfl⟩

theorem all_done_get (l : List TaskStatus) (h : ∀ st ∈ l, st = TaskStatus.done) (p : Nat)
    (hp : p < l.length) : l[p]? = some TaskStatus.done := by
  rw [List.getElem?_eq_getElem hp, h l[p] (List.getElem_mem hp)]

/-- C12 (empty input), amended: take a job whose list of input files is empty and
whose number of reduce tasks is not negative.  If the write of each of the nReduce
output files succeeds and a slice of nReduce strings can be allocated, the job
completes: each reduce task opens no file, calls the reduce function for no key and
writes the empty content to its output path; and under every schedule no map task is
ever built, the process never ends by an error, there are at most 4 * nReduce + 5
steps, a state that is not the final one always has a step it can take when the
cluster has a worker, and in the final state the list of the nReduce output paths
has been delivered, each of them holds an empty file and every other path is as it
was.  If the write of some output file fails, or the slice cannot be allocated, then
under every schedule nothing is delivered and the end of run is never reached. -/
theorem empty_input (j : Job) (fs : FS) (hempty : j.mapFiles = []) (h0 : 0 ≤ j.nReduce) :
    (16 * j.nReduce.toNat ≤ j.maxAlloc ∧
      (∀ p : Nat, p < j.nReduce.toNat →
        j.writable (mergeName j.dataDir j.jobName (Int.ofNat p)) = true) →
      (∀ (p : Nat) (fs1 : FS), p < j.nReduce.toNat →
        workerWith j.writable j.c j.it fs1 (j.task jobPhase.reducePhase p) =
          .ok (fs1.write (mergeName j.dataDir j.jobName (Int.ofNat p)) "",
            { opened := [], calls := [] })) ∧
      ∀ (actions : List Action) (s : JobState), exec j (JobState.init fs) actions = some s →
        s.mapSt = [] ∧ s.isAborted = false ∧ actions.length ≤ 4 * j.nReduce.toNat + 5 ∧
        (1 ≤ j.nWorkers → s.pc ≠ CoordPC.finished → ∃ a s2, step j s a = some s2) ∧
        (s.pc = CoordPC.finished →
          s.delivered = some j.results ∧ j.results.length = j.nReduce.toNat ∧
          (∀ p : Nat, p < j.nReduce.toNat →
            s.fs (mergeName j.dataDir j.jobName (Int.ofNat p)) = some "") ∧
          (∀ path, path ∉ j.results → s.fs path = fs path))) ∧
    ((16 * j.nReduce.toNat > j.maxAlloc ∨
        ∃ p : Nat, p < j.nReduce.toNat ∧
          j.writable (mergeName j.dataDir j.jobName (Int.ofNat p)) = false) →
      ∀ (actions : List Action) (s : JobState), exec j (JobState.init fs) actions = some s →
        s.delivered = none ∧ s.pc ≠ CoordPC.finished) := by
  constructor
  · rintro ⟨halloc, hwrite⟩
    constructor
    · intro p fs1 hp
      rw [task_reduce_empty j hempty p]
      exact workerWith_reduce_empty _ _ _ _ _ _ _ _ (hwrite p hp)
    · intro actions s hexec
      have hI : s.Inv j := Inv_exec j actions _ s (Inv_init j fs) hexec
      obtain ⟨e1, e2, e3, e4, e5⟩ :=
        EmptyInv_exec j fs hempty h0 halloc hwrite actions _ s (Inv_init j fs)
          (EmptyInv_init j fs) hexec
      refine ⟨e1, e2, ?_, ?_, ?_⟩
      · have h1 := exec_remaining j actions _ s hexec
        have h2 := remaining_pos j s e2
        rw [init_remaining, hempty] at h1
        simp only [List.length_nil] at h1
        omega
      · intro hw hfin
        exact progress j s hw e2 hfin
      · intro hfin
        obtain ⟨_, _, hlen, hall⟩ := hI.2.2.2.2.1 (Or.inr hfin)
        refine ⟨e3 hfin, by simp [Job.results], ?_, ?_⟩
        · intro p hp
          exact e4 p (all_done_get _ hall p (by omega))
        · intro path hpath
          by_contra hne
          obtain ⟨p, hp, h⟩ := e5 path hne
          apply hpath
          rw [h]
          exact mem_results j p (by omega)
  · rintro (hbig | ⟨p, hp, hw⟩) actions s hexec
    · obtain ⟨u1, _, u3⟩ := never_sent j hbig actions _ s
        (Unsent_of _ rfl (by intro hc; cases hc) (by intro hc; cases hc)) hexec
      exact ⟨u1, u3⟩
    · exact never_delivered j fs p hp hw actions s hexec

theorem exec_empty_final :
    exec emptyJob (JobState.init wordFS) emptySchedule = some emptyFinal :=
  exec_getD _ _ _ _ (by decide)

theorem empty_input_witness :
    (emptyJob.mapFiles = [] ∧ (0 : Int) ≤ emptyJob.nReduce) ∧
    (16 * emptyJob.nReduce.toNat ≤ emptyJob.maxAlloc ∧
      ∀ p : Nat, p < emptyJob.nReduce.toNat →
        emptyJob.writable (mergeName emptyJob.dataDir emptyJob.jobName (Int.ofNat p)) = true) ∧
    exec emptyJob (JobState.init wordFS) emptySchedule = some emptyFinal ∧
    emptyFinal.pc = CoordPC.finished ∧
    emptySchedule.length = 4 * emptyJob.nReduce.toNat + 5 ∧
    emptyFinal.delivered = some ["/tmp/mrtmp.wc-res-0", "/tmp/mrtmp.wc-res-1"] ∧
    emptyFinal.fs "/tmp/mrtmp.wc-res-0" = some "" ∧
    emptyFinal.fs "/tmp/mrtmp.wc-res-1" = some "" ∧
    ((∀ (p : Nat) (fs1 : FS), p < emptyJob.nReduce.toNat →
        workerWith emptyJob.writable emptyJob.c emptyJob.it fs1
            (emptyJob.task jobPhase.reducePhase p) =
          .ok (fs1.write (mergeName emptyJob.dataDir emptyJob.jobName (Int.ofNat p)) "",
            { opened := [], calls := [] })) ∧
      ∀ (actions : List Action) (s : JobState),
        exec emptyJob (JobState.init wordFS) actions = some s →
        s.mapSt = [] ∧ s.isAborted = false ∧
        actions.length ≤ 4 * emptyJob.nReduce.toNat + 5 ∧
        (1 ≤ emptyJob.nWorkers → s.pc ≠ CoordPC.finished →
          ∃ a s2, step emptyJob s a = some s2) ∧
        (s.pc = CoordPC.finished →
          s.delivered = some emptyJob.results ∧
          emptyJob.results.length = emptyJob.nReduce.toNat ∧
          (∀ p : Nat, p < emptyJob.nReduce.toNat →
            s.fs (mergeName emptyJob.dataDir emptyJob.jobName (Int.ofNat p)) = some "") ∧
          (∀ path, path ∉ emptyJob.results → s.fs path = wordFS path))) :=
  ⟨⟨rfl, by decide⟩, ⟨by decide, fun _ _ => rfl⟩, exec_empty_final, by decide, by decide,
    by decide, by decide, by decide,
    (empty_input emptyJob wordFS rfl (by decide)).1 ⟨by decide, fun _ _ => rfl⟩⟩

/-- C12, counterexample: a job without input files and with one reduce task, in a
data directory where no write succeeds.  The reduce task ends the process on the
write of its output file; nothing is delivered, under this schedule and under every
other one. -/
theorem empty_input_counterexample :
    unwritableJob.mapFiles = [] ∧ (0 : Int) ≤ unwritableJob.nReduce ∧
    (exec unwritableJob (JobState.init wordFS) unwritableSchedule).map
        (fun s => (s.pc, s.delivered)) =
      some (CoordPC.aborted (Abort.cannotWrite "/nonexistent-dir/mrtmp.nd-res-0"), none) ∧
    ∀ (actions : List Action) (s : JobState),
      exec unwritableJob (JobState.init wordFS) actions = some s →
        s.delivered = none ∧ s.pc ≠ CoordPC.finished :=
  ⟨rfl, by decide, by decide,
    never_delivered unwritableJob wordFS 0 (by decide) rfl⟩

/-! ## `urltop10.go`: the count map -/

theorem IntMap.lookup_nil (k : String) : IntMap.get [] k = 0 := rfl

theorem IntMap.lookup_cons (k0 : String) (v0 : Int) (m : IntMap) (k : String) :
    IntMap.get ((k0, v0) :: m) k = if k = k0 then v0 else IntMap.get m k := by
  unfold IntMap.get
  by_cases h : k = k0
  · subst h
    simp [List.lookup]
  · have : (k == k0) = false := by simpa using h
    simp [List.lookup, this, h]

theorem IntMap.lookup_set (m : IntMap) (k : String) (v : Int) (k2 : String) :
    IntMap.get (IntMap.set m k v) k2 = if k2 = k then v else IntMap.get m k2 := by
  induction m with
  | nil =>
    unfold IntMap.set
    rw [IntMap.lookup_cons, IntMap.lookup_nil]
  | cons e m ih =>
    obtain ⟨k0, v0⟩ := e
    unfold IntMap.set
    by_cases h : k0 = k
    · subst h
      rw [if_pos rfl, IntMap.lookup_cons, IntMap.lookup_cons]
      by_cases h2 : k2 = k0
      · rw [if_pos h2, if_pos h2]
      · rw [if_neg h2, if_neg h2, if_neg h2]
    · rw [if_neg h, IntMap.lookup_cons, IntMap.lookup_cons, ih]
      by_cases h2 : k2 = k0
      · subst h2
        have h3 : ¬ k2 = k := h
        rw [if_pos rfl, if_pos rfl, if_neg h3]
      · rw [if_neg h2, if_neg h2]

theorem IntMap.keys_after_set (m : IntMap) (k : String) (v : Int) :
    IntMap.keys (IntMap.set m k v) =
      if k ∈ IntMap.keys m then IntMap.keys m else IntMap.keys m ++ [k] := by
  induction m with
  | nil => simp [IntMap.set, IntMap.keys]
  | cons e m ih =>
    obtain ⟨k0, v0⟩ := e
    unfold IntMap.set
    by_cases h : k0 = k
    · subst h
      simp [IntMap.keys]
    · rw [if_neg h]
      have hk : IntMap.keys ((k0, v0) :: IntMap.set m k v) =
          k0 :: IntMap.keys (IntMap.set m k v) := rfl
      have hk2 : IntMap.keys ((k0, v0) :: m) = k0 :: IntMap.keys m := rfl
      rw [hk, hk2, ih]
      have hne : ¬ k = k0 := fun e => h e.symm
      by_cases h2 : k ∈ IntMap.keys m
      · simp [h2]
      · simp [h2, hne]

theorem IntMap.mem_get (m : IntMap) (hnd : (IntMap.keys m).Nodup) (k : String) (v : Int)
    (h : (k, v) ∈ m) : IntMap.get m k = v := by
  induction m with
  | nil => cases h
  | cons e m ih =>
    obtain ⟨k0, v0⟩ := e
    have hk2 : IntMap.keys ((k0, v0) :: m) = k0 :: IntMap.keys m := rfl
    rw [hk2, List.nodup_cons] at hnd
    rw [IntMap.lookup_cons]
    rcases List.mem_cons.mp h with h1 | h1
    · cases h1
      exact if_pos rfl
    · have hk : k ∈ IntMap.keys m := List.mem_map.mpr ⟨(k, v), h1, rfl⟩
      have hne : ¬ k = k0 := fun e => hnd.1 (e ▸ hk)
      rw [if_neg hne]
      exact ih hnd.2 h1

theorem wrap64_idem (x : Int) : wrap64 (wrap64 x) = wrap64 x := by
  unfold wrap64
  omega

theorem wrap64_add (x y : Int) : wrap64 (wrap64 x + y) = wrap64 (x + y) := by
  unfold wrap64
  omega

theorem wrap64_eq (x : Int) (h1 : -(2 ^ 63) ≤ x) (h2 : x < 2 ^ 63) : wrap64 x = x := by
  unfold wrap64
  omega

theorem wrap64_range (x : Int) : -(2 ^ 63) ≤ wrap64 x ∧ wrap64 x < 2 ^ 63 := by
  unfold wrap64
  omega

theorem countLoop_spec : ∀ (lines : List String) (m : IntMap), (IntMap.keys m).Nodup →
    (∀ k, wrap64 (IntMap.get m k) = IntMap.get m k) →
    (IntMap.keys (countLoop lines m)).Nodup ∧
    (∀ k, k ∈ IntMap.keys (countLoop lines m) ↔
      (k ∈ IntMap.keys m ∨ k ∈ (lines.map TrimSpace).filter fun l => decide (l ≠ ""))) ∧
    (∀ k, IntMap.get (countLoop lines m) k =
      wrap64 (IntMap.get m k +
        Int.ofNat (((lines.map TrimSpace).filter fun l => decide (l ≠ "")).count k))) := by
  intro lines
  induction lines with
  | nil =>
    intro m hnd hw
    refine ⟨hnd, ?_, ?_⟩
    · intro k
      simp [countLoop]
    · intro k
      simp only [countLoop, List.map_nil, List.filter_nil, List.count_nil]
      rw [show IntMap.get m k + Int.ofNat 0 = IntMap.get m k from Int.add_zero _]
      exact (hw k).symm
  | cons l lines ih =>
    intro m hnd hw
    unfold countLoop
    simp only [List.map_cons]
    by_cases hl : TrimSpace l = ""
    · rw [if_pos hl, List.filter_cons_of_neg (by simp [hl])]
      exact ih m hnd hw
    · rw [if_neg hl, List.filter_cons_of_pos (by simp [hl])]
      have hnd2 : (IntMap.keys (IntMap.set m (TrimSpace l)
          (wrap64 (IntMap.get m (TrimSpace l) + 1)))).Nodup := by
        rw [IntMap.keys_after_set]
        by_cases h2 : TrimSpace l ∈ IntMap.keys m
        · rw [if_pos h2]
          exact hnd
        · rw [if_neg h2, List.nodup_append]
          refine ⟨hnd, List.nodup_singleton _, ?_⟩
          intro a ha hb
          rw [List.mem_singleton] at hb
          subst hb
          exact h2 ha
      have hw2 : ∀ k, wrap64 (IntMap.get (IntMap.set m (TrimSpace l)
          (wrap64 (IntMap.get m (TrimSpace l) + 1))) k) =
          IntMap.get (IntMap.set m (TrimSpace l) (wrap64 (IntMap.get m (TrimSpace l) + 1))) k := by
        intro k
        rw [IntMap.lookup_set]
        by_cases hk : k = TrimSpace l
        · rw [if_pos hk]
          exact wrap64_idem _
        · rw [if_neg hk]
          exact hw k
      obtain ⟨h1, h2, h3⟩ := ih _ hnd2 hw2
      refine ⟨h1, ?_, ?_⟩
      · intro k
        rw [h2, IntMap.keys_after_set]
        by_cases h4 : TrimSpace l ∈ IntMap.keys m
        · rw [if_pos h4, List.mem_cons]
          constructor
          · rintro (h | h)
            · exact Or.inl h
            · exact Or.inr (Or.inr h)
          · rintro (h | h | h)
            · exact Or.inl h
            · exact Or.inl (h ▸ h4)
            · exact Or.inr h
        · rw [if_neg h4, List.mem_cons, List.mem_append, List.mem_singleton]
          constructor
          · rintro ((h | h) | h)
            · exact Or.inl h
            · exact Or.inr (Or.inl h)
            · exact Or.inr (Or.inr h)
          · rintro (h | h | h)
            · exact Or.inl (Or.inl h)
            · exact Or.inl (Or.inr h)
            · exact Or.inr h
      · intro k
        rw [h3, IntMap.lookup_set, List.count_cons]
        by_cases hk : k = TrimSpace l
        · subst hk
          rw [if_pos rfl, wrap64_add]
          congr 1
          simp only [beq_self_eq_true, if_true]
          have : Int.ofNat ((List.filter (fun l => decide (l ≠ "")) (List.map TrimSpace lines)).count
              (TrimSpace l) + 1) = Int.ofNat ((List.filter (fun l => decide (l ≠ ""))
              (List.map TrimSpace lines)).count (TrimSpace l)) + 1 := rfl
          rw [this]
          omega
        · rw [if_neg hk]
          have hb : (TrimSpace l == k) = false := by
            simpa using fun e => hk e.symm
          rw [hb]
          simp

theorem utf8Bytes_length_pos (c : Char) : 1 ≤ (utf8Bytes c).length := by
  unfold utf8Bytes
  simp only []
  split_ifs <;> simp

theorem length_le_bytes (s : String) : s.data.length ≤ (bytesOf s).length := by
  unfold bytesOf
  induction s.data with
  | nil => simp
  | cons c cs ih =>
    rw [List.flatMap_cons, List.length_append, List.length_cons]
    have := utf8Bytes_length_pos c
    omega

theorem splitChars_ne_nil (sep : Char) (l : List Char) : splitChars sep l ≠ [] := by
  cases l with
  | nil => simp [splitChars]
  | cons c cs =>
    unfold splitChars
    split_ifs
    · simp
    · cases splitChars sep cs <;> simp

theorem splitChars_sum (sep : Char) (l : List Char) :
    ((splitChars sep l).map List.length).sum ≤ l.length := by
  induction l with
  | nil => simp [splitChars]
  | cons c cs ih =>
    unfold splitChars
    split_ifs
    · simp only [List.map_cons, List.sum_cons, List.length_nil, List.length_cons]
      omega
    · cases hs : splitChars sep cs with
      | nil => exact absurd hs (splitChars_ne_nil sep cs)
      | cons p ps =>
        rw [hs] at ih
        simp only [List.map_cons, List.sum_cons, List.length_cons] at ih ⊢
        omega

theorem countP_le_sum (P : List Char → Bool) (hP : ∀ p, P p = true → p ≠ [])
    (ps : List (List Char)) : ps.countP P ≤ (ps.map List.length).sum := by
  induction ps with
  | nil => simp
  | cons p ps ih =>
    rw [List.countP_cons, List.map_cons, List.sum_cons]
    by_cases h : P p = true
    · have : 1 ≤ p.length := List.length_pos.mpr (hP p h)
      rw [if_pos h]
      omega
    · rw [if_neg h]
      omega

theorem nonBlankLines_length (contents : String) :
    (nonBlankLines contents).length ≤ (bytesOf contents).length := by
  have h1 : (nonBlankLines contents).length =
      (splitChars '\n' contents.data).countP
        (fun p => decide (TrimSpace ⟨p⟩ ≠ "")) := by
    unfold nonBlankLines Split
    rw [List.map_map, ← List.countP_eq_length_filter, List.countP_map]
    rfl
  rw [h1]
  refine le_trans (countP_le_sum _ ?_ _) (le_trans (splitChars_sum _ _) (length_le_bytes _))
  intro p hp hnil
  subst hnil
  revert hp
  decide

theorem mem_nonBlankLines (contents k : String) :
    k ∈ nonBlankLines contents ↔ k ≠ "" ∧ ∃ l ∈ Split contents '\n', TrimSpace l = k := by
  unfold nonBlankLines
  rw [List.mem_filter, List.mem_map]
  constructor
  · rintro ⟨h1, h2⟩
    exact ⟨by simpa using h2, h1⟩
  · rintro ⟨h1, h2⟩
    exact ⟨h2, by simpa using h1⟩

theorem count_nonBlankLines (contents k : String) (hk : k ≠ "") :
    (nonBlankLines contents).count k = ((Split contents '\n').map TrimSpace).count k := by
  unfold nonBlankLines
  exact List.count_filter (by simpa using hk)

theorem URLCountMap_keys (it : IntIter) (filename contents : String) :
    ((URLCountMap it filename contents).map KeyValue.Key).Perm
      (IntMap.keys (countLoop (Split contents '\n') [])) := by
  unfold URLCountMap
  simp only [List.map_map]
  exact (it.perm _).map _

/-- C14 (URLCountMap counts lines): for every contents string (of a length that
fits an int, as the length of every Go string does) and every order of iteration of
the map, the keys of the records URLCountMap returns are pairwise distinct; a string
is a key exactly when it is not empty and some line of contents (split on line
feeds) trims to it; the value of each record is the decimal rendering of the number
of lines that trim to its key; these numbers add up to the number of lines that are
not blank; and the filename has no effect. -/
theorem url_count_map (it : IntIter) (filename contents : String)
    (hlen : (bytesOf contents).length < 2 ^ 63) :
    ((URLCountMap it filename contents).map KeyValue.Key).Nodup ∧
    (∀ k, k ∈ (URLCountMap it filename contents).map KeyValue.Key ↔
      k ≠ "" ∧ ∃ l ∈ Split contents '\n', TrimSpace l = k) ∧
    (∀ kv ∈ URLCountMap it filename contents,
      kv.Value = Itoa (Int.ofNat (((Split contents '\n').map TrimSpace).count kv.Key))) ∧
    ((URLCountMap it filename contents).map fun kv =>
      ((Split contents '\n').map TrimSpace).count kv.Key).sum =
        (nonBlankLines contents).length ∧
    ∀ filename2, URLCountMap it filename2 contents = URLCountMap it filename contents := by
  obtain ⟨hnd, hmem, hget⟩ := countLoop_spec (Split contents '\n') [] List.nodup_nil
    (fun k => wrap64_eq 0 (by decide) (by decide))
  have hperm := URLCountMap_keys it filename contents
  have hkey : ∀ k, k ∈ (URLCountMap it filename contents).map KeyValue.Key ↔
      k ∈ nonBlankLines contents := by
    intro k
    rw [hperm.mem_iff, hmem]
    constructor
    · rintro (h | h)
      · cases h
      · exact h
    · intro h
      exact Or.inr h
  refine ⟨hperm.nodup_iff.mpr hnd, ?_, ?_, ?_, ?_⟩
  · intro k
    rw [hkey, mem_nonBlankLines]
  · intro kv hkv
    have hk : kv.Key ∈ nonBlankLines contents :=
      (hkey kv.Key).mp (List.mem_map.mpr ⟨kv, hkv, rfl⟩)
    have hne : kv.Key ≠ "" := ((mem_nonBlankLines contents kv.Key).mp hk).1
    unfold URLCountMap at hkv
    obtain ⟨e, he, hf⟩ := List.mem_map.mp hkv
    obtain ⟨k, v⟩ := e
    have he2 : (k, v) ∈ countLoop (Split contents '\n') [] := (it.perm _).mem_iff.mp he
    have hv := IntMap.mem_get _ hnd k v he2
    rw [hget k] at hv
    rw [← hf] at hne ⊢
    show Itoa v = Itoa (Int.ofNat (((Split contents '\n').map TrimSpace).count k))
    have hle : (nonBlankLines contents).count k ≤ (nonBlankLines contents).length :=
      List.count_le_length _ _
    have hb := nonBlankLines_length contents
    have hcast : Int.ofNat ((nonBlankLines contents).count k) =
        (((nonBlankLines contents).count k : Nat) : Int) := rfl
    have hv2 : v = Int.ofNat ((nonBlankLines contents).count k) := by
      rw [← hv]
      show wrap64 (0 + Int.ofNat ((nonBlankLines contents).count k)) = _
      rw [Int.zero_add]
      apply wrap64_eq
      · rw [hcast]
        omega
      · rw [hcast]
        omega
    rw [hv2, count_nonBlankLines contents k hne]
  · have h1 : ((URLCountMap it filename contents).map fun kv =>
        ((Split contents '\n').map TrimSpace).count kv.Key) =
        ((URLCountMap it filename contents).map KeyValue.Key).map fun k =>
          ((Split contents '\n').map TrimSpace).count k := by
      rw [List.map_map]
      rfl
    have h2 : ((URLCountMap it filename contents).map KeyValue.Key).Perm
        (nonBlankLines contents).dedup := by
      rw [List.perm_ext_iff_of_nodup (hperm.nodup_iff.mpr hnd) (List.nodup_dedup _)]
      intro k
      rw [hkey, List.mem_dedup]
    rw [h1, (h2.map _).sum_eq, ← List.sum_map_count_dedup_eq_length (nonBlankLines contents)]
    congr 1
    apply List.map_congr_left
    intro k hk
    rw [List.mem_dedup] at hk
    exact (count_nonBlankLines contents k ((mem_nonBlankLines contents k).mp hk).1).symm
  · intro filename2
    rfl

theorem url_count_map_witness :
    (bytesOf " a b \nc\n\n a b\n\t\nc\nc").length < 2 ^ 63 ∧
    URLCountMap IntIter.reversed "f" " a b \nc\n\n a b\n\t\nc\nc" =
      [⟨"c", "3"⟩, ⟨"a b", "2"⟩] ∧
    nonBlankLines " a b \nc\n\n a b\n\t\nc\nc" = ["a b", "c", "a b", "c", "c"] ∧
    (((URLCountMap IntIter.reversed "f" " a b \nc\n\n a b\n\t\nc\nc").map
      KeyValue.Key).Nodup ∧
    (∀ k, k ∈ (URLCountMap IntIter.reversed "f" " a b \nc\n\n a b\n\t\nc\nc").map
        KeyValue.Key ↔
      k ≠ "" ∧ ∃ l ∈ Split " a b \nc\n\n a b\n\t\nc\nc" '\n', TrimSpace l = k) ∧
    (∀ kv ∈ URLCountMap IntIter.reversed "f" " a b \nc\n\n a b\n\t\nc\nc",
      kv.Value = Itoa (Int.ofNat
        (((Split " a b \nc\n\n a b\n\t\nc\nc" '\n').map TrimSpace).count kv.Key))) ∧
    ((URLCountMap IntIter.reversed "f" " a b \nc\n\n a b\n\t\nc\nc").map fun kv =>
      ((Split " a b \nc\n\n a b\n\t\nc\nc" '\n').map TrimSpace).count kv.Key).sum =
        (nonBlankLines " a b \nc\n\n a b\n\t\nc\nc").length ∧
    ∀ filename2, URLCountMap IntIter.reversed filename2 " a b \nc\n\n a b\n\t\nc\nc" =
      URLCountMap IntIter.reversed "f" " a b \nc\n\n a b\n\t\nc\nc") :=
  ⟨by decide, by decide, by decide,
    url_count_map IntIter.reversed "f" " a b \nc\n\n a b\n\t\nc\nc" (by decide)⟩

/-! ## `urltop10.go`: `strconv.Atoi` and `URLCountReduce` -/

theorem foldl_digits_ge (ds : List Char) : ∀ acc : Nat,
    acc ≤ ds.foldl (fun n c => n * 10 + (c.toNat - 48)) acc := by
  induction ds with
  | nil => intro acc; exact Nat.le_refl _
  | cons c cs ih =>
    intro acc
    rw [List.foldl_cons]
    have := ih (acc * 10 + (c.toNat - 48))
    omega

theorem parseUintLoop_ok (ds : List Char) : ∀ (acc n : Nat), acc ≤ 2 ^ 64 - 1 →
    (parseUintLoop ds acc = .ok n ↔
      (∀ c ∈ ds, 48 ≤ c.toNat ∧ c.toNat ≤ 57) ∧
      n = ds.foldl (fun n c => n * 10 + (c.toNat - 48)) acc ∧ n ≤ 2 ^ 64 - 1) := by
  induction ds with
  | nil =>
    intro acc n hacc
    unfold parseUintLoop
    constructor
    · intro h
      cases h
      exact ⟨fun c hc => absurd hc (List.not_mem_nil c), rfl, hacc⟩
    · rintro ⟨_, h, _⟩
      rw [h]
      rfl
  | cons c cs ih =>
    intro acc n hacc
    unfold parseUintLoop
    rw [List.foldl_cons]
    have hge := foldl_digits_ge cs (acc * 10 + (c.toNat - 48))
    by_cases hd : 48 ≤ c.toNat ∧ c.toNat ≤ 57
    · rw [if_pos hd]
      by_cases hcut : acc ≥ (2 ^ 64 - 1) / 10 + 1
      · rw [if_pos hcut]
        constructor
        · intro h; cases h
        · rintro ⟨_, h, hn⟩
          exfalso
          omega
      · rw [if_neg hcut]
        simp only []
        by_cases hmax : acc * 10 + (c.toNat - 48) > 2 ^ 64 - 1
        · rw [if_pos hmax]
          constructor
          · intro h; cases h
          · rintro ⟨_, h, hn⟩
            exfalso
            omega
        · rw [if_neg hmax, ih _ n (by omega)]
          constructor
          · rintro ⟨h1, h2, h3⟩
            refine ⟨?_, h2, h3⟩
            intro x hx
            rcases List.mem_cons.mp hx with h | h
            · rw [h]; exact hd
            · exact h1 x h
          · rintro ⟨h1, h2, h3⟩
            exact ⟨fun x hx => h1 x (List.mem_cons_of_mem _ hx), h2, h3⟩
    · rw [if_neg hd]
      constructor
      · intro h; cases h
      · rintro ⟨h, _, _⟩
        exact absurd (h c (List.mem_cons_self _ _)) hd

theorem ParseUint_ok (ds : List Char) (n : Nat) :
    ParseUint ds = .ok n ↔
      ds ≠ [] ∧ (∀ c ∈ ds, 48 ≤ c.toNat ∧ c.toNat ≤ 57) ∧ n = decimalValue ds ∧
      n ≤ 2 ^ 64 - 1 := by
  unfold ParseUint decimalValue
  by_cases h : ds = []
  · rw [if_pos h]
    constructor
    · intro h2; cases h2
    · rintro ⟨h2, _⟩
      exact absurd h h2
  · rw [if_neg h, parseUintLoop_ok ds 0 n (by omega)]
    constructor
    · intro h2
      exact ⟨h, h2⟩
    · intro h2
      exact h2.2

theorem Atoi_cons (v : String) (c : Char) (rest : List Char) (n : Int)
    (hv : v.data = c :: rest) :
    Atoi v = .ok n ↔
      ∃ un, ParseUint (if c = '+' ∨ c = '-' then rest else c :: rest) = .ok un ∧
        if c = '-' then un ≤ 2 ^ 63 ∧ n = - Int.ofNat un
        else un < 2 ^ 63 ∧ n = Int.ofNat un := by
  unfold Atoi
  rw [hv]
  simp only []
  cases hp : ParseUint (if c = '+' ∨ c = '-' then rest else c :: rest) with
  | error e =>
    cases e
    · simp
    · simp
  | ok un =>
    simp only [Except.ok.injEq, exists_eq_left']
    by_cases hc : c = '-'
    · subst hc
      simp only [decide_True, if_true]
      by_cases h1 : un > 2 ^ 63
      · rw [if_neg (by simp), if_pos ⟨trivial, h1⟩]
        constructor
        · intro h; cases h
        · rintro ⟨h, _⟩
          omega
      · rw [if_neg (by simp), if_neg (by simp; omega)]
        constructor
        · intro h
          cases h
          exact ⟨by omega, rfl⟩
        · rintro ⟨_, h⟩
          rw [h]
    · simp only [hc, decide_False, if_false]
      by_cases h1 : un ≥ 2 ^ 63
      · rw [if_pos ⟨trivial, h1⟩]
        constructor
        · intro h; cases h
        · rintro ⟨h, _⟩
          omega
      · rw [if_neg (by simp; omega), if_neg (by simp)]
        constructor
        · intro h
          cases h
          exact ⟨by omega, rfl⟩
        · rintro ⟨_, h⟩
          rw [h]
          rfl

theorem Atoi_ok (v : String) (n : Int) :
    Atoi v = .ok n ↔ IsDecimal v n ∧ -(2 ^ 63) ≤ n ∧ n < 2 ^ 63 := by
  cases hv : v.data with
  | nil =>
    constructor
    · intro h
      unfold Atoi at h
      rw [hv] at h
      cases h
    · rintro ⟨⟨ds, hne, _, h | h⟩, _⟩
      · rw [hv] at h
        rcases h.1 with h1 | h1
        · exact absurd h1.symm hne
        · cases h1
      · rw [hv] at h
        cases h.1
  | cons c rest =>
    rw [Atoi_cons v c rest n hv]
    have hcast : ∀ k : Nat, Int.ofNat k = (k : Int) := fun _ => rfl
    by_cases hm : c = '-'
    · subst hm
      rw [if_pos (Or.inr rfl)]
      simp only [if_true]
      constructor
      · rintro ⟨un, hp, hle, hn⟩
        obtain ⟨h1, h2, h3, _⟩ := (ParseUint_ok rest un).mp hp
        refine ⟨⟨rest, h1, h2, Or.inr ⟨hv, by rw [hn, h3]⟩⟩, ?_, ?_⟩
        · rw [hn, hcast]; omega
        · rw [hn, hcast]; omega
      · rintro ⟨⟨ds, hne, hdig, h | h⟩, hlo, hhi⟩
        · rw [hv] at h
          rcases h.1 with h1 | h1
          · have := hdig '-' (by rw [← h1]; exact List.mem_cons_self _ _)
            exact absurd this (by decide)
          · have : ('-' : Char) = '+' := (List.cons.inj h1).1
            exact absurd this (by decide)
        · rw [hv] at h
          have hds : rest = ds := (List.cons.inj h.1).2
          subst hds
          have hn := h.2
          rw [hcast] at hn
          refine ⟨decimalValue rest, (ParseUint_ok rest _).mpr ⟨hne, hdig, rfl, by omega⟩,
            by omega, h.2⟩
    · simp only [if_neg hm]
      by_cases hp : c = '+'
      · subst hp
        rw [if_pos (Or.inl rfl)]
        constructor
        · rintro ⟨un, hp, hle, hn⟩
          obtain ⟨h1, h2, h3, _⟩ := (ParseUint_ok rest un).mp hp
          refine ⟨⟨rest, h1, h2, Or.inl ⟨Or.inr hv, by rw [hn, h3]⟩⟩, ?_, ?_⟩
          · rw [hn, hcast]; omega
          · rw [hn, hcast]; omega
        · rintro ⟨⟨ds, hne, hdig, h | h⟩, hlo, hhi⟩
          · rw [hv] at h
            rcases h.1 with h1 | h1
            · have := hdig '+' (by rw [← h1]; exact List.mem_cons_self _ _)
              exact absurd this (by decide)
            · have hds : rest = ds := (List.cons.inj h1).2
              subst hds
              have hn := h.2
              rw [hcast] at hn
              refine ⟨decimalValue rest, (ParseUint_ok rest _).mpr ⟨hne, hdig, rfl, by omega⟩,
                by omega, h.2⟩
          · rw [hv] at h
            have : ('+' : Char) = '-' := (List.cons.inj h.1).1
            exact absurd this (by decide)
      · rw [if_neg (by rintro (h | h); exact hp h; exact hm h)]
        constructor
        · rintro ⟨un, hpu, hle, hn⟩
          obtain ⟨h1, h2, h3, _⟩ := (ParseUint_ok (c :: rest) un).mp hpu
          refine ⟨⟨c :: rest, h1, h2, Or.inl ⟨Or.inl hv, by rw [hn, h3]⟩⟩, ?_, ?_⟩
          · rw [hn, hcast]; omega
          · rw [hn, hcast]; omega
        · rintro ⟨⟨ds, hne, hdig, h | h⟩, hlo, hhi⟩
          · rw [hv] at h
            rcases h.1 with h1 | h1
            · subst h1
              have hn := h.2
              rw [hcast] at hn
              refine ⟨decimalValue (c :: rest),
                (ParseUint_ok _ _).mpr ⟨hne, hdig, rfl, by omega⟩, by omega, h.2⟩
            · exact absurd (List.cons.inj h1).1 hp
          · rw [hv] at h
            exact absurd (List.cons.inj h.1).1 hm

theorem digitChar_toNat : ∀ d, d < 10 → (digitChar d).toNat = 48 + d := by
  decide

theorem IsDigit_range (c : Char) (h : IsDigit c) : 48 ≤ c.toNat ∧ c.toNat ≤ 57 := by
  obtain ⟨d, hd, rfl⟩ := h
  rw [digitChar_toNat d hd]
  omega

theorem decimalValue_formatNat (n : Nat) : decimalValue (formatNat n) = n := by
  induction n using Nat.strong_induction_on with
  | _ n ih =>
    rw [formatNat_eq]
    by_cases hn : n < 10
    · rw [if_pos hn]
      unfold decimalValue
      simp only [List.foldl_cons, List.foldl_nil]
      rw [digitChar_toNat n hn]
      omega
    · rw [if_neg hn]
      have h1 := ih (n / 10) (by omega)
      unfold decimalValue at h1 ⊢
      rw [List.foldl_append, h1]
      simp only [List.foldl_cons, List.foldl_nil]
      rw [digitChar_toNat (n % 10) (by omega)]
      omega

theorem IsDecimal_Itoa (v : Int) : IsDecimal (Itoa v) v := by
  refine ⟨formatNat v.natAbs, formatNat_ne_nil _,
    fun c hc => IsDigit_range c (formatNat_digits _ c hc), ?_⟩
  rw [decimalValue_formatNat]
  have hcast : Int.ofNat v.natAbs = (v.natAbs : Int) := rfl
  unfold Itoa
  by_cases hv : v < 0
  · rw [if_pos hv]
    right
    exact ⟨rfl, by rw [hcast]; omega⟩
  · rw [if_neg hv]
    left
    exact ⟨Or.inl rfl, by rw [hcast]; omega⟩

theorem Atoi_Itoa (v : Int) (h1 : -(2 ^ 63) ≤ v) (h2 : v < 2 ^ 63) : Atoi (Itoa v) = .ok v :=
  (Atoi_ok (Itoa v) v).mpr ⟨IsDecimal_Itoa v, h1, h2⟩

theorem sumLoop_cases : ∀ (values : List String) (acc : Int), wrap64 acc = acc →
    (∃ ns : List Int, values.map Atoi = ns.map Except.ok ∧
      sumLoop values acc = .ok (wrap64 (acc + ns.sum))) ∨
    (∃ v ∈ values, ∃ err, Atoi v = .error err ∧
      sumLoop values acc = .error (Panic.numError err)) := by
  intro values
  induction values with
  | nil =>
    intro acc hacc
    left
    refine ⟨[], rfl, ?_⟩
    unfold sumLoop
    rw [List.sum_nil, Int.add_zero, hacc]
  | cons v values ih =>
    intro acc hacc
    unfold sumLoop
    cases hv : Atoi v with
    | error err =>
      right
      exact ⟨v, List.mem_cons_self _ _, err, hv, rfl⟩
    | ok n =>
      simp only []
      rcases ih (wrap64 (acc + n)) (wrap64_idem _) with ⟨ns, h1, h2⟩ | ⟨w, hw, err, h1, h2⟩
      · left
        refine ⟨n :: ns, ?_, ?_⟩
        · rw [List.map_cons, List.map_cons, hv, h1]
        · rw [h2, wrap64_add, List.sum_cons, Int.add_assoc]
      · right
        exact ⟨w, List.mem_cons_of_mem _ hw, err, h1, h2⟩

theorem map_ok_inj : ∀ (ns ms : List Int),
    ns.map (Except.ok : Int → Except NumError Int) = ms.map Except.ok → ns = ms := by
  intro ns
  induction ns with
  | nil =>
    intro ms h
    cases ms with
    | nil => rfl
    | cons m ms => cases h
  | cons n ns ih =>
    intro ms h
    cases ms with
    | nil => cases h
    | cons m ms =>
      rw [List.map_cons, List.map_cons] at h
      obtain ⟨h1, h2⟩ := List.cons.inj h
      cases h1
      rw [ih ms h2]

theorem URLCountReduce_ok (key : String) (values : List String) (ns : List Int)
    (h : values.map Atoi = ns.map Except.ok) :
    URLCountReduce key values = .ok (key ++ " " ++ Itoa (wrap64 ns.sum) ++ "\n") := by
  unfold URLCountReduce
  rcases sumLoop_cases values 0 (by decide) with ⟨ms, h1, h2⟩ | ⟨w, hw, err, h1, h2⟩
  · rw [h] at h1
    rw [h2, Int.zero_add, map_ok_inj ns ms h1]
  · exfalso
    have hmem : Atoi w ∈ values.map Atoi := List.mem_map.mpr ⟨w, hw, rfl⟩
    rw [h, h1] at hmem
    obtain ⟨_, _, hc⟩ := List.mem_map.mp hmem
    cases hc

theorem URLCountReduce_error (key : String) (values : List String) (e : Panic)
    (h : URLCountReduce key values = .error e) :
    ∃ v ∈ values, ∃ err, Atoi v = .error err ∧ e = Panic.numError err := by
  unfold URLCountReduce at h
  rcases sumLoop_cases values 0 (by decide) with ⟨ms, h1, h2⟩ | ⟨w, hw, err, h1, h2⟩
  · rw [h2] at h
    cases h
  · rw [h2] at h
    cases h
    exact ⟨w, hw, err, h1, rfl⟩

theorem URLCountReduce_panics (key : String) (values : List String)
    (h : ∃ v ∈ values, ∃ err, Atoi v = .error err) :
    ∃ e, URLCountReduce key values = .error e := by
  unfold URLCountReduce
  rcases sumLoop_cases values 0 (by decide) with ⟨ms, h1, h2⟩ | ⟨w, hw, err, h1, h2⟩
  · exfalso
    obtain ⟨v, hv, err, he⟩ := h
    have hmem : Atoi v ∈ values.map Atoi := List.mem_map.mpr ⟨v, hv, rfl⟩
    rw [h1, he] at hmem
    obtain ⟨_, _, hc⟩ := List.mem_map.mp hmem
    cases hc
  · rw [h2]
    exact ⟨_, rfl⟩

/-- C15 (URLCountReduce sums or fails), amended: when strconv.Atoi accepts every
value, URLCountReduce returns the key, a space, the decimal rendering of the sum of
the values reduced to a 64-bit integer in two's complement, and a line feed; that is
the sum itself when it lies between -2^63 and 2^63 - 1, and for the empty list the
result is the key followed by a space, 0 and a line feed.  The function panics
exactly when strconv.Atoi rejects some value, with the error of such a value.
strconv.Atoi accepts exactly the decimal numerals (one or more digits after an
optional sign) of the numbers between -2^63 and 2^63 - 1. -/
theorem url_count_reduce (key : String) (values : List String) :
    (∀ ns : List Int, values.map Atoi = ns.map Except.ok →
      URLCountReduce key values = .ok (key ++ " " ++ Itoa (wrap64 ns.sum) ++ "\n") ∧
      (-(2 ^ 63) ≤ ns.sum ∧ ns.sum < 2 ^ 63 →
        URLCountReduce key values = .ok (key ++ " " ++ Itoa ns.sum ++ "\n"))) ∧
    URLCountReduce key [] = .ok (key ++ " 0\n") ∧
    ((∃ e, URLCountReduce key values = .error e) ↔
      ∃ v ∈ values, ∃ err, Atoi v = .error err) ∧
    (∀ e, URLCountReduce key values = .error e →
      ∃ v ∈ values, ∃ err, Atoi v = .error err ∧ e = Panic.numError err) ∧
    ∀ (v : String) (n : Int), Atoi v = .ok n ↔ IsDecimal v n ∧ -(2 ^ 63) ≤ n ∧ n < 2 ^ 63 := by
  refine ⟨?_, ?_, ⟨?_, URLCountReduce_panics key values⟩, URLCountReduce_error key values,
    Atoi_ok⟩
  · intro ns h
    refine ⟨URLCountReduce_ok key values ns h, ?_⟩
    intro hr
    rw [URLCountReduce_ok key values ns h, wrap64_eq _ hr.1 hr.2]
  · rw [URLCountReduce_ok key [] [] rfl]
    have h1 : Itoa (wrap64 ([] : List Int).sum) = "0" := by decide
    have h2 : (" " : String) ++ "0" ++ "\n" = " 0\n" := by decide
    rw [h1, ← h2, String.append_assoc, String.append_assoc, String.append_assoc]
  · rintro ⟨e, he⟩
    obtain ⟨v, hv, err, h1, _⟩ := URLCountReduce_error key values e he
    exact ⟨v, hv, err, h1⟩

theorem url_count_reduce_witness :
    ["12", "-3", "+4"].map Atoi = ([12, -3, 4] : List Int).map Except.ok ∧
    URLCountReduce "k" ["12", "-3", "+4"] = .ok "k 13\n" ∧
    URLCountReduce "k" ["12", "-3", "+4"] =
      .ok ("k" ++ " " ++ Itoa (wrap64 ([12, -3, 4] : List Int).sum) ++ "\n") :=
  ⟨by decide, by decide,
    ((url_count_reduce "k" ["12", "-3", "+4"]).1 [12, -3, 4] (by decide)).1⟩

/-- C15, counterexample: strconv.Atoi accepts both values, their sum is 2^63, and
URLCountReduce returns the rendering of -2^63 instead. -/
theorem url_count_reduce_counterexample :
    ["9223372036854775807", "1"].map Atoi =
      ([9223372036854775807, 1] : List Int).map Except.ok ∧
    URLCountReduce "k" ["9223372036854775807", "1"] = .ok "k -9223372036854775808\n" ∧
    URLCountReduce "k" ["9223372036854775807", "1"] ≠
      .ok ("k" ++ " " ++ Itoa (([9223372036854775807, 1] : List Int).sum) ++ "\n") := by
  decide

/-! ## `urltop10.go`: from `URLCountReduce` to `FormatData` -/

theorem splitChars_no_sep (sep : Char) (b : List Char) (h : sep ∉ b) :
    splitChars sep b = [b] := by
  induction b with
  | nil => rfl
  | cons c cs ih =>
    unfold splitChars
    have hc : ¬ c = sep := fun e => h (e ▸ List.mem_cons_self _ _)
    rw [if_neg hc, ih (fun hm => h (List.mem_cons_of_mem _ hm))]

theorem splitChars_sep (sep : Char) (a rest : List Char) (h : sep ∉ a) :
    splitChars sep (a ++ sep :: rest) = a :: splitChars sep rest := by
  induction a with
  | nil =>
    rw [List.nil_append, splitChars, if_pos rfl]
  | cons c cs ih =>
    rw [List.cons_append, splitChars]
    have hc : ¬ c = sep := fun e => h (e ▸ List.mem_cons_self _ _)
    rw [if_neg hc, ih (fun hm => h (List.mem_cons_of_mem _ hm))]

theorem trimChars_id (a b : Char) (mid : List Char) (ha : isSpace a = false)
    (hb : isSpace b = false) : trimChars (a :: (mid ++ [b])) = a :: (mid ++ [b]) := by
  unfold trimChars
  rw [List.dropWhile_cons_of_neg (by simp [ha])]
  have hr : (a :: (mid ++ [b])).reverse = b :: (a :: mid).reverse := by
    simp
  rw [hr, List.dropWhile_cons_of_neg (by simp [hb]), ← hr, List.reverse_reverse]

theorem dropWhile_length_le (p : Char → Bool) (l : List Char) :
    (l.dropWhile p).length ≤ l.length := by
  induction l with
  | nil => simp
  | cons c cs ih =>
    by_cases h : p c = true
    · rw [List.dropWhile_cons_of_pos h, List.length_cons]
      omega
    · rw [List.dropWhile_cons_of_neg h]

theorem trimChars_length (l : List Char) : (trimChars l).length ≤ (l.dropWhile isSpace).length := by
  unfold trimChars
  rw [List.length_reverse]
  refine le_trans (dropWhile_length_le _ _) ?_
  rw [List.length_reverse]

theorem trim_fixed_head (c : Char) (cs : List Char) (h : trimChars (c :: cs) = c :: cs) :
    isSpace c = false := by
  by_contra hc
  have hc2 : isSpace c = true := by simpa using hc
  have h1 := trimChars_length (c :: cs)
  rw [h, List.dropWhile_cons_of_pos hc2] at h1
  have h2 := dropWhile_length_le isSpace cs
  simp only [List.length_cons] at h1
  omega

theorem digitChar_plain : ∀ d, d < 10 →
    isSpace (digitChar d) = false ∧ digitChar d ≠ ' ' ∧ digitChar d ≠ '\n' := by
  decide

theorem formatNat_last (n : Nat) : ∃ mid b, formatNat n = mid ++ [b] ∧ IsDigit b := by
  rw [formatNat_eq]
  by_cases hn : n < 10
  · rw [if_pos hn]
    exact ⟨[], digitChar n, rfl, n, hn, rfl⟩
  · rw [if_neg hn]
    exact ⟨formatNat (n / 10), digitChar (n % 10), rfl, n % 10, by omega, rfl⟩

theorem Itoa_last (v : Int) : ∃ mid b, (Itoa v).data = mid ++ [b] ∧ IsDigit b := by
  obtain ⟨mid, b, h, hb⟩ := formatNat_last v.natAbs
  unfold Itoa
  by_cases hv : v < 0
  · rw [if_pos hv]
    exact ⟨'-' :: mid, b, by rw [h]; rfl, hb⟩
  · rw [if_neg hv]
    exact ⟨mid, b, h, hb⟩

theorem Itoa_plain (v : Int) : ' ' ∉ (Itoa v).data ∧ '\n' ∉ (Itoa v).data := by
  have hd : ∀ c ∈ formatNat v.natAbs, c ≠ ' ' ∧ c ≠ '\n' := by
    intro c hc
    obtain ⟨d, hd, rfl⟩ := formatNat_digits _ c hc
    exact (digitChar_plain d hd).2
  unfold Itoa
  by_cases hv : v < 0
  · rw [if_pos hv]
    constructor
    · intro h
      rcases List.mem_cons.mp h with h1 | h1
      · exact absurd h1 (by decide)
      · exact (hd _ h1).1 rfl
    · intro h
      rcases List.mem_cons.mp h with h1 | h1
      · exact absurd h1 (by decide)
      · exact (hd _ h1).2 rfl
  · rw [if_neg hv]
    exact ⟨fun h => (hd _ h).1 rfl, fun h => (hd _ h).2 rfl⟩

theorem FormatData_line (key : String) (s : Int) (c : Char) (cs : List Char)
    (hk : key.data = c :: cs) (hc : isSpace c = false) (hsp : ' ' ∉ key.data)
    (hnl : '\n' ∉ key.data) (h1 : -(2 ^ 63) ≤ s) (h2 : s < 2 ^ 63) :
    FormatData (Split (key ++ " " ++ Itoa s ++ "\n") '\n') = .ok [(key, s)] := by
  obtain ⟨mid, b, hlast, hb⟩ := Itoa_last s
  obtain ⟨d, hd, hbd⟩ := hb
  have hbs : isSpace b = false := by rw [hbd]; exact (digitChar_plain d hd).1
  have hdata : (key ++ " " ++ Itoa s ++ "\n").data =
      (key.data ++ ' ' :: (Itoa s).data) ++ '\n' :: [] := by
    rw [String.data_append, String.data_append, String.data_append]
    simp
  have hnl2 : '\n' ∉ key.data ++ ' ' :: (Itoa s).data := by
    intro h
    rcases List.mem_append.mp h with h3 | h3
    · exact hnl h3
    · rcases List.mem_cons.mp h3 with h4 | h4
      · exact absurd h4 (by decide)
      · exact (Itoa_plain s).2 h4
  have hsplit : Split (key ++ " " ++ Itoa s ++ "\n") '\n' =
      [⟨key.data ++ ' ' :: (Itoa s).data⟩, ""] := by
    unfold Split
    rw [hdata, splitChars_sep _ _ _ hnl2]
    rfl
  have htrim : TrimSpace ⟨key.data ++ ' ' :: (Itoa s).data⟩ =
      ⟨key.data ++ ' ' :: (Itoa s).data⟩ := by
    unfold TrimSpace
    congr 1
    show trimChars (key.data ++ ' ' :: (Itoa s).data) = _
    have hform : key.data ++ ' ' :: (Itoa s).data = c :: ((cs ++ ' ' :: mid) ++ [b]) := by
      rw [hk, hlast]
      simp
    rw [hform]
    exact trimChars_id c b _ hc hbs
  have hne : (⟨key.data ++ ' ' :: (Itoa s).data⟩ : String) ≠ "" := by
    intro h
    have h3 : key.data ++ ' ' :: (Itoa s).data = [] := congrArg String.data h
    rw [hk] at h3
    cases h3
  have hsplit2 : Split ⟨key.data ++ ' ' :: (Itoa s).data⟩ ' ' = [key, Itoa s] := by
    unfold Split
    show (splitChars ' ' (key.data ++ ' ' :: (Itoa s).data)).map _ = _
    rw [splitChars_sep _ _ _ hsp, splitChars_no_sep _ _ (Itoa_plain s).1]
    rfl
  have hblank : TrimSpace "" = "" := by decide
  rw [hsplit]
  unfold FormatData
  rw [formatLoop]
  simp only [htrim, if_neg hne, hsplit2]
  rw [show ([key, Itoa s] : List String)[1]? = some (Itoa s) from rfl]
  simp only [Atoi_Itoa s h1 h2]
  rw [formatLoop]
  simp only [hblank, if_true]
  rfl

theorem splitChars_pieces (sep : Char) (l : List Char) : ∀ p ∈ splitChars sep l, sep ∉ p := by
  induction l with
  | nil =>
    intro p hp
    rw [splitChars, List.mem_singleton] at hp
    rw [hp]
    exact List.not_mem_nil _
  | cons c cs ih =>
    intro p hp
    rw [splitChars] at hp
    by_cases hc : c = sep
    · rw [if_pos hc] at hp
      rcases List.mem_cons.mp hp with h | h
      · rw [h]
        exact List.not_mem_nil _
      · exact ih p h
    · rw [if_neg hc] at hp
      cases hs : splitChars sep cs with
      | nil => exact absurd hs (splitChars_ne_nil sep cs)
      | cons q qs =>
        rw [hs] at hp ih
        rcases List.mem_cons.mp hp with h | h
        · rw [h]
          intro hm
          rcases List.mem_cons.mp hm with h3 | h3
          · exact hc h3.symm
          · exact ih q (List.mem_cons_self _ _) h3
        · exact ih p (List.mem_cons_of_mem _ h)

theorem mem_of_mem_dropWhile (p : Char → Bool) (c : Char) (l : List Char)
    (h : c ∈ l.dropWhile p) : c ∈ l := by
  induction l with
  | nil => exact h
  | cons a as ih =>
    by_cases ha : p a = true
    · rw [List.dropWhile_cons_of_pos ha] at h
      exact List.mem_cons_of_mem _ (ih h)
    · rw [List.dropWhile_cons_of_neg ha] at h
      exact h

theorem mem_of_mem_trimChars (c : Char) (l : List Char) (h : c ∈ trimChars l) : c ∈ l := by
  unfold trimChars at h
  rw [List.mem_reverse] at h
  have h2 := mem_of_mem_dropWhile _ _ _ h
  rw [List.mem_reverse] at h2
  exact mem_of_mem_dropWhile _ _ _ h2

theorem dropWhile_head (p : Char → Bool) (l : List Char) (c : Char) (cs : List Char)
    (h : l.dropWhile p = c :: cs) : p c = false := by
  induction l with
  | nil => cases h
  | cons a as ih =>
    by_cases ha : p a = true
    · rw [List.dropWhile_cons_of_pos ha] at h
      exact ih h
    · rw [List.dropWhile_cons_of_neg ha] at h
      cases h
      simpa using ha

theorem dropWhile_concat (p : Char → Bool) (a : Char) (ha : p a = false) (xs : List Char) :
    (xs ++ [a]).dropWhile p = xs.dropWhile p ++ [a] := by
  induction xs with
  | nil =>
    rw [List.nil_append, List.dropWhile_cons_of_neg (by simp [ha])]
    rfl
  | cons x xs ih =>
    by_cases hx : p x = true
    · rw [List.cons_append, List.dropWhile_cons_of_pos hx, List.dropWhile_cons_of_pos hx, ih]
    · rw [List.cons_append, List.dropWhile_cons_of_neg hx, List.dropWhile_cons_of_neg hx]
      rfl

theorem trimChars_ends (l : List Char) :
    (∀ c cs, trimChars l = c :: cs → isSpace c = false) ∧
    (∀ mid b, trimChars l = mid ++ [b] → isSpace b = false) := by
  unfold trimChars
  constructor
  · intro c cs h
    cases hm : l.dropWhile isSpace with
    | nil =>
      rw [hm] at h
      cases h
    | cons a m =>
      have ha := dropWhile_head _ _ _ _ hm
      rw [hm, List.reverse_cons, dropWhile_concat _ _ ha, List.reverse_append] at h
      cases h
      exact ha
  · intro mid b h
    have h2 := congrArg List.reverse h
    rw [List.reverse_reverse, List.reverse_append] at h2
    exact dropWhile_head _ _ _ _ h2

theorem trimChars_fixed (t : List Char) (h1 : ∀ c cs, t = c :: cs → isSpace c = false)
    (h2 : ∀ mid b, t = mid ++ [b] → isSpace b = false) : trimChars t = t := by
  rcases List.eq_nil_or_concat t with h | ⟨mid, b, h⟩
  · rw [h]
    rfl
  · rw [List.concat_eq_append] at h
    cases mid with
    | nil =>
      rw [h]
      have hb := h2 [] b h
      unfold trimChars
      simp [hb]
    | cons a mid =>
      rw [h]
      exact trimChars_id a b mid (h1 a (mid ++ [b]) h) (h2 (a :: mid) b h)

theorem TrimSpace_idem (s : String) : TrimSpace (TrimSpace s) = TrimSpace s := by
  unfold TrimSpace
  congr 1
  exact trimChars_fixed _ (trimChars_ends s.data).1 (trimChars_ends s.data).2

theorem URLCountMap_mem_keys (it : IntIter) (filename contents k : String) :
    k ∈ (URLCountMap it filename contents).map KeyValue.Key ↔ k ∈ nonBlankLines contents := by
  obtain ⟨_, hmem, _⟩ := countLoop_spec (Split contents '\n') [] List.nodup_nil
    (fun k => wrap64_eq 0 (by decide) (by decide))
  rw [(URLCountMap_keys it filename contents).mem_iff, hmem]
  constructor
  · rintro (h | h)
    · cases h
    · exact h
  · intro h
    exact Or.inr h

theorem emitted_key (it : IntIter) (filename contents key : String)
    (h : key ∈ (URLCountMap it filename contents).map KeyValue.Key) :
    key ≠ "" ∧ TrimSpace key = key ∧ '\n' ∉ key.data := by
  rw [URLCountMap_mem_keys, mem_nonBlankLines] at h
  obtain ⟨hne, l, hl, hk⟩ := h
  refine ⟨hne, ?_, ?_⟩
  · rw [← hk]
    exact TrimSpace_idem l
  · rw [← hk]
    intro hm
    have h2 : '\n' ∈ l.data := mem_of_mem_trimChars _ _ hm
    unfold Split at hl
    obtain ⟨p, hp, hpl⟩ := List.mem_map.mp hl
    rw [← hpl] at h2
    exact splitChars_pieces '\n' contents.data p hp h2

theorem FormatData_round (key : String) (s : Int) (hne : key ≠ "")
    (htrim : TrimSpace key = key) (hsp : ' ' ∉ key.data) (hnl : '\n' ∉ key.data)
    (h1 : -(2 ^ 63) ≤ s) (h2 : s < 2 ^ 63) :
    FormatData (Split (key ++ " " ++ Itoa s ++ "\n") '\n') = .ok [(key, s)] := by
  cases hk : key.data with
  | nil =>
    exfalso
    apply hne
    show key = ⟨[]⟩
    rw [← hk]
  | cons c cs =>
    have hfix : trimChars (c :: cs) = c :: cs := by
      have := congrArg String.data htrim
      rw [← hk]
      exact this
    exact FormatData_line key s c cs hk (trim_fixed_head c cs hfix) hsp hnl h1 h2

/-- C16 (round 1 output is parseable by round 2), amended: for every key that
URLCountMap can emit and that contains no space character, and every list of values
that strconv.Atoi accepts, URLCountReduce returns a text, and FormatData applied to
its lines returns, without a panic, the map with the single entry from the key to
the sum of the values reduced to a 64-bit integer in two's complement, which is the
sum itself when it lies between -2^63 and 2^63 - 1.  Such a key is not empty, is
left unchanged by strings.TrimSpace and contains no line feed. -/
theorem round_one_parseable (it : IntIter) (filename contents key : String)
    (values : List String) (ns : List Int)
    (hkey : key ∈ (URLCountMap it filename contents).map KeyValue.Key)
    (hsp : ' ' ∉ key.data) (hvals : values.map Atoi = ns.map Except.ok) :
    (key ≠ "" ∧ TrimSpace key = key ∧ '\n' ∉ key.data) ∧
    ∃ out, URLCountReduce key values = .ok out ∧
      FormatData (Split out '\n') = .ok [(key, wrap64 ns.sum)] ∧
      (-(2 ^ 63) ≤ ns.sum ∧ ns.sum < 2 ^ 63 →
        FormatData (Split out '\n') = .ok [(key, ns.sum)]) := by
  obtain ⟨hne, htrim, hnl⟩ := emitted_key it filename contents key hkey
  refine ⟨⟨hne, htrim, hnl⟩, _, URLCountReduce_ok key values ns hvals, ?_, ?_⟩
  · exact FormatData_round key _ hne htrim hsp hnl (wrap64_range _).1 (wrap64_range _).2
  · intro hr
    rw [wrap64_eq _ hr.1 hr.2]
    exact FormatData_round key _ hne htrim hsp hnl hr.1 hr.2

theorem round_one_parseable_witness :
    ("a\tb" ∈ (URLCountMap IntIter.insertion "f" "a\tb\nc d\n a\tb ").map KeyValue.Key ∧
      ' ' ∉ "a\tb".data ∧ ["2", "3"].map Atoi = ([2, 3] : List Int).map Except.ok) ∧
    URLCountReduce "a\tb" ["2", "3"] = .ok "a\tb 5\n" ∧
    FormatData (Split "a\tb 5\n" '\n') = .ok [("a\tb", 5)] ∧
    (("a\tb" ≠ "" ∧ TrimSpace "a\tb" = "a\tb" ∧ '\n' ∉ "a\tb".data) ∧
    ∃ out, URLCountReduce "a\tb" ["2", "3"] = .ok out ∧
      FormatData (Split out '\n') = .ok [("a\tb", wrap64 ([2, 3] : List Int).sum)] ∧
      (-(2 ^ 63) ≤ ([2, 3] : List Int).sum ∧ ([2, 3] : List Int).sum < 2 ^ 63 →
        FormatData (Split out '\n') = .ok [("a\tb", ([2, 3] : List Int).sum)])) :=
  ⟨⟨by decide, by decide, by decide⟩, by decide, by decide,
    round_one_parseable IntIter.insertion "f" "a\tb\nc d\n a\tb " "a\tb" ["2", "3"] [2, 3]
      (by decide) (by decide) (by decide)⟩

/-- C16, counterexample: URLCountMap emits the key `a b`, strconv.Atoi accepts the
value, URLCountReduce returns the line `a b 1`, and FormatData panics on it, with the
error of strconv.Atoi for `b`. -/
theorem round_one_parseable_counterexample :
    URLCountMap IntIter.insertion "f" "a b" = [⟨"a b", "1"⟩] ∧
    "a b" ≠ "" ∧ TrimSpace "a b" = "a b" ∧
    ["1"].map Atoi = ([1] : List Int).map Except.ok ∧
    URLCountReduce "a b" ["1"] = .ok "a b 1\n" ∧
    FormatData (Split "a b 1\n" '\n') =
      .error (Panic.numError ⟨"Atoi", "b", StrconvErr.ErrSyntax⟩) := by
  decide

end MapReduce
